import Mathlib

/-!
Shallow embedding of the real-time simulation engine of a browser dungeon
crawler (dungeon generation, enemy AI, combat, frame loop), together with
proofs about the embedded definitions.

Conventions used throughout:
* JavaScript numbers are modelled as rationals.  Math.floor and Math.ceil
  are the integer floor and ceiling.
* Math.sqrt, Math.cos and Math.sin have no exact rational counterpart, so
  every function that uses them takes an oracle of type MathOracle as a
  parameter.  Theorems that need numeric values of the oracle either take
  hypotheses about it or instantiate it with ratSqrt, which agrees with
  the real square root on every rational whose square root is rational.
  Math.random() is modelled by a stream of rationals in [0, 1) together
  with a threaded index counting how many values have been consumed.
* Array reads are modelled by jsGet, which yields none for an
  out-of-range index; a JavaScript read of undefined compares unequal to
  every number, which is what the call sites test for.
-/

/-- MathOracle bundles the transcendental primitives of the source.
cosTurn r and sinTurn r stand for the cosine and sine of the angle r
(for the patrol heading the stored value is the random fraction times
two pi, so the oracle is applied to the stored field exactly as the
source applies Math.cos and Math.sin to the stored heading). -/
structure MathOracle where
  sqrtQ : ℚ → ℚ
  cosTurn : ℚ → ℚ
  sinTurn : ℚ → ℚ
  rand : ℕ → ℚ

/-- natSqrtAux k n is the largest m with m ≤ k and m * m ≤ n (0 for k = 0). -/
def natSqrtAux : ℕ → ℕ → ℕ
  | 0, _ => 0
  | (k+1), n => if (k+1) * (k+1) ≤ n then k+1 else natSqrtAux k n

/-- natSqrtL n is the integer square root of n (largest m with m * m ≤ n). -/
def natSqrtL (n : ℕ) : ℕ := natSqrtAux n n

/-- ratSqrt computes the exact square root of a nonnegative rational whose
numerator and denominator are perfect squares, and 0 otherwise.  It is the
canonical instantiation of MathOracle.sqrtQ: on every input a theorem ever
evaluates it at, its value equals the real square root. -/
def ratSqrt (q : ℚ) : ℚ :=
  if q ≤ 0 then 0
  else
    let a := q.num.toNat
    let b := q.den
    if natSqrtL a * natSqrtL a = a ∧ natSqrtL b * natSqrtL b = b then
      (natSqrtL a : ℚ) / (natSqrtL b : ℚ)
    else 0

/-- ratOracle is the oracle used by concrete evaluations: exact square
roots where they exist; the trigonometric oracles and the random stream
are irrelevant to the evaluated paths and fixed to simple values. -/
def ratOracle : MathOracle :=
  { sqrtQ := ratSqrt, cosTurn := fun _ => 1, sinTurn := fun _ => 0,
    rand := fun _ => 0 }

/-- validRand states that every value of the random stream lies in [0,1),
which is the contract of Math.random(). -/
def validRand (M : MathOracle) : Prop :=
  ∀ k, 0 ≤ M.rand k ∧ M.rand k < 1

/-- jsGet models reading a JavaScript array at a (possibly negative or
too large) integer index: some value in range, none (undefined) outside. -/
def jsGet (l : List ℕ) (i : ℤ) : Option ℕ :=
  if 0 ≤ i then l.get? i.toNat else none

/-- jsOr models the JavaScript expression (v || d) for numbers v that are
not NaN: v when v is nonzero, the default d when v is zero. -/
def jsOr (v d : ℚ) : ℚ := if v = 0 then d else v

/- ------------------------------------------------------------------
Player movement step (SimpleRaycaster.jsx, animate, movement section).
------------------------------------------------------------------- -/

/-- Keys holds the per-frame input flags of keysRef. -/
structure Keys where
  forward : Bool
  backward : Bool
  strafeLeft : Bool
  strafeRight : Bool
  turnLeft : Bool
  turnRight : Bool

/-- passableTile is the test (tileType === 0 || tileType === 9) applied to
a jsGet read: floor and exit portal admit movement, everything else
(walls, and undefined from an out-of-range index) blocks it. -/
def passableTile (t : Option ℕ) : Bool :=
  t == some 0 || t == some 9

/-- moveStep is the forward/backward translation followed by the strafe
translation from the animate loop: each of the two translations computes
its combined destination, reads the single destination tile
mapData[Math.floor(ty) * mapSize + Math.floor(tx)], and applies the whole
translation only when that tile is floor or portal. -/
def moveStep (x y dirX dirY : ℚ) (keys : Keys) (dt : ℚ)
    (mapData : List ℕ) (mapSize : ℤ) : ℚ × ℚ :=
  let walkSpeed : ℚ := 3
  let inputMove : ℚ := (if keys.forward then 1 else 0) + (if keys.backward then -1 else 0)
  let p1 :=
    if inputMove ≠ 0 then
      let step := inputMove * walkSpeed * dt
      let tx := x + dirX * step
      let ty := y + dirY * step
      let mapIdx := ⌊ty⌋ * mapSize + ⌊tx⌋
      let tileType := jsGet mapData mapIdx
      if passableTile tileType then (tx, ty) else (x, y)
    else (x, y)
  let inputStrafe : ℚ := (if keys.strafeLeft then 1 else 0) + (if keys.strafeRight then -1 else 0)
  if inputStrafe ≠ 0 then
    let step := inputStrafe * walkSpeed * dt
    let rx := dirY
    let ry := -dirX
    let tx := p1.1 + rx * step
    let ty := p1.2 + ry * step
    let mapIdx := ⌊ty⌋ * mapSize + ⌊tx⌋
    let tileType := jsGet mapData mapIdx
    if passableTile tileType then (tx, ty) else p1
  else p1

/-- axisSlideStep is a second definition written from the words of the
specification sentence for the movement claim (per-axis collision
rejection: the axis whose own destination tile is blocked loses its
component, the other axis keeps its component).  It exists only to be
compared against moveStep, which is the translation of the source. -/
def axisSlideStep (x y dirX dirY : ℚ) (keys : Keys) (dt : ℚ)
    (mapData : List ℕ) (mapSize : ℤ) : ℚ × ℚ :=
  let walkSpeed : ℚ := 3
  let inputMove : ℚ := (if keys.forward then 1 else 0) + (if keys.backward then -1 else 0)
  let p1 :=
    if inputMove ≠ 0 then
      let step := inputMove * walkSpeed * dt
      let tx := x + dirX * step
      let ty := y + dirY * step
      let nx := if passableTile (jsGet mapData (⌊y⌋ * mapSize + ⌊tx⌋)) then tx else x
      let ny := if passableTile (jsGet mapData (⌊ty⌋ * mapSize + ⌊nx⌋)) then ty else y
      (nx, ny)
    else (x, y)
  let inputStrafe : ℚ := (if keys.strafeLeft then 1 else 0) + (if keys.strafeRight then -1 else 0)
  if inputStrafe ≠ 0 then
    let step := inputStrafe * walkSpeed * dt
    let tx := p1.1 + dirY * step
    let ty := p1.2 + (-dirX) * step
    let nx := if passableTile (jsGet mapData (⌊p1.2⌋ * mapSize + ⌊tx⌋)) then tx else p1.1
    let ny := if passableTile (jsGet mapData (⌊ty⌋ * mapSize + ⌊nx⌋)) then ty else p1.2
    (nx, ny)
  else p1

/- ------------------------------------------------------------------
Enemy model (enemy.js): state machine, line of sight, pathfinding.
------------------------------------------------------------------- -/

/-- EnemyState is the closed set of states of the enemy state machine. -/
inductive EnemyState where
  | idle
  | chase
  | attack
  | dead
deriving DecidableEq, Repr

/-- EnemyStats is the stat block handed to the Enemy constructor. -/
structure EnemyStats where
  health : ℚ
  damage : ℚ
  speed : ℚ
  detectionRange : ℚ
  attackRange : ℚ
  attackCooldown : ℚ

/-- Enemy mirrors the mutable fields of the Enemy class.  The
patrolDirection field stores the heading angle; the source only ever
feeds it to Math.cos and Math.sin, modelled through the oracle. -/
structure Enemy where
  id : ℕ
  x : ℚ
  y : ℚ
  type : ℕ
  maxHealth : ℚ
  health : ℚ
  damage : ℚ
  speed : ℚ
  detectionRange : ℚ
  attackRange : ℚ
  attackCooldown : ℚ
  state : EnemyState
  lastAttackTime : ℚ
  targetX : ℚ
  targetY : ℚ
  patrolTimer : ℚ
  patrolDirection : ℚ
  patrolChangeInterval : ℚ
  path : List (ℚ × ℚ)
  pathUpdateTimer : ℚ
  pathUpdateInterval : ℚ
  direction : ℕ
  animationFrame : ℕ
deriving DecidableEq

/-- mkEnemy is the Enemy constructor.  It consumes two random values: the
initial patrol heading (a random fraction of a full turn, stored as the
heading angle measured in turns so the oracle receives exactly the stored
field) and the first patrol change interval.  Returns the enemy and the
next random index. -/
def mkEnemy (M : MathOracle) (id : ℕ) (x y : ℚ) (type : ℕ)
    (stats : EnemyStats) (k : ℕ) : Enemy × ℕ :=
  let mh := jsOr stats.health 50
  ({ id := id, x := x, y := y, type := type,
     maxHealth := mh, health := mh,
     damage := jsOr stats.damage 10,
     speed := jsOr stats.speed (3/10),
     detectionRange := jsOr stats.detectionRange 8,
     attackRange := jsOr stats.attackRange (3/2),
     attackCooldown := jsOr stats.attackCooldown 1000,
     state := EnemyState.idle,
     lastAttackTime := 0,
     targetX := x, targetY := y,
     patrolTimer := 0,
     patrolDirection := M.rand k,
     patrolChangeInterval := 2000 + M.rand (k+1) * 2000,
     path := [],
     pathUpdateTimer := 0,
     pathUpdateInterval := 500,
     direction := 0,
     animationFrame := 0 }, k + 2)

/-- Enemy.getDistance computes the Euclidean distance from the enemy to a
point, through the square-root oracle. -/
def Enemy.getDistance (M : MathOracle) (e : Enemy) (x y : ℚ) : ℚ :=
  let dx := x - e.x
  let dy := y - e.y
  M.sqrtQ (dx * dx + dy * dy)

/-- Enemy.isValidPosition checks that a continuous position lies inside
the grid and on an empty (code 0) tile. -/
def Enemy.isValidPosition (x y : ℚ) (mapData : List ℕ) (mapSize : ℤ) : Bool :=
  let mapX := ⌊x⌋
  let mapY := ⌊y⌋
  if mapX < 0 ∨ mapX ≥ mapSize ∨ mapY < 0 ∨ mapY ≥ mapSize then false
  else jsGet mapData (mapY * mapSize + mapX) = some 0

/-- Enemy.updateDirection picks the sprite facing from the dominant axis
of a movement vector. -/
def Enemy.updateDirection (e : Enemy) (dx dy : ℚ) : Enemy :=
  if |dx| > |dy| then
    { e with direction := if dx > 0 then 3 else 2 }
  else
    { e with direction := if dy > 0 then 0 else 1 }

/-- Enemy.facePlayer turns the sprite toward the player. -/
def Enemy.facePlayer (e : Enemy) (playerX playerY : ℚ) : Enemy :=
  Enemy.updateDirection e (playerX - e.x) (playerY - e.y)

/-- Enemy.tryAttack returns the damage dealt this call (the damage stat
when the cooldown has elapsed, otherwise 0) and the updated enemy; a
successful attack resets lastAttackTime to now. -/
def Enemy.tryAttack (e : Enemy) (now : ℚ) : ℚ × Enemy :=
  if now - e.lastAttackTime ≥ e.attackCooldown then
    (e.damage, { e with lastAttackTime := now })
  else (0, e)

/-- Enemy.takeDamage subtracts damage, clamps health at zero and makes
the state Dead when health reaches zero; damaging an idle enemy wakes it
into Chase; a dead enemy is returned unchanged with result false.  The
Bool result reports whether the enemy died on this call. -/
def Enemy.takeDamage (e : Enemy) (amount : ℚ) : Bool × Enemy :=
  if e.state = EnemyState.dead then (false, e)
  else
    let h := e.health - amount
    if h ≤ 0 then
      (true, { e with health := 0, state := EnemyState.dead })
    else
      if e.state = EnemyState.idle then
        (false, { e with health := h, state := EnemyState.chase })
      else
        (false, { e with health := h })

/-- Enemy.isAlive is true in every state except Dead. -/
def Enemy.isAlive (e : Enemy) : Bool := e.state ≠ EnemyState.dead

/-- Enemy.hasLineOfSight marches from the enemy toward the target in
half-tile steps (ceil(distance * 2) samples, starting at the enemy
itself) and fails on the first sample that leaves the grid or lands on a
nonzero tile. -/
def Enemy.hasLineOfSight (M : MathOracle) (ex ey targetX targetY : ℚ)
    (mapData : List ℕ) (mapSize : ℤ) : Bool :=
  let dx := targetX - ex
  let dy := targetY - ey
  let distance := M.sqrtQ (dx * dx + dy * dy)
  let dirX := dx / distance
  let dirY := dy / distance
  let steps := ⌈distance * 2⌉
  (List.range steps.toNat).all fun i =>
    let checkX := ex + dirX * (i * (1/2))
    let checkY := ey + dirY * (i * (1/2))
    let mapX := ⌊checkX⌋
    let mapY := ⌊checkY⌋
    if mapX < 0 ∨ mapX ≥ mapSize ∨ mapY < 0 ∨ mapY ≥ mapSize then false
    else jsGet mapData (mapY * mapSize + mapX) = some 0

/-- ANode is a node of the A* open set: grid position, path cost g,
heuristic h, score f, and the parent used for path reconstruction. -/
inductive ANode where
  | mk (x y : ℤ) (g h f : ℕ) (parent : Option ANode)

/-- ANode.x projects the x coordinate. -/
def ANode.x : ANode → ℤ
  | .mk x _ _ _ _ _ => x

/-- ANode.y projects the y coordinate. -/
def ANode.y : ANode → ℤ
  | .mk _ y _ _ _ _ => y

/-- ANode.g projects the accumulated path cost. -/
def ANode.g : ANode → ℕ
  | .mk _ _ g _ _ _ => g

/-- ANode.f projects the score g + h. -/
def ANode.f : ANode → ℕ
  | .mk _ _ _ _ f _ => f

/-- ANode.parent projects the parent node. -/
def ANode.parent : ANode → Option ANode
  | .mk _ _ _ _ _ p => p

/-- mergeBy is a fuel-bounded stable merge of two lists: it takes from
the left list while its head compares less-or-equal.  The fuel is only a
structural-recursion device; lengths always bound it in use. -/
def mergeBy (le : ANode → ANode → Bool) : ℕ → List ANode → List ANode → List ANode
  | 0, l, r => l ++ r
  | _ + 1, [], r => r
  | _ + 1, l, [] => l
  | fuel + 1, a :: l, b :: r =>
    if le a b then a :: mergeBy le fuel l (b :: r)
    else b :: mergeBy le fuel (a :: l) r

/-- sortByFuel is a fuel-bounded stable merge sort.  With fuel at least
the length of the list it computes the unique stable sort, which is the
sorted order produced by the (stable) JavaScript Array.prototype.sort
with the comparator (a, b) => a.f - b.f. -/
def sortByFuel (le : ANode → ANode → Bool) : ℕ → List ANode → List ANode
  | 0, l => l
  | fuel + 1, l =>
    if l.length ≤ 1 then l
    else
      let h := l.length / 2
      mergeBy le (l.length) (sortByFuel le fuel (l.take h)) (sortByFuel le fuel (l.drop h))

/-- sortByF sorts an open list ascending by the f score, stably. -/
def sortByF (l : List ANode) : List ANode :=
  sortByFuel (fun a b => a.f ≤ b.f) l.length l

/-- ANode.buildPath reconstructs the waypoint list of a goal node: the
positions of every node on the parent chain except the chain root, as
tile centers, ordered from the start side to the goal. -/
def ANode.buildPath : ANode → List (ℚ × ℚ)
  | .mk _ _ _ _ _ none => []
  | .mk x y _ _ _ (some p) => ANode.buildPath p ++ [((x : ℚ) + 1/2, (y : ℚ) + 1/2)]

/-- insertClosed adds a position to the closed set if it is not already
present (JavaScript Set.add). -/
def insertClosed (closed : List (ℤ × ℤ)) (p : ℤ × ℤ) : List (ℤ × ℤ) :=
  if p ∈ closed then closed else p :: closed

/-- pushStep processes one candidate neighbor of the current node:
apply the bounds, closed-set, wall and open-set-with-better-g filters
of the source, and append the surviving node at the end of the open
list. -/
def pushStep (current : ANode) (endX endY : ℤ) (closed : List (ℤ × ℤ))
    (mapData : List ℕ) (mapSize : ℤ) (acc : List ANode) (nb : ℤ × ℤ) :
    List ANode :=
  if nb.1 < 0 ∨ nb.1 ≥ mapSize ∨ nb.2 < 0 ∨ nb.2 ≥ mapSize then acc
  else if nb ∈ closed then acc
  else if jsGet mapData (nb.2 * mapSize + nb.1) ≠ some 0 then acc
  else
    let g := current.g + 1
    let h := (nb.1 - endX).natAbs + (nb.2 - endY).natAbs
    let f := g + h
    match acc.find? (fun n => n.x == nb.1 && n.y == nb.2) with
    | some existing => if existing.g ≤ g then acc
        else acc ++ [ANode.mk nb.1 nb.2 g h f (some current)]
    | none => acc ++ [ANode.mk nb.1 nb.2 g h f (some current)]

/-- pushNeighbors folds the four candidate neighbors of the current node
over the open list with pushStep. -/
def pushNeighbors (current : ANode) (endX endY : ℤ) (closed : List (ℤ × ℤ))
    (mapData : List ℕ) (mapSize : ℤ) (opn : List ANode) : List ANode :=
  let neighbors : List (ℤ × ℤ) :=
    [(current.x + 1, current.y), (current.x - 1, current.y),
     (current.x, current.y + 1), (current.x, current.y - 1)]
  neighbors.foldl (pushStep current endX endY closed mapData mapSize) opn

/-- findPathLoop is the A* while loop.  The Bool of the result records
an abnormal exit: true when the 200-closed-node budget was exceeded (the
break of the source, which then returns an empty path) or when the
structural fuel ran out (on such inputs the recursion of the source
never terminates, so no terminating behavior is misrepresented); false
for a normal exit (goal reached, or open set exhausted). -/
def findPathLoop (endX endY : ℤ) (mapData : List ℕ) (mapSize : ℤ) :
    ℕ → List ANode → List (ℤ × ℤ) → List (ℚ × ℚ) × Bool
  | 0, _, _ => ([], true)
  | fuel + 1, opn, closed =>
    match sortByF opn with
    | [] => ([], false)
    | current :: rest =>
      if current.x = endX ∧ current.y = endY then (current.buildPath, false)
      else
        let closed1 := insertClosed closed (current.x, current.y)
        let opn1 := pushNeighbors current endX endY closed1 mapData mapSize rest
        if 200 < closed1.length then ([], true)
        else findPathLoop endX endY mapData mapSize fuel opn1 closed1

/-- astarFuel bounds the number of A* loop iterations in the model; the
closed-set budget of the source stops every terminating run far earlier. -/
def astarFuel : ℕ := 100000

/-- findPathRun runs A* from the tile under (x, y) to the tile under
(targetX, targetY) and returns the waypoint list together with the
abnormal-exit flag of findPathLoop. -/
def findPathRun (x y targetX targetY : ℚ) (mapData : List ℕ) (mapSize : ℤ) :
    List (ℚ × ℚ) × Bool :=
  let startX := ⌊x⌋
  let startY := ⌊y⌋
  let endX := ⌊targetX⌋
  let endY := ⌊targetY⌋
  findPathLoop endX endY mapData mapSize astarFuel
    [ANode.mk startX startY 0 0 0 none] []

/-- Enemy.findPath is the A* entry point of the source: the waypoint
list, with failures (no path, budget exceeded) reported as the empty
list rather than an error. -/
def Enemy.findPath (x y targetX targetY : ℚ) (mapData : List ℕ) (mapSize : ℤ) :
    List (ℚ × ℚ) :=
  (findPathRun x y targetX targetY mapData mapSize).1

/-- nodePos is the grid position of an A* node. -/
def nodePos (n : ANode) : ℤ × ℤ := (n.x, n.y)

/-- chainRoot is the position of the root of an A* node's parent chain
(the start node of the search). -/
def chainRoot : ANode → ℤ × ℤ
  | .mk x y _ _ _ none => (x, y)
  | .mk _ _ _ _ _ (some p) => chainRoot p

/-- ANode.depth is the length of a node's parent chain, used as a
structural measure for induction over chains. -/
def ANode.depth : ANode → ℕ
  | .mk _ _ _ _ _ none => 0
  | .mk _ _ _ _ _ (some p) => p.depth + 1

/-- goodChain states that every node on the parent chain except the
chain root sits on an in-bounds floor tile 4-adjacent to its parent:
exactly the filters that guarded its insertion into the open set. -/
def goodChain (mapData : List ℕ) (mapSize : ℤ) : ANode → Prop
  | .mk _ _ _ _ _ none => True
  | .mk x y _ _ _ (some p) =>
      0 ≤ x ∧ x < mapSize ∧ 0 ≤ y ∧ y < mapSize ∧
      jsGet mapData (y * mapSize + x) = some 0 ∧
      (x - p.x).natAbs + (y - p.y).natAbs = 1 ∧
      goodChain mapData mapSize p

/-- FloorChain p q: tile q is reachable from tile p by 4-connected
steps through in-bounds floor tiles (tile code 0); the start tile p
itself is not required to be floor, matching the search, which never
inspects the tile under the start node. -/
inductive FloorChain (mapData : List ℕ) (mapSize : ℤ) : ℤ × ℤ → ℤ × ℤ → Prop
  | refl (p : ℤ × ℤ) : FloorChain mapData mapSize p p
  | step (p q r : ℤ × ℤ) : FloorChain mapData mapSize p q →
      (r.1 - q.1).natAbs + (r.2 - q.2).natAbs = 1 →
      0 ≤ r.1 → r.1 < mapSize → 0 ≤ r.2 → r.2 < mapSize →
      jsGet mapData (r.2 * mapSize + r.1) = some 0 →
      FloorChain mapData mapSize p r

/-- wAdj a b: the waypoints a and b are centers of 4-adjacent tiles
(their taxicab distance is exactly one tile). -/
def wAdj (a b : ℚ × ℚ) : Prop := |b.1 - a.1| + |b.2 - a.2| = 1

/-- floorCenter w: the waypoint w is the center of an in-bounds floor
tile. -/
def floorCenter (mapData : List ℕ) (mapSize : ℤ) (w : ℚ × ℚ) : Prop :=
  ∃ i j : ℤ, w = ((i : ℚ) + 1/2, (j : ℚ) + 1/2) ∧
    0 ≤ i ∧ i < mapSize ∧ 0 ≤ j ∧ j < mapSize ∧
    jsGet mapData (j * mapSize + i) = some 0

/-- mapC6 is a 2 by 2 grid whose top row is floor and bottom row wall,
used to exercise the pathfinder on a one-step route. -/
def mapC6 : List ℕ := [0, 0, 1, 1]

/-- OpenInv: every node of the open list has a well-formed parent chain
rooted at the start tile. -/
def OpenInv (mapData : List ℕ) (mapSize : ℤ) (start : ℤ × ℤ)
    (opn : List ANode) : Prop :=
  ∀ n ∈ opn, goodChain mapData mapSize n ∧ chainRoot n = start

/-- ClosedInv: the goal tile is never closed; every in-bounds floor
neighbor of a closed tile is closed or represented in the open list;
and the start tile is closed or represented in the open list. -/
def ClosedInv (mapData : List ℕ) (mapSize : ℤ) (endp start : ℤ × ℤ)
    (opn : List ANode) (closed : List (ℤ × ℤ)) : Prop :=
  (∀ p ∈ closed, p ≠ endp) ∧
  (∀ p ∈ closed, ∀ q : ℤ × ℤ,
      (q.1 - p.1).natAbs + (q.2 - p.2).natAbs = 1 →
      ¬(q.1 < 0 ∨ q.1 ≥ mapSize ∨ q.2 < 0 ∨ q.2 ≥ mapSize) →
      jsGet mapData (q.2 * mapSize + q.1) = some 0 →
      q ∈ closed ∨ ∃ n ∈ opn, nodePos n = q) ∧
  (start ∈ closed ∨ ∃ n ∈ opn, nodePos n = start)

/-- patrolMove is the movement half of Enemy.patrol: move at 30 percent
of chase speed along the current heading, and on hitting a wall pick a
new random heading (one random value). -/
def patrolMove (M : MathOracle) (e : Enemy) (mapData : List ℕ) (mapSize : ℤ)
    (dt : ℚ) (k : ℕ) : Enemy × ℕ :=
  let patrolSpeed := e.speed * (3/10)
  let moveSpeed := patrolSpeed * dt
  let dirX := M.cosTurn e.patrolDirection
  let dirY := M.sinTurn e.patrolDirection
  let newX := e.x + dirX * moveSpeed
  let newY := e.y + dirY * moveSpeed
  if Enemy.isValidPosition newX newY mapData mapSize then
    (Enemy.updateDirection { e with x := newX, y := newY } dirX dirY, k)
  else
    ({ e with patrolDirection := M.rand k, patrolTimer := 0 }, k + 1)

/-- Enemy.patrol is the idle wander: accumulate the patrol timer, pick a
new random heading when the timer expires (two random values: heading
and next interval), then take the patrol movement step. -/
def Enemy.patrol (M : MathOracle) (e : Enemy) (mapData : List ℕ) (mapSize : ℤ)
    (dt : ℚ) (k : ℕ) : Enemy × ℕ :=
  let e1 := { e with patrolTimer := e.patrolTimer + jsOr (dt * 1000) 16 }
  if e1.patrolTimer ≥ e1.patrolChangeInterval then
    patrolMove M { e1 with patrolTimer := 0, patrolDirection := M.rand k,
                           patrolChangeInterval := 2000 + M.rand (k+1) * 2000 }
      mapData mapSize dt (k + 2)
  else patrolMove M e1 mapData mapSize dt k

/-- chaseFuel bounds the waypoint-popping recursion of chasePlayer; the
source recursion only fails to terminate on inputs (very large dt) on
which the JavaScript itself recurses forever. -/
def chaseFuel : ℕ := 10000

/-- chaseRetime is the path-maintenance prefix of chasePlayer:
accumulate the recompute timer and recompute the path when the timer
expires or the cached path is empty. -/
def chaseRetime (e : Enemy) (playerX playerY : ℚ) (mapData : List ℕ)
    (mapSize : ℤ) (dt : ℚ) : Enemy :=
  let e1 := { e with pathUpdateTimer := e.pathUpdateTimer + jsOr (dt * 1000) 16 }
  if e1.pathUpdateTimer ≥ e1.pathUpdateInterval ∨ e1.path = [] then
    { e1 with pathUpdateTimer := 0,
              path := Enemy.findPath e1.x e1.y playerX playerY mapData mapSize }
  else e1

/-- chaseMove is the movement tail of chasePlayer: step toward the
current waypoint (unit direction times speed times dt) with the usual
wall check; the branch consumes one random value for the debug-logging
coin flip of the source. -/
def chaseMove (M : MathOracle) (e : Enemy) (dx dy distance : ℚ)
    (mapData : List ℕ) (mapSize : ℤ) (dt : ℚ) (k : ℕ) : Enemy × ℕ :=
  let dirX := dx / distance
  let dirY := dy / distance
  let moveSpeed := e.speed * dt
  let k1 := k + 1
  let newX := e.x + dirX * moveSpeed
  let newY := e.y + dirY * moveSpeed
  if Enemy.isValidPosition newX newY mapData mapSize then
    (Enemy.updateDirection { e with x := newX, y := newY } dirX dirY, k1)
  else (e, k1)

/-- Enemy.chasePlayer follows the cached path toward the player,
recomputing it every pathUpdateInterval milliseconds or when it is
empty, popping a waypoint when within 0.3 tiles of it (recursing on the
rest), and otherwise stepping toward the current waypoint with the
usual wall check. -/
def Enemy.chasePlayer (M : MathOracle) :
    ℕ → Enemy → ℚ → ℚ → List ℕ → ℤ → ℚ → ℕ → Enemy × ℕ
  | 0, e, _, _, _, _, _, k => (e, k)
  | fuel + 1, e, playerX, playerY, mapData, mapSize, dt, k =>
    let e2 := chaseRetime e playerX playerY mapData mapSize dt
    match e2.path with
    | [] => (e2, k)
    | target :: restPath =>
      let dx := target.1 - e2.x
      let dy := target.2 - e2.y
      let distance := M.sqrtQ (dx * dx + dy * dy)
      if distance < 3/10 then
        let e3 := { e2 with path := restPath }
        if restPath = [] then (e3, k)
        else Enemy.chasePlayer M fuel e3 playerX playerY mapData mapSize dt k
      else chaseMove M e2 dx dy distance mapData mapSize dt k

/-- Enemy.update is the per-tick state machine step: Dead returns
immediately; Idle detects the player (range and line of sight) or
patrols; Chase loses the player beyond 1.5 times detection range, closes
to Attack inside attack range, or pursues under line of sight; Attack
backs off to Chase beyond 1.2 times attack range, otherwise faces the
player and attempts the attack, discarding the returned damage. -/
def Enemy.update (M : MathOracle) (e : Enemy) (playerX playerY : ℚ)
    (mapData : List ℕ) (mapSize : ℤ) (dt now : ℚ) (k : ℕ) : Enemy × ℕ :=
  if e.state = EnemyState.dead then (e, k)
  else
    let distanceToPlayer := Enemy.getDistance M e playerX playerY
    match e.state with
    | EnemyState.idle =>
      if distanceToPlayer < e.detectionRange ∧
          Enemy.hasLineOfSight M e.x e.y playerX playerY mapData mapSize then
        ({ e with state := EnemyState.chase }, k)
      else Enemy.patrol M e mapData mapSize dt k
    | EnemyState.chase =>
      if distanceToPlayer > e.detectionRange * (3/2) then
        ({ e with state := EnemyState.idle }, k)
      else if distanceToPlayer < e.attackRange then
        ({ e with state := EnemyState.attack }, k)
      else if Enemy.hasLineOfSight M e.x e.y playerX playerY mapData mapSize then
        Enemy.chasePlayer M chaseFuel e playerX playerY mapData mapSize dt k
      else (e, k)
    | EnemyState.attack =>
      if distanceToPlayer > e.attackRange * (6/5) then
        ({ e with state := EnemyState.chase }, k)
      else
        let e1 := Enemy.facePlayer e playerX playerY
        (Enemy.tryAttack e1 now).2
        |> (fun e2 => (e2, k))
    | EnemyState.dead => (e, k)

/-- managerUpdate is EnemyManager.update: every live enemy takes a
state-machine step, and an enemy whose post-step state is Attack gets a
second tryAttack call whose damage is added to the returned total.  Dead
enemies are left untouched.  Returns the damage total, the updated
enemy list (in order), and the next random index. -/
def managerUpdate (M : MathOracle) (enemies : List Enemy)
    (playerX playerY : ℚ) (mapData : List ℕ) (mapSize : ℤ)
    (dt now : ℚ) (k : ℕ) : ℚ × List Enemy × ℕ :=
  let step := fun (acc : ℚ × List Enemy × ℕ) (e : Enemy) =>
    let total := acc.1
    let done := acc.2.1
    let k0 := acc.2.2
    if Enemy.isAlive e then
      let upd := Enemy.update M e playerX playerY mapData mapSize dt now k0
      let e1 := upd.1
      let k1 := upd.2
      if e1.state = EnemyState.attack then
        let att := Enemy.tryAttack e1 now
        (total + att.1, done ++ [att.2], k1)
      else (total, done ++ [e1], k1)
    else (total, done ++ [e], k0)
  enemies.foldl step (0, [], k)

/-- getAliveEnemies filters the collection down to enemies whose state
is not Dead. -/
def getAliveEnemies (enemies : List Enemy) : List Enemy :=
  enemies.filter Enemy.isAlive

/- ------------------------------------------------------------------
Combat system (combat.js): DDA wall check, raycast shot, cooldown.
------------------------------------------------------------------- -/

/-- QInf is a rational extended with a positive infinity, used for the
DDA step lengths: JavaScript produces Infinity for |1 / 0|. -/
structure QInf where
  val : ℚ
  inf : Bool
deriving DecidableEq

/-- QInf.fin injects a finite rational. -/
def QInf.fin (q : ℚ) : QInf := ⟨q, false⟩

/-- QInf.top is positive infinity. -/
def QInf.top : QInf := ⟨0, true⟩

/-- qiAdd adds two extended rationals; infinity absorbs. -/
def qiAdd (a b : QInf) : QInf :=
  if a.inf ∨ b.inf then QInf.top else QInf.fin (a.val + b.val)

/-- qiScale multiplies an extended rational by a finite factor.  At the
call sites the factor is positive whenever the other operand is
infinite, so the infinite result matches JavaScript. -/
def qiScale (q : ℚ) (a : QInf) : QInf :=
  if a.inf then QInf.top else QInf.fin (q * a.val)

/-- qiLt compares two extended rationals; infinity is larger than every
finite value and not less than itself. -/
def qiLt (a b : QInf) : Bool :=
  if a.inf then false
  else if b.inf then true
  else a.val < b.val

/-- qiSub subtracts a second extended rational from a first; the only
call site subtracts a finite step length from a finite accumulator
(infinite branches are unreachable there and map to infinity). -/
def qiSub (a b : QInf) : QInf :=
  if a.inf ∨ b.inf then QInf.top else QInf.fin (a.val - b.val)

/-- qiGeQ tests whether an extended rational is at least a finite bound
(Infinity always is). -/
def qiGeQ (a : QInf) (q : ℚ) : Bool :=
  if a.inf then true else q ≤ a.val

/-- wallDDAStep is one iteration of the DDA loop of hasWallBetween:
advance the axis with the smaller accumulated side distance, then test
the travelled distance against the target distance, the bounds, and the
wall map.  Returns (some b) when the loop returns b, none to continue. -/
def wallDDAStep (distance : ℚ) (mapData : List ℕ) (mapSize : ℤ)
    (deltaDistX deltaDistY : QInf)
    (st : ℤ × ℤ × QInf × QInf × ℤ × ℤ) : Option Bool × (ℤ × ℤ × QInf × QInf × ℤ × ℤ) :=
  let mapX := st.1
  let mapY := st.2.1
  let sideDistX := st.2.2.1
  let sideDistY := st.2.2.2.1
  let stepX := st.2.2.2.2.1
  let stepY := st.2.2.2.2.2
  let next :=
    if qiLt sideDistX sideDistY then
      (mapX + stepX, mapY, qiAdd sideDistX deltaDistX, sideDistY,
        qiSub (qiAdd sideDistX deltaDistX) deltaDistX)
    else
      (mapX, mapY + stepY, sideDistX, qiAdd sideDistY deltaDistY,
        qiSub (qiAdd sideDistY deltaDistY) deltaDistY)
  let mapX1 := next.1
  let mapY1 := next.2.1
  let currentDist := next.2.2.2.2
  let st1 := (mapX1, mapY1, next.2.2.1, next.2.2.2.1, stepX, stepY)
  if qiGeQ currentDist distance then (some false, st1)
  else if mapX1 < 0 ∨ mapX1 ≥ mapSize ∨ mapY1 < 0 ∨ mapY1 ≥ mapSize then (some true, st1)
  else
    match jsGet mapData (mapY1 * mapSize + mapX1) with
    | some v => if 0 < v then (some true, st1) else (none, st1)
    | none => (none, st1)

/-- wallDDALoop runs at most the given number of DDA iterations (the
source runs 64); an iteration whose step returns a value is the early
return of the source, and exhausting the iterations yields false. -/
def wallDDALoop (distance : ℚ) (mapData : List ℕ) (mapSize : ℤ)
    (deltaDistX deltaDistY : QInf) :
    ℕ → ℤ × ℤ × QInf × QInf × ℤ × ℤ → Bool
  | 0, _ => false
  | n + 1, st =>
    match wallDDAStep distance mapData mapSize deltaDistX deltaDistY st with
    | (some b, _) => b
    | (none, st1) => wallDDALoop distance mapData mapSize deltaDistX deltaDistY n st1

/-- hasWallBetween casts a DDA ray between two points and reports
whether a wall cell (positive tile code) or the grid boundary lies
strictly between them. -/
def hasWallBetween (M : MathOracle) (x1 y1 x2 y2 : ℚ)
    (mapData : List ℕ) (mapSize : ℤ) : Bool :=
  let dx := x2 - x1
  let dy := y2 - y1
  let distance := M.sqrtQ (dx * dx + dy * dy)
  if distance < 1/100 then false
  else
    let rayDirX := dx / distance
    let rayDirY := dy / distance
    let mapX := ⌊x1⌋
    let mapY := ⌊y1⌋
    let deltaDistX := if rayDirX = 0 then QInf.top else QInf.fin |1 / rayDirX|
    let deltaDistY := if rayDirY = 0 then QInf.top else QInf.fin |1 / rayDirY|
    let stepX : ℤ := if rayDirX < 0 then -1 else 1
    let sideDistX := if rayDirX < 0 then qiScale (x1 - mapX) deltaDistX
      else qiScale ((mapX : ℚ) + 1 - x1) deltaDistX
    let stepY : ℤ := if rayDirY < 0 then -1 else 1
    let sideDistY := if rayDirY < 0 then qiScale (y1 - mapY) deltaDistY
      else qiScale ((mapY : ℚ) + 1 - y1) deltaDistY
    wallDDALoop distance mapData mapSize deltaDistX deltaDistY 64
      (mapX, mapY, sideDistX, sideDistY, stepX, stepY)

/-- RayHit is the result record of raycastShoot; the hit enemy is
identified by its index in the enemy list (the source returns the array
element itself, which it later mutates in place). -/
structure RayHit where
  hit : Bool
  enemy : Option ℕ
  distance : ℚ
deriving DecidableEq

/-- rayScanStep processes one (index, enemy) pair of the raycast scan:
apply the liveness, range, wall, cone and ray-distance filters, and
adopt the enemy as the new closest hit when it beats the accumulator. -/
def rayScanStep (M : MathOracle) (playerX playerY dirX dirY maxDistance : ℚ)
    (mapData : Option (List ℕ)) (mapSize : ℤ)
    (acc : Option ℕ × ℚ) (ie : ℕ × Enemy) : Option ℕ × ℚ :=
  let enemy := ie.2
  if ¬ Enemy.isAlive enemy then acc
  else
    let dx := enemy.x - playerX
    let dy := enemy.y - playerY
    let distance := M.sqrtQ (dx * dx + dy * dy)
    if distance > maxDistance then acc
    else
      let blocked :=
        match mapData with
        | some md => if 0 < mapSize then
            hasWallBetween M playerX playerY enemy.x enemy.y md mapSize else false
        | none => false
      if blocked then acc
      else
        let ndx := dx / distance
        let ndy := dy / distance
        let dot := dirX * ndx + dirY * ndy
        if dot > 9/10 then
          let perpDist := |dx * dirY - dy * dirX|
          if perpDist < 1/2 ∧ distance < acc.2 then (some ie.1, distance) else acc
        else acc

/-- raycastShoot scans every live enemy, rejecting those beyond
maxDistance, those hidden behind a wall, those outside the aim cone
(dot product at most 0.9) and those farther than half a tile from the
aim ray, and keeps the closest survivor (strictly closer than the best
so far, which starts at maxDistance). -/
def raycastShoot (M : MathOracle) (playerX playerY dirX dirY : ℚ)
    (enemies : List Enemy) (maxDistance : ℚ)
    (mapData : Option (List ℕ)) (mapSize : ℤ) : RayHit :=
  let res := (enemies.enum).foldl
    (rayScanStep M playerX playerY dirX dirY maxDistance mapData mapSize)
    ((none : Option ℕ), maxDistance)
  { hit := res.1 ≠ none, enemy := res.1, distance := res.2 }

/-- Weapon enumerates the static weapon table keys. -/
inductive Weapon where
  | pistol
  | shotgun
  | rifle
deriving DecidableEq

/-- weaponDamage is the damage column of the WEAPONS table. -/
def weaponDamage : Weapon → ℚ
  | .pistol => 25
  | .shotgun => 50
  | .rifle => 35

/-- weaponFireRate is the fire-rate column (milliseconds between shots)
of the WEAPONS table. -/
def weaponFireRate : Weapon → ℚ
  | .pistol => 500
  | .shotgun => 1000
  | .rifle => 300

/-- weaponRange is the range column of the WEAPONS table. -/
def weaponRange : Weapon → ℚ
  | .pistol => 20
  | .shotgun => 10
  | .rifle => 25

/-- damageEnemy applies damage to a live enemy through takeDamage and
reports whether the enemy died; a dead target is left unchanged. -/
def damageEnemy (e : Enemy) (damage : ℚ) : Bool × Enemy :=
  if ¬ Enemy.isAlive e then (false, e)
  else Enemy.takeDamage e damage

/-- CombatState is the mutable state of CombatManager: equipped weapon,
time of the last fired shot, and cumulative kill count. -/
structure CombatState where
  weapon : Weapon
  lastShotTime : ℚ
  kills : ℕ
deriving DecidableEq

/-- ShootResult mirrors the result object of CombatManager.shoot: a
cooldown rejection, a fired hit (with target index, whether it died, the
damage dealt and the distance), or a fired miss. -/
inductive ShootResult where
  | cooldown
  | hitShot (enemy : ℕ) (died : Bool) (damage : ℚ) (distance : ℚ)
  | missShot
deriving DecidableEq

/-- ShootResult.fired is the fired field of the result object. -/
def ShootResult.fired : ShootResult → Bool
  | .cooldown => false
  | _ => true

/-- shoot is CombatManager.shoot: reject when the weapon cooldown has
not elapsed; otherwise raycast, and on a hit damage the target (counting
a kill if it died); a fired shot records now as lastShotTime whether it
hit or missed.  Returns the result, the new combat state, and the enemy
list with the target updated in place. -/
def shoot (M : MathOracle) (cm : CombatState) (now : ℚ)
    (playerX playerY dirX dirY : ℚ) (enemies : List Enemy)
    (mapData : Option (List ℕ)) (mapSize : ℤ) :
    ShootResult × CombatState × List Enemy :=
  if now - cm.lastShotTime < weaponFireRate cm.weapon then
    (ShootResult.cooldown, cm, enemies)
  else
    let result := raycastShoot M playerX playerY dirX dirY enemies
      (weaponRange cm.weapon) mapData mapSize
    match result.enemy with
    | some idx =>
      match enemies.get? idx with
      | some target =>
        let dd := damageEnemy target (weaponDamage cm.weapon)
        let died := dd.1
        let cm1 := { cm with kills := if died then cm.kills + 1 else cm.kills,
                             lastShotTime := now }
        (ShootResult.hitShot idx died (weaponDamage cm.weapon) result.distance,
          cm1, enemies.set idx dd.2)
      | none =>
        (ShootResult.hitShot idx false (weaponDamage cm.weapon) result.distance,
          { cm with lastShotTime := now }, enemies)
    | none =>
      (ShootResult.missShot, { cm with lastShotTime := now }, enemies)

/- ------------------------------------------------------------------
Frame loop (SimpleRaycaster.jsx, animate): simulation slice.
------------------------------------------------------------------- -/

/-- LevelStats is the payload of the level-complete signal. -/
structure LevelStats where
  kills : ℕ
  gold : ℚ
  timeElapsed : ℚ
  healthRemaining : ℚ
  itemsPurchased : ℕ
deriving DecidableEq

/-- FrameState carries the simulation-relevant mutable state read and
written by one animate tick.  Rendering state (canvases, shader
uniforms, crosshair color, minimap) is omitted: the source only writes
it from the fields modelled here.  The levelComplete flag is modelled
live; in the source the flag the closure reads goes stale, but the tick
that raises it also stops scheduling animation frames, so the stale
read is never reached again. -/
structure FrameState where
  x : ℚ
  y : ℚ
  angle : ℚ
  shakeAngle : ℚ
  shakeX : ℚ
  shakeY : ℚ
  shakeIntensity : ℚ
  health : ℚ
  enemies : List Enemy
  combat : CombatState
  gold : ℚ
  itemsPurchased : ℕ
  startTime : ℚ
  lastTime : ℚ
  mapData : List ℕ
  mapSize : ℤ
  levelComplete : Bool
  gameOver : Bool
  paused : Bool
  running : Bool
  completionSignals : List LevelStats
  gameOverSignals : List LevelStats
  rng : ℕ

/-- statsOf builds the stats object emitted with the level-complete
signal from the state at the moment of the check. -/
def statsOf (s : FrameState) (dateNow : ℚ) : LevelStats :=
  { kills := s.combat.kills,
    gold := s.gold,
    timeElapsed := (dateNow - s.startTime) / 1000,
    healthRemaining := s.health,
    itemsPurchased := s.itemsPurchased }

/-- frameDt is the clamped frame delta in seconds:
min(0.05, max(0.001, (now - lastTime) / 1000)). -/
def frameDt (s : FrameState) (now : ℚ) : ℚ :=
  min (1/20) (max (1/1000) ((now - s.lastTime) / 1000))

/-- framePortalFire is the body of the exit-portal branch of animate:
emit the completion signal with the current stats, raise levelComplete,
pause the simulation and stop scheduling animation frames. -/
def framePortalFire (s : FrameState) (dateNow : ℚ) : FrameState :=
  { s with
    completionSignals := s.completionSignals ++ [statsOf s dateNow],
    levelComplete := true,
    paused := true,
    running := false }

/-- frameApplyDamage applies the damage total of the enemy update to the
player: clamp health at zero, and on reaching zero emit the game-over
signal, pause and stop the loop; on nonlethal damage start a camera
shake scaled by the damage. -/
def frameApplyDamage (s : FrameState) (damage dateNow : ℚ) : FrameState :=
  if 0 < damage then
    let h1 := max 0 (s.health - damage)
    if h1 ≤ 0 ∧ s.gameOver = false then
      { s with health := h1, gameOver := true, paused := true, running := false,
               gameOverSignals := s.gameOverSignals ++
                 [{ kills := s.combat.kills, gold := s.gold,
                    timeElapsed := (dateNow - s.startTime) / 1000,
                    healthRemaining := h1,
                    itemsPurchased := s.itemsPurchased }] }
    else { s with health := h1, shakeIntensity := damage / 10 }
  else s

/-- frameShake is the camera-shake section: when a shake is active draw
three random offsets, decay the intensity by 0.88, and clear the shake
once the intensity falls under 0.01. -/
def frameShake (M : MathOracle) (s : FrameState) : FrameState :=
  if 0 < s.shakeIntensity then
    let sx := (M.rand s.rng - 1/2) * s.shakeIntensity * (3/20)
    let sy := (M.rand (s.rng + 1) - 1/2) * s.shakeIntensity * (3/10)
    let sa := (M.rand (s.rng + 2) - 1/2) * s.shakeIntensity * (1/20)
    let intensity1 := s.shakeIntensity * (22/25)
    if intensity1 < 1/100 then
      { s with shakeX := 0, shakeY := 0, shakeAngle := 0,
               shakeIntensity := 0, rng := s.rng + 3 }
    else
      { s with shakeX := sx, shakeY := sy, shakeAngle := sa,
               shakeIntensity := intensity1, rng := s.rng + 3 }
  else s

/-- frameMovePhase is the input section of the tick: apply turn input to
the angle and apply the move and strafe translations with collision. -/
def frameMovePhase (M : MathOracle) (s : FrameState) (dt : ℚ) (keys : Keys) :
    FrameState :=
  let rotSpeed : ℚ := 3
  let inputTurn : ℚ := (if keys.turnRight then 1 else 0) + (if keys.turnLeft then -1 else 0)
  let angle1 := s.angle + inputTurn * rotSpeed * dt
  let shaken := angle1 + s.shakeAngle
  let dirX := M.cosTurn shaken
  let dirY := M.sinTurn shaken
  let pos := moveStep s.x s.y dirX dirY keys dt s.mapData s.mapSize
  { s with angle := angle1, x := pos.1, y := pos.2 }

/-- onPortal tests whether the tile under the player position carries
the exit-portal code 9. -/
def onPortal (s : FrameState) : Bool :=
  jsGet s.mapData (⌊s.y⌋ * s.mapSize + ⌊s.x⌋) = some 9

/-- frameStep is one call of animate, restricted to simulation state.
Order of the source: compute and clamp dt, update lastTime, early-return
when paused; apply turn and movement input; check the exit portal (emit
the completion signal, pause and stop the loop, skipping everything
after); advance the enemy manager with the same dt and apply its damage,
possibly emitting the game-over signal and stopping; consume one random
value for the throttled player-state callback coin flip; update the
camera shake; schedule the next frame.  The running flag records whether
a next animation frame was requested; a state with running = false is
returned unchanged, because the source never invokes animate again after
a tick that did not reschedule it. -/
def frameStep (M : MathOracle) (s : FrameState) (now dateNow : ℚ)
    (keys : Keys) : FrameState :=
  if ¬ s.running then s
  else
    let dt := frameDt s now
    let s0 := { s with lastTime := now }
    if s0.paused then s0
    else
      let s1 := frameMovePhase M s0 dt keys
      if onPortal s1 ∧ s1.levelComplete = false then framePortalFire s1 dateNow
      else
        let upd := managerUpdate M s1.enemies s1.x s1.y s1.mapData s1.mapSize dt now s1.rng
        let s2 := { s1 with enemies := upd.2.1, rng := upd.2.2 }
        let s3 := frameApplyDamage s2 upd.1 dateNow
        if s3.running = false then s3
        else frameShake M { s3 with rng := s3.rng + 1 }

/-- runFrames folds frameStep over a list of tick inputs
(now, dateNow, keys). -/
def runFrames (M : MathOracle) (s : FrameState) (ticks : List (ℚ × ℚ × Keys)) :
    FrameState :=
  ticks.foldl (fun st t => frameStep M st t.1 t.2.1 t.2.2) s

/- ------------------------------------------------------------------
Dungeon generator (dungeon.js): BSP splitting, rooms, corridors.
------------------------------------------------------------------- -/

/-- Rect is the bounds rectangle of a BSP node. -/
structure Rect where
  x : ℤ
  y : ℤ
  w : ℤ
  h : ℤ
deriving DecidableEq

/-- Room is a carved room; the center fields are computed at
construction.  For integer x and width, Math.floor(x + width / 2)
equals x plus the floor of width / 2, written with Int.fdiv. -/
structure Room where
  x : ℤ
  y : ℤ
  width : ℤ
  height : ℤ
  centerX : ℤ
  centerY : ℤ
deriving DecidableEq

/-- mkRoom builds a Room from position and dimensions. -/
def mkRoom (x y w h : ℤ) : Room :=
  { x := x, y := y, width := w, height := h,
    centerX := x + Int.fdiv w 2, centerY := y + Int.fdiv h 2 }

/-- BSP is the space-partition tree: a leaf with its (eventually
assigned) room, or an internal node with two children.  The source
stores children and room as nullable fields of one class; rooms are only
ever created on childless nodes, and splitting only happens on
childless nodes, so the two shapes below cover every reachable state. -/
inductive BSP where
  | lf (rect : Rect) (room : Option Room)
  | nd (rect : Rect) (l r : BSP)

/-- nodeAt descends a path (false = left child, true = right child). -/
def nodeAt : BSP → List Bool → Option BSP
  | t, [] => some t
  | .lf _ _, _ :: _ => none
  | .nd _ l r, b :: p => nodeAt (if b then r else l) p

/-- replaceAt replaces the subtree at a path (identity when the path
leaves the tree). -/
def replaceAt : BSP → List Bool → BSP → BSP
  | _, [], t1 => t1
  | .lf rect room, _ :: _, _ => .lf rect room
  | .nd rect l r, b :: p, t1 =>
    if b then .nd rect l (replaceAt r p t1) else .nd rect (replaceAt l p t1) r

/-- trySplit is BSPNode.split at the node addressed by a path: an
already-split node refuses (no random consumed); otherwise a random
coin picks the split axis, the node refuses if the axis is too small
(one random consumed), and otherwise a random offset in
[minRoomSize, max) splits the node into two children (two randoms
consumed).  Returns the updated tree, the next random index, and
whether the split happened. -/
def trySplit (M : MathOracle) (minRoomSize : ℤ) (t : BSP) (p : List Bool)
    (k : ℕ) : BSP × ℕ × Bool :=
  match nodeAt t p with
  | some (.lf rect _) =>
    let splitHorizontally := M.rand k > 1/2
    let mx := (if splitHorizontally then rect.h else rect.w) - minRoomSize
    if mx ≤ minRoomSize then (t, k + 1, false)
    else
      let split := ⌊M.rand (k+1) * ((mx : ℚ) - (minRoomSize : ℚ))⌋ + minRoomSize
      let children :=
        if splitHorizontally then
          BSP.nd rect (BSP.lf ⟨rect.x, rect.y, rect.w, split⟩ none)
                      (BSP.lf ⟨rect.x, rect.y + split, rect.w, rect.h - split⟩ none)
        else
          BSP.nd rect (BSP.lf ⟨rect.x, rect.y, split, rect.h⟩ none)
                      (BSP.lf ⟨rect.x + split, rect.y, rect.w - split, rect.h⟩ none)
      (replaceAt t p children, k + 2, true)
  | _ => (t, k, false)

/-- splitRound processes one snapshot of the container list: each
container is split if possible; on success its two children are pushed
at the end of the container list and the container itself is removed
(first occurrence, as Array.indexOf plus splice does). -/
def splitRound (M : MathOracle) (minRoomSize : ℤ) (snapshot : List (List Bool))
    (st : BSP × List (List Bool) × ℕ) : BSP × List (List Bool) × ℕ :=
  snapshot.foldl
    (fun acc p =>
      let t := acc.1
      let conts := acc.2.1
      let k := acc.2.2
      let res := trySplit M minRoomSize t p k
      if res.2.2 then
        (res.1, (conts ++ [p ++ [false], p ++ [true]]).erase p, res.2.1)
      else (res.1, conts, res.2.1))
    st

/-- splitRounds runs recursionDepth rounds of splitting over the
current container frontier (the source snapshots the container list at
the start of each round). -/
def splitRounds (M : MathOracle) (minRoomSize : ℤ) :
    ℕ → BSP × List (List Bool) × ℕ → BSP × List (List Bool) × ℕ
  | 0, st => st
  | d + 1, st => splitRounds M minRoomSize d (splitRound M minRoomSize st.2.1 st)

/-- createRooms is BSPNode.createRoom: internal nodes recurse left then
right; each leaf draws four randoms (width, height, x offset, y offset)
and stores a room of random size clipped to the leaf interior. -/
def createRooms (M : MathOracle) (minRoomSize maxRoomSize : ℤ) :
    BSP → ℕ → BSP × ℕ
  | .nd rect l r, k =>
    let lr := createRooms M minRoomSize maxRoomSize l k
    let rr := createRooms M minRoomSize maxRoomSize r lr.2
    (.nd rect lr.1 rr.1, rr.2)
  | .lf rect _, k =>
    let roomWidth := min (⌊M.rand k * ((maxRoomSize : ℚ) - (minRoomSize : ℚ))⌋ + minRoomSize)
      (rect.w - 2)
    let roomHeight := min (⌊M.rand (k+1) * ((maxRoomSize : ℚ) - (minRoomSize : ℚ))⌋ + minRoomSize)
      (rect.h - 2)
    let roomX := rect.x + ⌊M.rand (k+2) * ((rect.w : ℚ) - (roomWidth : ℚ) - 1)⌋ + 1
    let roomY := rect.y + ⌊M.rand (k+3) * ((rect.h : ℚ) - (roomHeight : ℚ) - 1)⌋ + 1
    (.lf rect (some (mkRoom roomX roomY roomWidth roomHeight)), k + 4)

/-- getAllRooms collects the rooms of a tree; only leaves carry rooms,
so the preorder of the source is the left-to-right leaf order. -/
def getAllRooms : BSP → List Room
  | .lf _ room => room.toList
  | .nd _ l r => getAllRooms l ++ getAllRooms r

/-- getRoomR is BSPNode.getRoom: a leaf returns its room; an internal
node fetches a room from each child and, when both exist, picks one at
random (one random value). -/
def getRoomR (M : MathOracle) : BSP → ℕ → Option Room × ℕ
  | .lf _ room, k => (room, k)
  | .nd _ l r, k =>
    let lres := getRoomR M l k
    let rres := getRoomR M r lres.2
    match lres.1, rres.1 with
    | none, rr => (rr, rres.2)
    | some a, none => (some a, rres.2)
    | some a, some b => (if M.rand rres.2 > 1/2 then some a else some b, rres.2 + 1)

/-- setTile writes a tile value at integer coordinates, skipping writes
outside the grid, exactly as the bounds-guarded writes of the source. -/
def setTile (m : ℤ → ℕ) (size x y : ℤ) (v : ℕ) : ℤ → ℕ :=
  fun i =>
    if 0 ≤ x ∧ x < size ∧ 0 ≤ y ∧ y < size then
      if i = y * size + x then v else m i
    else m i

/-- writeRow writes floor over n consecutive tiles of row y starting at
column x0 (bounds-guarded writes). -/
def writeRow (size y x0 : ℤ) (n : ℕ) (m : ℤ → ℕ) : ℤ → ℕ :=
  (List.range n).foldl (fun m0 i => setTile m0 size (x0 + i) y 0) m

/-- writeCol writes floor over n consecutive tiles of column x starting
at row y0 (bounds-guarded writes). -/
def writeCol (size x y0 : ℤ) (n : ℕ) (m : ℤ → ℕ) : ℤ → ℕ :=
  (List.range n).foldl (fun m0 j => setTile m0 size x (y0 + j) 0) m

/-- carveRoom writes floor over the rectangle of one room (x outer
loop, y inner loop, bounds-guarded writes). -/
def carveRoom (size : ℤ) (m : ℤ → ℕ) (room : Room) : ℤ → ℕ :=
  (List.range room.width.toNat).foldl
    (fun m0 (i : ℕ) => writeCol size (room.x + (i : ℤ)) room.y room.height.toNat m0)
    m

/-- createHorizontalTunnel carves floor from min to max of the two x
coordinates at row y. -/
def createHorizontalTunnel (size : ℤ) (x1 x2 y : ℤ) (m : ℤ → ℕ) : ℤ → ℕ :=
  writeRow size y (min x1 x2) (max x1 x2 - min x1 x2 + 1).toNat m

/-- createVerticalTunnel carves floor from min to max of the two y
coordinates at column x. -/
def createVerticalTunnel (size : ℤ) (y1 y2 x : ℤ) (m : ℤ → ℕ) : ℤ → ℕ :=
  writeCol size x (min y1 y2) (max y1 y2 - min y1 y2 + 1).toNat m

/-- createCorridor carves an L-shaped corridor between two room
centers, horizontal-then-vertical or vertical-then-horizontal on a
random coin (one random value). -/
def createCorridor (M : MathOracle) (r1 r2 : Room) (size : ℤ)
    (m : ℤ → ℕ) (k : ℕ) : (ℤ → ℕ) × ℕ :=
  let x1 := r1.centerX
  let y1 := r1.centerY
  let x2 := r2.centerX
  let y2 := r2.centerY
  if M.rand k > 1/2 then
    (createVerticalTunnel size y1 y2 x2 (createHorizontalTunnel size x1 x2 y1 m), k + 1)
  else
    (createHorizontalTunnel size x1 x2 y2 (createVerticalTunnel size y1 y2 x1 m), k + 1)

/-- connectRoomsT is connectRooms: post-order over the tree; at each
internal node pick one room from each child subtree and carve a
corridor between their centers. -/
def connectRoomsT (M : MathOracle) (size : ℤ) :
    BSP → (ℤ → ℕ) → ℕ → (ℤ → ℕ) × ℕ
  | .lf _ _, m, k => (m, k)
  | .nd _ l r, m, k =>
    let c1 := connectRoomsT M size l m k
    let c2 := connectRoomsT M size r c1.1 c1.2
    let lres := getRoomR M l c2.2
    let rres := getRoomR M r lres.2
    match lres.1, rres.1 with
    | some a, some b => createCorridor M a b size c2.1 rres.2
    | _, _ => (c2.1, rres.2)

/-- DungeonResult is the record returned by generateDungeon; the map is
a total function on indices whose value off the written range is the
initial wall fill. -/
structure DungeonResult where
  mapData : ℤ → ℕ
  size : ℤ
  rooms : List Room
  playerStart : ℤ × ℤ
  exit : ℤ × ℤ

/-- defaultRoom stands for the JavaScript undefined that rooms[0] and
rooms[rooms.length - 1] would produce on an empty room list; the room
list of every generated dungeon is proved nonempty, so it is never
reached under the hypotheses of the theorems below. -/
def defaultRoom : Room := mkRoom 0 0 0 0

/-- generateDungeon is the full generator: wall-filled grid, BSP
splitting rounds, room creation, room carving, corridor connection,
player start at the first room center, exit at the last room center
overwritten with the portal code 9 (bounds-guarded). -/
def generateDungeon (M : MathOracle) (size minRoomSize maxRoomSize : ℤ)
    (recursionDepth : ℕ) : DungeonResult :=
  let m0 : ℤ → ℕ := fun _ => 1
  let t0 := BSP.lf ⟨0, 0, size, size⟩ none
  let sp := splitRounds M minRoomSize recursionDepth (t0, [[]], 0)
  let cr := createRooms M minRoomSize maxRoomSize sp.1 sp.2.2
  let rooms := getAllRooms cr.1
  let m1 := rooms.foldl (carveRoom size) m0
  let cn := connectRoomsT M size cr.1 m1 cr.2
  let startRoom := rooms.headD defaultRoom
  let exitRoom := rooms.getLastD defaultRoom
  let exit := (exitRoom.centerX, exitRoom.centerY)
  let m3 := setTile cn.1 size exit.1 exit.2 9
  { mapData := m3, size := size, rooms := rooms,
    playerStart := (startRoom.centerX, startRoom.centerY), exit := exit }

/-- tileAdj relates 4-connected neighboring tiles. -/
def tileAdj (a b : ℤ × ℤ) : Prop :=
  (b.1 = a.1 + 1 ∧ b.2 = a.2) ∨ (b.1 = a.1 - 1 ∧ b.2 = a.2) ∨
  (b.1 = a.1 ∧ b.2 = a.2 + 1) ∨ (b.1 = a.1 ∧ b.2 = a.2 - 1)

/-- passableAt holds for an in-bounds tile whose code is floor (0) or
portal (9). -/
def passableAt (m : ℤ → ℕ) (size : ℤ) (t : ℤ × ℤ) : Prop :=
  0 ≤ t.1 ∧ t.1 < size ∧ 0 ≤ t.2 ∧ t.2 < size ∧
    (m (t.2 * size + t.1) = 0 ∨ m (t.2 * size + t.1) = 9)

/-- Reach is reachability by 4-connected moves through passable tiles,
including both endpoints. -/
inductive Reach (m : ℤ → ℕ) (size : ℤ) : ℤ × ℤ → ℤ × ℤ → Prop where
  | refl (t : ℤ × ℤ) (ht : passableAt m size t) : Reach m size t t
  | step {a b c : ℤ × ℤ} (hab : Reach m size a b) (adj : tileAdj b c)
      (hc : passableAt m size c) : Reach m size a c

/-- RectOK: a BSP rectangle lies within the grid and both of its
dimensions are at least minRoomSize. -/
def RectOK (size minRoomSize : ℤ) (r : Rect) : Prop :=
  0 ≤ r.x ∧ 0 ≤ r.y ∧ r.x + r.w ≤ size ∧ r.y + r.h ≤ size ∧
  minRoomSize ≤ r.w ∧ minRoomSize ≤ r.h

/-- LeavesOK: every leaf rectangle of the tree satisfies P. -/
def LeavesOK (P : Rect → Prop) : BSP → Prop
  | .lf rect _ => P rect
  | .nd _ l r => LeavesOK P l ∧ LeavesOK P r

/-- RoomOK: a room is non-degenerate, lies within the grid, and carries
the center coordinates computed by the Room constructor. -/
def RoomOK (size : ℤ) (rm : Room) : Prop :=
  0 ≤ rm.x ∧ 0 ≤ rm.y ∧ rm.x + rm.width ≤ size ∧ rm.y + rm.height ≤ size ∧
  1 ≤ rm.width ∧ 1 ≤ rm.height ∧
  rm.centerX = rm.x + Int.fdiv rm.width 2 ∧
  rm.centerY = rm.y + Int.fdiv rm.height 2

/-- TreeRoomsOK: every leaf of the tree carries a well-formed room. -/
def TreeRoomsOK (size : ℤ) : BSP → Prop
  | .lf _ room => ∃ rm, room = some rm ∧ RoomOK size rm
  | .nd _ l r => TreeRoomsOK size l ∧ TreeRoomsOK size r

/-- roomContains: the tile lies within the room's bounding rectangle. -/
def roomContains (rm : Room) (t : ℤ × ℤ) : Prop :=
  rm.x ≤ t.1 ∧ t.1 < rm.x + rm.width ∧ rm.y ≤ t.2 ∧ t.2 < rm.y + rm.height

/-- roomFloor: every tile of the room's rectangle is passable. -/
def roomFloor (m : ℤ → ℕ) (size : ℤ) (rm : Room) : Prop :=
  ∀ t : ℤ × ℤ, roomContains rm t → passableAt m size t

/- ------------------------------------------------------------------
Concrete fixtures used by counterexamples and witnesses.
------------------------------------------------------------------- -/

/-- mapC2 is a 4 by 4 grid, all floor except a wall at tile (2, 2). -/
def mapC2 : List ℕ :=
  [0,0,0,0,
   0,0,0,0,
   0,0,1,0,
   0,0,0,0]

/-- keysForward presses only the forward key. -/
def keysForward : Keys := ⟨true, false, false, false, false, false⟩

/-- EnemyOp is one external call on an enemy: a state-machine update
tick (with its surrounding world arguments) or a takeDamage call. -/
inductive EnemyOp where
  | upd (playerX playerY : ℚ) (mapData : List ℕ) (mapSize : ℤ) (dt now : ℚ) (k : ℕ)
  | dmg (amount : ℚ)

/-- applyOps applies a sequence of update and takeDamage calls to an
enemy, discarding the secondary results (random index, died flag). -/
def applyOps (M : MathOracle) (e : Enemy) : List EnemyOp → Enemy
  | [] => e
  | EnemyOp.upd px py md ms dt now k :: rest =>
    applyOps M (Enemy.update M e px py md ms dt now k).1 rest
  | EnemyOp.dmg a :: rest => applyOps M (Enemy.takeDamage e a).2 rest

/-- EnemyInv is the health and state invariant of the enemy model. -/
def EnemyInv (e : Enemy) : Prop :=
  0 ≤ e.health ∧ e.health ≤ e.maxHealth ∧
    (e.state = EnemyState.dead ↔ e.health = 0)

/-- enemyC1 is an enemy already in the Attack state whose attack
cooldown (1000 ms) has elapsed by tick time 2000, standing one tile from
the player position used in the C1 evaluation. -/
def enemyC1 : Enemy :=
  { id := 0, x := 5/2, y := 5/2, type := 0,
    maxHealth := 50, health := 50, damage := 10, speed := 3/10,
    detectionRange := 8, attackRange := 3/2, attackCooldown := 1000,
    state := EnemyState.attack, lastAttackTime := 0,
    targetX := 5/2, targetY := 5/2,
    patrolTimer := 0, patrolDirection := 0, patrolChangeInterval := 2000,
    path := [], pathUpdateTimer := 0, pathUpdateInterval := 500,
    direction := 0, animationFrame := 0 }

/-- mapC9 is a 4 by 4 grid, all floor except a wall at tile (1, 1). -/
def mapC9 : List ℕ :=
  [0,0,0,0,
   0,1,0,0,
   0,0,0,0,
   0,0,0,0]

/-- mapC8 is a 6 by 6 grid of open floor. -/
def mapC8 : List ℕ := List.replicate 36 0

/-- enemyC8 is a live enemy standing at (3.5, 4.5), exactly distance 5
from the player position (0.5, 0.5) used in the C8 evaluation. -/
def enemyC8 : Enemy :=
  { id := 0, x := 7/2, y := 9/2, type := 0,
    maxHealth := 50, health := 50, damage := 10, speed := 3/10,
    detectionRange := 8, attackRange := 3/2, attackCooldown := 1000,
    state := EnemyState.idle, lastAttackTime := 0,
    targetX := 7/2, targetY := 9/2,
    patrolTimer := 0, patrolDirection := 0, patrolChangeInterval := 2000,
    path := [], pathUpdateTimer := 0, pathUpdateInterval := 500,
    direction := 0, animationFrame := 0 }

/-- rayPasses collects the per-enemy filters of raycastShoot, stated
over the same oracle expressions the code computes: live, strictly
within maxDistance, no wall between shooter and enemy, inside the aim
cone (dot above 0.9), and within half a tile of the aim ray. -/
def rayPasses (M : MathOracle) (playerX playerY dirX dirY maxDistance : ℚ)
    (mapData : List ℕ) (mapSize : ℤ) (e : Enemy) : Prop :=
  let dx := e.x - playerX
  let dy := e.y - playerY
  let distance := M.sqrtQ (dx * dx + dy * dy)
  Enemy.isAlive e = true ∧
  distance < maxDistance ∧
  hasWallBetween M playerX playerY e.x e.y mapData mapSize = false ∧
  dirX * (dx / distance) + dirY * (dy / distance) > 9/10 ∧
  |dx * dirY - dy * dirX| < 1/2

/-- rayDist is the oracle distance from the player to an enemy, the
quantity raycastShoot compares and reports. -/
def rayDist (M : MathOracle) (playerX playerY : ℚ) (e : Enemy) : ℚ :=
  M.sqrtQ ((e.x - playerX) * (e.x - playerX) + (e.y - playerY) * (e.y - playerY))

/-- rayGoodAcc is the invariant of the raycast scan accumulator over a
processed prefix: the best distance never exceeds maxDistance; an empty
accumulator means nothing processed passed the filters; a filled
accumulator names a processed passing enemy whose distance it stores
and which is minimal among processed passing enemies. -/
def rayGoodAcc (M : MathOracle) (playerX playerY dirX dirY maxDistance : ℚ)
    (mapData : List ℕ) (mapSize : ℤ)
    (S : List (ℕ × Enemy)) (acc : Option ℕ × ℚ) : Prop :=
  acc.2 ≤ maxDistance ∧
  (acc.1 = none → acc.2 = maxDistance ∧
    ∀ p ∈ S, ¬ rayPasses M playerX playerY dirX dirY maxDistance mapData mapSize p.2) ∧
  (∀ i, acc.1 = some i → ∃ e, (i, e) ∈ S ∧
    rayPasses M playerX playerY dirX dirY maxDistance mapData mapSize e ∧
    acc.2 = rayDist M playerX playerY e ∧
    ∀ p ∈ S, rayPasses M playerX playerY dirX dirY maxDistance mapData mapSize p.2 →
      acc.2 ≤ rayDist M playerX playerY p.2)

/-- frameS0 is a minimal frame state used to instantiate the frame-loop
theorems: running, unpaused, off the portal, no signals emitted. -/
def frameS0 : FrameState :=
  { x := 3/2, y := 3/2, angle := 0, shakeAngle := 0, shakeX := 0, shakeY := 0,
    shakeIntensity := 0, health := 100, enemies := [],
    combat := ⟨Weapon.pistol, 0, 0⟩, gold := 0, itemsPurchased := 0,
    startTime := 0, lastTime := 0, mapData := mapC2, mapSize := 4,
    levelComplete := false, gameOver := false, paused := false,
    running := true, completionSignals := [], gameOverSignals := [], rng := 0 }

/- ==================================================================
THEOREMS
================================================================== -/

/-- QInf_fin_val: value of a finite extended rational. -/
theorem QInf_fin_val (q : ℚ) : (QInf.fin q).val = q := rfl

/-- QInf_fin_inf: a finite extended rational is not infinite. -/
theorem QInf_fin_inf (q : ℚ) : (QInf.fin q).inf = false := rfl

/-- QInf_top_inf: the infinite extended rational is infinite. -/
theorem QInf_top_inf : QInf.top.inf = true := rfl

/-- Claim C2, counterexample.  Moving forward from (1.5, 1.5) along
direction (0.6, 0.8) for one 1/3-second frame puts the combined
destination (2.1, 2.3) on the wall tile (2, 2).  The x-axis destination
tile (2, 1) is floor, so per-axis sliding as claimed would keep the x
component and move the player to (2.1, 1.5); the code instead discards
the entire translation and leaves the player at (1.5, 1.5).  The third
conjunct records that the x-axis destination tile is passable, and the
second evaluates the spec-worded per-axis semantics at the same input. -/
theorem claim_C2_counterexample :
    moveStep (3/2) (3/2) (3/5) (4/5) keysForward (1/3) mapC2 4 = (3/2, 3/2) ∧
    axisSlideStep (3/2) (3/2) (3/5) (4/5) keysForward (1/3) mapC2 4 = (21/10, 3/2) ∧
    passableTile (jsGet mapC2 (⌊(3/2 : ℚ)⌋ * 4 + ⌊(3/2 : ℚ) + (3/5) * ((1 : ℚ) * 3 * (1/3))⌋))
      = true := by
  refine ⟨?_, ?_, ?_⟩
  · norm_num [moveStep, keysForward,
      show jsGet mapC2 10 = some 1 from by decide,
      show passableTile (some 1) = false from by decide]
  · norm_num [axisSlideStep, keysForward,
      show jsGet mapC2 10 = some 1 from by decide,
      show jsGet mapC2 6 = some 0 from by decide,
      show passableTile (some 1) = false from by decide,
      show passableTile (some 0) = true from by decide]
  · norm_num [show jsGet mapC2 6 = some 0 from by decide,
      show passableTile (some 0) = true from by decide]

/-- Claim C2, amended: each of the two per-frame translations (the
forward/backward translation and the strafe translation) is checked as
a whole against its single combined destination tile: if that tile is
floor (0) or portal (9) the full translation is applied, otherwise the
entire translation (both components) is discarded.  The two input
channels are applied sequentially, the strafe starting from the result
of the move.  Stated here for each channel with the other channel
inactive. -/
theorem claim_C2_amended (x y dirX dirY dt : ℚ) (mapData : List ℕ)
    (mapSize : ℤ) (keys : Keys) :
    (keys.strafeLeft = false → keys.strafeRight = false →
      moveStep x y dirX dirY keys dt mapData mapSize =
        (let inputMove : ℚ :=
          (if keys.forward then 1 else 0) + (if keys.backward then -1 else 0)
         let tx := x + dirX * (inputMove * 3 * dt)
         let ty := y + dirY * (inputMove * 3 * dt)
         if inputMove ≠ 0 ∧ passableTile (jsGet mapData (⌊ty⌋ * mapSize + ⌊tx⌋)) then
           (tx, ty)
         else (x, y))) ∧
    (keys.forward = false → keys.backward = false →
      moveStep x y dirX dirY keys dt mapData mapSize =
        (let inputStrafe : ℚ :=
          (if keys.strafeLeft then 1 else 0) + (if keys.strafeRight then -1 else 0)
         let tx := x + dirY * (inputStrafe * 3 * dt)
         let ty := y + (-dirX) * (inputStrafe * 3 * dt)
         if inputStrafe ≠ 0 ∧ passableTile (jsGet mapData (⌊ty⌋ * mapSize + ⌊tx⌋)) then
           (tx, ty)
         else (x, y))) := by
  constructor
  · intro hl hr
    simp only [moveStep, hl, hr]
    norm_num
    split <;> split <;> simp_all
  · intro hf hb
    simp only [moveStep, hf, hb]
    norm_num
    split <;> split <;> simp_all

/-- Claim C2 witness: the amended characterization evaluated for a
forward move into a free tile. -/
theorem claim_C2_witness :
    moveStep (3/2) (3/2) (3/5) (4/5) keysForward (1/6) mapC2 4 = (9/5, 19/10) := by
  have h := (claim_C2_amended (3/2) (3/2) (3/5) (4/5) (1/6) mapC2 4 keysForward).1 rfl rfl
  rw [h]
  norm_num [keysForward,
    show jsGet mapC2 5 = some 0 from by decide,
    show passableTile (some 0) = true from by decide]

/-- shoot_cooldown: a shot attempted before the fire-rate interval has
elapsed is rejected with the cooldown result and changes nothing. -/
theorem shoot_cooldown (M : MathOracle) (cm : CombatState) (now : ℚ)
    (px py dirX dirY : ℚ) (enemies : List Enemy)
    (mapData : Option (List ℕ)) (mapSize : ℤ)
    (h : now - cm.lastShotTime < weaponFireRate cm.weapon) :
    shoot M cm now px py dirX dirY enemies mapData mapSize =
      (ShootResult.cooldown, cm, enemies) := by
  simp only [shoot, if_pos h]

/-- shoot_fired: a shot attempted at or after the fire-rate interval
fires (hit or miss), records now as lastShotTime and keeps the weapon. -/
theorem shoot_fired (M : MathOracle) (cm : CombatState) (now : ℚ)
    (px py dirX dirY : ℚ) (enemies : List Enemy)
    (mapData : Option (List ℕ)) (mapSize : ℤ)
    (h : ¬ now - cm.lastShotTime < weaponFireRate cm.weapon) :
    (shoot M cm now px py dirX dirY enemies mapData mapSize).1.fired = true ∧
    (shoot M cm now px py dirX dirY enemies mapData mapSize).2.1.lastShotTime = now ∧
    (shoot M cm now px py dirX dirY enemies mapData mapSize).2.1.weapon = cm.weapon := by
  simp only [shoot, if_neg h]
  cases hr : (raycastShoot M px py dirX dirY enemies (weaponRange cm.weapon) mapData mapSize).enemy with
  | none => simp [ShootResult.fired]
  | some idx =>
    cases hg : enemies[idx]? with
    | none => simp [hg, ShootResult.fired]
    | some target => simp [hg, ShootResult.fired]

/-- Claim C7: with the first shot fired at t1 (cooldown satisfied), a
second shot strictly less than fireRateMs later is rejected as
cooldown, leaving lastShotTime, kills and the enemy list untouched; a
second shot at least fireRateMs later fires; and the first fired shot
recorded t1 as lastShotTime whether it hit or missed. -/
theorem claim_C7 (M : MathOracle) (cm : CombatState)
    (t1 t2 px py dirX dirY px2 py2 dx2 dy2 : ℚ)
    (enemies enemies2 : List Enemy) (mapData mapData2 : Option (List ℕ))
    (mapSize mapSize2 : ℤ)
    (h1 : ¬ t1 - cm.lastShotTime < weaponFireRate cm.weapon) :
    (shoot M cm t1 px py dirX dirY enemies mapData mapSize).1.fired = true ∧
    (shoot M cm t1 px py dirX dirY enemies mapData mapSize).2.1.lastShotTime = t1 ∧
    (t2 - t1 < weaponFireRate cm.weapon →
      shoot M (shoot M cm t1 px py dirX dirY enemies mapData mapSize).2.1 t2
          px2 py2 dx2 dy2 enemies2 mapData2 mapSize2 =
        (ShootResult.cooldown,
         (shoot M cm t1 px py dirX dirY enemies mapData mapSize).2.1, enemies2)) ∧
    (¬ t2 - t1 < weaponFireRate cm.weapon →
      (shoot M (shoot M cm t1 px py dirX dirY enemies mapData mapSize).2.1 t2
          px2 py2 dx2 dy2 enemies2 mapData2 mapSize2).1.fired = true) := by
  obtain ⟨hf, hlast, hweap⟩ :=
    shoot_fired M cm t1 px py dirX dirY enemies mapData mapSize h1
  refine ⟨hf, hlast, ?_, ?_⟩
  · intro h2
    exact shoot_cooldown M _ t2 px2 py2 dx2 dy2 enemies2 mapData2 mapSize2
      (by rw [hlast, hweap]; exact h2)
  · intro h2
    exact (shoot_fired M _ t2 px2 py2 dx2 dy2 enemies2 mapData2 mapSize2
      (by rw [hlast, hweap]; exact h2)).1

/-- Claim C7 witness: a pistol (500 ms fire rate) with no enemies in
range fires at t1 = 1000, is rejected at t2 = 1200, and fires again
when attempted 500 ms after the first shot. -/
theorem claim_C7_witness :
    (shoot ratOracle ⟨Weapon.pistol, 0, 0⟩ 1000 0 0 1 0 [] none 0).1.fired = true ∧
    (shoot ratOracle (shoot ratOracle ⟨Weapon.pistol, 0, 0⟩ 1000 0 0 1 0 [] none 0).2.1
        1200 0 0 1 0 [] none 0) =
      (ShootResult.cooldown,
       (shoot ratOracle ⟨Weapon.pistol, 0, 0⟩ 1000 0 0 1 0 [] none 0).2.1, []) ∧
    (shoot ratOracle (shoot ratOracle ⟨Weapon.pistol, 0, 0⟩ 1000 0 0 1 0 [] none 0).2.1
        1500 0 0 1 0 [] none 0).1.fired = true := by
  have h := claim_C7 ratOracle ⟨Weapon.pistol, 0, 0⟩ 1000 1200 0 0 1 0 0 0 1 0 [] []
    none none 0 0 (by norm_num [weaponFireRate])
  have h2 := claim_C7 ratOracle ⟨Weapon.pistol, 0, 0⟩ 1000 1500 0 0 1 0 0 0 1 0 [] []
    none none 0 0 (by norm_num [weaponFireRate])
  exact ⟨h.1, h.2.2.1 (by norm_num [weaponFireRate]),
         h2.2.2.2 (by norm_num [weaponFireRate])⟩

/-- patrol_frame: the patrol step moves and retimes the enemy but never
touches health, maxHealth or the state field. -/
theorem patrol_frame (M : MathOracle) (e : Enemy) (mapData : List ℕ)
    (mapSize : ℤ) (dt : ℚ) (k : ℕ) :
    (Enemy.patrol M e mapData mapSize dt k).1.health = e.health ∧
    (Enemy.patrol M e mapData mapSize dt k).1.maxHealth = e.maxHealth ∧
    (Enemy.patrol M e mapData mapSize dt k).1.state = e.state := by
  have hm : ∀ e1 k1, (patrolMove M e1 mapData mapSize dt k1).1.health = e1.health ∧
      (patrolMove M e1 mapData mapSize dt k1).1.maxHealth = e1.maxHealth ∧
      (patrolMove M e1 mapData mapSize dt k1).1.state = e1.state := by
    intro e1 k1
    simp only [patrolMove, Enemy.updateDirection]
    split
    · split <;> simp
    · simp
  simp only [Enemy.patrol]
  split <;> simp [hm]

/-- chase_frame: the chase step moves and retimes the enemy but never
touches health, maxHealth or the state field. -/
theorem chase_frame (M : MathOracle) (fuel : ℕ) (e : Enemy)
    (px py : ℚ) (mapData : List ℕ) (mapSize : ℤ) (dt : ℚ) (k : ℕ) :
    (Enemy.chasePlayer M fuel e px py mapData mapSize dt k).1.health = e.health ∧
    (Enemy.chasePlayer M fuel e px py mapData mapSize dt k).1.maxHealth = e.maxHealth ∧
    (Enemy.chasePlayer M fuel e px py mapData mapSize dt k).1.state = e.state := by
  have hrt : ∀ e1, (chaseRetime e1 px py mapData mapSize dt).health = e1.health ∧
      (chaseRetime e1 px py mapData mapSize dt).maxHealth = e1.maxHealth ∧
      (chaseRetime e1 px py mapData mapSize dt).state = e1.state := by
    intro e1
    simp only [chaseRetime]
    split <;> simp
  have hmv : ∀ e1 dx dy dist k1,
      (chaseMove M e1 dx dy dist mapData mapSize dt k1).1.health = e1.health ∧
      (chaseMove M e1 dx dy dist mapData mapSize dt k1).1.maxHealth = e1.maxHealth ∧
      (chaseMove M e1 dx dy dist mapData mapSize dt k1).1.state = e1.state := by
    intro e1 dx dy dist k1
    simp only [chaseMove, Enemy.updateDirection]
    split
    · split <;> simp
    · simp
  induction fuel generalizing e k with
  | zero => simp [Enemy.chasePlayer]
  | succ n ih =>
    simp only [Enemy.chasePlayer]
    cases hp : (chaseRetime e px py mapData mapSize dt).path with
    | nil => simpa using hrt e
    | cons target restPath =>
      simp only []
      split
      · split
        · simpa using hrt e
        · refine ⟨?_, ?_, ?_⟩
          · rw [(ih _ _).1]; simpa using (hrt e).1
          · rw [(ih _ _).2.1]; simpa using (hrt e).2.1
          · rw [(ih _ _).2.2]; simpa using (hrt e).2.2
      · refine ⟨?_, ?_, ?_⟩
        · rw [(hmv _ _ _ _ _).1]; exact (hrt e).1
        · rw [(hmv _ _ _ _ _).2.1]; exact (hrt e).2.1
        · rw [(hmv _ _ _ _ _).2.2]; exact (hrt e).2.2

/-- update_dead: a dead enemy is returned unchanged by the state
machine, together with the unchanged random index. -/
theorem update_dead (M : MathOracle) (e : Enemy) (px py : ℚ)
    (mapData : List ℕ) (mapSize : ℤ) (dt now : ℚ) (k : ℕ)
    (h : e.state = EnemyState.dead) :
    Enemy.update M e px py mapData mapSize dt now k = (e, k) := by
  simp [Enemy.update, h]

/-- takeDamage_dead: damaging a dead enemy reports false and changes
nothing. -/
theorem takeDamage_dead (e : Enemy) (a : ℚ) (h : e.state = EnemyState.dead) :
    Enemy.takeDamage e a = (false, e) := by
  simp [Enemy.takeDamage, h]

/-- update_frame: one state-machine step never changes health or
maxHealth, and the updated state is Dead exactly when the old one was
(the step never kills and never revives). -/
theorem update_frame (M : MathOracle) (e : Enemy) (px py : ℚ)
    (mapData : List ℕ) (mapSize : ℤ) (dt now : ℚ) (k : ℕ) :
    (Enemy.update M e px py mapData mapSize dt now k).1.health = e.health ∧
    (Enemy.update M e px py mapData mapSize dt now k).1.maxHealth = e.maxHealth ∧
    ((Enemy.update M e px py mapData mapSize dt now k).1.state = EnemyState.dead ↔
      e.state = EnemyState.dead) := by
  by_cases hd : e.state = EnemyState.dead
  · rw [update_dead M e px py mapData mapSize dt now k hd]
    simp [hd]
  · have hpat := patrol_frame M e mapData mapSize dt k
    have hch := chase_frame M chaseFuel e px py mapData mapSize dt k
    simp only [Enemy.update, if_neg hd]
    cases hs : e.state with
    | dead => exact absurd hs hd
    | idle =>
      simp only [hs]
      split
      · simp [hs]
      · simp [hpat.1, hpat.2.1, hpat.2.2, hs]
    | chase =>
      simp only [hs]
      split
      · simp [hs]
      · split
        · simp [hs]
        · split
          · simp [hch.1, hch.2.1, hch.2.2, hs]
          · simp [hs]
    | attack =>
      simp only [hs]
      split
      · simp [hs]
      · simp only [Enemy.tryAttack, Enemy.facePlayer, Enemy.updateDirection]
        split
        · split <;> split <;> simp [hs]
        · split <;> split <;> simp [hs]

/-- takeDamage_inv: takeDamage with a nonnegative amount preserves the
enemy invariant. -/
theorem takeDamage_inv (e : Enemy) (a : ℚ) (ha : 0 ≤ a) (h : EnemyInv e) :
    EnemyInv (Enemy.takeDamage e a).2 := by
  obtain ⟨h0, h1, h2⟩ := h
  by_cases hd : e.state = EnemyState.dead
  · rw [takeDamage_dead e a hd]; exact ⟨h0, h1, h2⟩
  · simp only [Enemy.takeDamage, if_neg hd]
    split
    · refine ⟨le_refl 0, ?_, by simp⟩
      simp only
      calc (0 : ℚ) ≤ e.health := h0
        _ ≤ e.maxHealth := h1
    · rename_i hpos
      push_neg at hpos
      split
      · refine ⟨le_of_lt hpos, ?_, ?_⟩
        · simp only
          calc e.health - a ≤ e.health := by linarith
            _ ≤ e.maxHealth := h1
        · simp only
          constructor
          · intro hcon; cases hcon
          · intro hcon; exact absurd hcon (by linarith)
      · refine ⟨le_of_lt hpos, ?_, ?_⟩
        · simp only
          calc e.health - a ≤ e.health := by linarith
            _ ≤ e.maxHealth := h1
        · simp only
          constructor
          · intro hcon; exact absurd hcon hd
          · intro hcon; exact absurd hcon (by linarith)

/-- mkEnemy_inv: a freshly constructed enemy with a nonnegative health
stat satisfies the invariant (zero health falls back to the default 50). -/
theorem mkEnemy_inv (M : MathOracle) (id : ℕ) (x y : ℚ) (ty : ℕ)
    (stats : EnemyStats) (k : ℕ) (h : 0 ≤ stats.health) :
    EnemyInv (mkEnemy M id x y ty stats k).1 := by
  have hpos : 0 < jsOr stats.health 50 := by
    unfold jsOr
    split
    · norm_num
    · rename_i hne
      exact lt_of_le_of_ne h (Ne.symm hne)
  refine ⟨le_of_lt hpos, le_refl _, ?_⟩
  simp only [mkEnemy]
  constructor
  · intro hcon; cases hcon
  · intro hcon; exact absurd hcon (by simpa using ne_of_gt hpos)

/-- Claim C5: from construction (with a nonnegative health stat),
through any sequence of update and takeDamage calls (with nonnegative
damage amounts), the enemy satisfies 0 ≤ health ≤ maxHealth and
state = Dead exactly when health = 0; moreover a dead enemy is returned
unchanged by update, takeDamage on a dead enemy returns false and
changes nothing, and getAliveEnemies never contains a dead enemy. -/
theorem claim_C5 (M : MathOracle) (id : ℕ) (x y : ℚ) (ty : ℕ)
    (stats : EnemyStats) (k : ℕ) (hstats : 0 ≤ stats.health)
    (ops : List EnemyOp) (hops : ∀ a, EnemyOp.dmg a ∈ ops → 0 ≤ a) :
    EnemyInv (applyOps M (mkEnemy M id x y ty stats k).1 ops) ∧
    (∀ e₁ px py md ms dt now k₁, e₁.state = EnemyState.dead →
      Enemy.update M e₁ px py md ms dt now k₁ = (e₁, k₁)) ∧
    (∀ e₁ a, e₁.state = EnemyState.dead → Enemy.takeDamage e₁ a = (false, e₁)) ∧
    (∀ es e₁, e₁ ∈ getAliveEnemies es → e₁.state ≠ EnemyState.dead) := by
  have aux : ∀ (ops₁ : List EnemyOp) (e : Enemy), EnemyInv e →
      (∀ a, EnemyOp.dmg a ∈ ops₁ → 0 ≤ a) →
      EnemyInv (applyOps M e ops₁) := by
    intro ops₁
    induction ops₁ with
    | nil => intro e he _; simpa [applyOps] using he
    | cons op rest ih =>
      intro e he hops₁
      cases op with
      | upd px py md ms dt now k0 =>
        simp only [applyOps]
        refine ih _ ?_ (fun a ha => hops₁ a (List.mem_cons_of_mem _ ha))
        obtain ⟨h1, h2, h3⟩ := he
        obtain ⟨g1, g2, g3⟩ := update_frame M e px py md ms dt now k0
        exact ⟨g1 ▸ h1, by rw [g1, g2]; exact h2, by rw [g1]; exact g3.trans h3⟩
      | dmg a =>
        simp only [applyOps]
        refine ih _ ?_ (fun b hb => hops₁ b (List.mem_cons_of_mem _ hb))
        exact takeDamage_inv _ a (hops₁ a (List.mem_cons_self _ _)) he
  refine ⟨aux ops _ (mkEnemy_inv M id x y ty stats k hstats) hops,
    update_dead M, takeDamage_dead, ?_⟩
  intro es e₁ he
  simp only [getAliveEnemies, List.mem_filter, Enemy.isAlive] at he
  simpa using he.2

/-- Claim C5 witness: a default-stat enemy shot once for 30 damage and
once for 40 damage ends dead with health clamped at zero. -/
theorem claim_C5_witness :
    EnemyInv (applyOps ratOracle
      (mkEnemy ratOracle 0 (1/2) (1/2) 0 ⟨50, 10, 1, 8, 3/2, 1000⟩ 0).1
      [EnemyOp.dmg 30, EnemyOp.dmg 40]) := by
  have h := claim_C5 ratOracle 0 (1/2) (1/2) 0 ⟨50, 10, 1, 8, 3/2, 1000⟩ 0
    (by norm_num) [EnemyOp.dmg 30, EnemyOp.dmg 40]
    (by intro a ha; simp at ha; rcases ha with h1 | h1 <;> simp [h1])
  exact h.1

/-- ratSqrt_one: the square root oracle is exact at 1. -/
theorem ratSqrt_one : ratSqrt 1 = 1 := by
  norm_num [ratSqrt, natSqrtL, natSqrtAux]

/-- Claim C1: an enemy that is already in the Attack state at the start
of an EnemyManager.update tick, within attack range, with its cooldown
elapsed (now - lastAttackTime = 2000 ≥ 1000 = attackCooldown),
contributes zero to the damage total of the tick, although its damage
stat is 10: the state-machine update itself calls tryAttack, consuming
the cooldown and discarding the returned damage, so the second
tryAttack of the manager fails the cooldown test.  The specification
says the damage of every enemy whose attack roll succeeds this tick is
summed into the total. -/
theorem claim_C1 :
    enemyC1.state = EnemyState.attack ∧
    Enemy.getDistance ratOracle enemyC1 (7/2) (5/2) ≤ enemyC1.attackRange ∧
    2000 - enemyC1.lastAttackTime ≥ enemyC1.attackCooldown ∧
    enemyC1.damage = 10 ∧
    (managerUpdate ratOracle [enemyC1] (7/2) (5/2) [] 0 (1/60) 2000 0).1 = 0 := by
  refine ⟨rfl, ?_, by norm_num [enemyC1], rfl, ?_⟩
  · norm_num [Enemy.getDistance, enemyC1, ratOracle, ratSqrt_one]
  · norm_num [managerUpdate, Enemy.update, Enemy.isAlive, Enemy.getDistance,
      Enemy.facePlayer, Enemy.updateDirection, Enemy.tryAttack,
      enemyC1, ratOracle, ratSqrt_one,
      show (EnemyState.attack = EnemyState.dead) ↔ False from by simp]

/-- ratSqrt_c9: the square root oracle is exact at 49/16 (the squared
distance of the C9 ray). -/
theorem ratSqrt_c9 : ratSqrt (49/16) = 7/4 := by
  have h49 : natSqrtL 49 = 7 := by decide
  have h16 : natSqrtL 16 = 4 := by decide
  norm_num [ratSqrt, h49, h16, show Int.toNat 49 = 49 from by decide]

/-- Claim C9: line of sight is not symmetric.  Between A = (0.61, 1.32)
and B = (1.66, 2.72) on a grid whose only wall is tile (1, 1), the
distance is exactly 1.75, so both directions sample 4 points at
half-tile spacing; the forward samples (t = 0, 0.5, 1, 1.5 along the
ray) all land on floor tiles, while the reverse samples
(t = 1.75, 1.25, 0.75, 0.25) land on the wall tile at t = 0.75.  The
check from A to B reports clear sight, the check from B to A reports
blocked. -/
theorem claim_C9 :
    Enemy.hasLineOfSight ratOracle (61/100) (33/25) (83/50) (68/25) mapC9 4 = true ∧
    Enemy.hasLineOfSight ratOracle (83/50) (68/25) (61/100) (33/25) mapC9 4 = false := by
  have hsteps : (⌈(7/2 : ℚ)⌉ : ℤ).toNat = 4 := by
    rw [show (⌈(7/2 : ℚ)⌉ : ℤ) = 4 from by rw [Int.ceil_eq_iff] <;> norm_num]
    rfl
  constructor
  · norm_num [Enemy.hasLineOfSight, ratOracle, ratSqrt_c9,
      -List.all_eq_true, -List.all_eq_false, List.all_cons, List.all_nil, hsteps,
      show List.range 4 = [0,1,2,3] from by decide,
      show jsGet mapC9 4 = some 0 from by decide,
      show jsGet mapC9 9 = some 0 from by decide]
  · norm_num [Enemy.hasLineOfSight, ratOracle, ratSqrt_c9,
      -List.all_eq_true, -List.all_eq_false, List.all_cons, List.all_nil, hsteps,
      show List.range 4 = [0,1,2,3] from by decide,
      show jsGet mapC9 5 = some 1 from by decide,
      show jsGet mapC9 9 = some 0 from by decide]

/-- ratSqrt_c8: the square root oracle is exact at 25. -/
theorem ratSqrt_c8 : ratSqrt 25 = 5 := by
  have h25 : natSqrtL 25 = 5 := by decide
  norm_num [ratSqrt, h25, natSqrtL, natSqrtAux, show Int.toNat 25 = 25 from by decide]

/-- wallDDALoop_go: an iteration whose step continues passes to the
next iteration with the stepped state. -/
theorem wallDDALoop_go (distance : ℚ) (mapData : List ℕ) (mapSize : ℤ)
    (dX dY : QInf) (n : ℕ) (st st1 : ℤ × ℤ × QInf × QInf × ℤ × ℤ)
    (h : wallDDAStep distance mapData mapSize dX dY st = (none, st1)) :
    wallDDALoop distance mapData mapSize dX dY (n + 1) st =
      wallDDALoop distance mapData mapSize dX dY n st1 := by
  simp [wallDDALoop, h]

/-- wallDDALoop_stop: an iteration whose step returns a verdict ends
the loop with that verdict. -/
theorem wallDDALoop_stop (distance : ℚ) (mapData : List ℕ) (mapSize : ℤ)
    (dX dY : QInf) (n : ℕ) (b : Bool) (st st1 : ℤ × ℤ × QInf × QInf × ℤ × ℤ)
    (h : wallDDAStep distance mapData mapSize dX dY st = (some b, st1)) :
    wallDDALoop distance mapData mapSize dX dY (n + 1) st = b := by
  simp [wallDDALoop, h]

set_option maxHeartbeats 1600000 in
/-- hasWall_c8: the DDA between (0.5, 0.5) and (3.5, 4.5) on the open
6 by 6 grid finds no wall; the march steps through tiles (0,1), (1,1),
(1,2), (2,2), (2,3), (3,3), (3,4) and stops when the travelled distance
passes the target distance 5. -/
theorem hasWall_c8 :
    hasWallBetween ratOracle (1/2) (1/2) (7/2) (9/2) mapC8 6 = false := by
  have h1 : wallDDAStep 5 mapC8 6 (QInf.fin (5/3)) (QInf.fin (5/4))
      (0, 0, QInf.fin (5/6), QInf.fin (5/8), 1, 1) =
      (none, (0, 1, QInf.fin (5/6), QInf.fin (15/8), 1, 1)) := by
    norm_num [wallDDAStep, qiAdd, qiSub, qiScale, qiLt, qiGeQ,
      QInf_fin_val, QInf_fin_inf, QInf_top_inf,
      show jsGet mapC8 6 = some 0 from by decide]
  have h2 : wallDDAStep 5 mapC8 6 (QInf.fin (5/3)) (QInf.fin (5/4))
      (0, 1, QInf.fin (5/6), QInf.fin (15/8), 1, 1) =
      (none, (1, 1, QInf.fin (5/2), QInf.fin (15/8), 1, 1)) := by
    norm_num [wallDDAStep, qiAdd, qiSub, qiScale, qiLt, qiGeQ,
      QInf_fin_val, QInf_fin_inf, QInf_top_inf,
      show jsGet mapC8 7 = some 0 from by decide]
  have h3 : wallDDAStep 5 mapC8 6 (QInf.fin (5/3)) (QInf.fin (5/4))
      (1, 1, QInf.fin (5/2), QInf.fin (15/8), 1, 1) =
      (none, (1, 2, QInf.fin (5/2), QInf.fin (25/8), 1, 1)) := by
    norm_num [wallDDAStep, qiAdd, qiSub, qiScale, qiLt, qiGeQ,
      QInf_fin_val, QInf_fin_inf, QInf_top_inf,
      show jsGet mapC8 13 = some 0 from by decide]
  have h4 : wallDDAStep 5 mapC8 6 (QInf.fin (5/3)) (QInf.fin (5/4))
      (1, 2, QInf.fin (5/2), QInf.fin (25/8), 1, 1) =
      (none, (2, 2, QInf.fin (25/6), QInf.fin (25/8), 1, 1)) := by
    norm_num [wallDDAStep, qiAdd, qiSub, qiScale, qiLt, qiGeQ,
      QInf_fin_val, QInf_fin_inf, QInf_top_inf,
      show jsGet mapC8 14 = some 0 from by decide]
  have h5 : wallDDAStep 5 mapC8 6 (QInf.fin (5/3)) (QInf.fin (5/4))
      (2, 2, QInf.fin (25/6), QInf.fin (25/8), 1, 1) =
      (none, (2, 3, QInf.fin (25/6), QInf.fin (35/8), 1, 1)) := by
    norm_num [wallDDAStep, qiAdd, qiSub, qiScale, qiLt, qiGeQ,
      QInf_fin_val, QInf_fin_inf, QInf_top_inf,
      show jsGet mapC8 20 = some 0 from by decide]
  have h6 : wallDDAStep 5 mapC8 6 (QInf.fin (5/3)) (QInf.fin (5/4))
      (2, 3, QInf.fin (25/6), QInf.fin (35/8), 1, 1) =
      (none, (3, 3, QInf.fin (35/6), QInf.fin (35/8), 1, 1)) := by
    norm_num [wallDDAStep, qiAdd, qiSub, qiScale, qiLt, qiGeQ,
      QInf_fin_val, QInf_fin_inf, QInf_top_inf,
      show jsGet mapC8 21 = some 0 from by decide]
  have h7 : wallDDAStep 5 mapC8 6 (QInf.fin (5/3)) (QInf.fin (5/4))
      (3, 3, QInf.fin (35/6), QInf.fin (35/8), 1, 1) =
      (none, (3, 4, QInf.fin (35/6), QInf.fin (45/8), 1, 1)) := by
    norm_num [wallDDAStep, qiAdd, qiSub, qiScale, qiLt, qiGeQ,
      QInf_fin_val, QInf_fin_inf, QInf_top_inf,
      show jsGet mapC8 27 = some 0 from by decide]
  have h8 : wallDDAStep 5 mapC8 6 (QInf.fin (5/3)) (QInf.fin (5/4))
      (3, 4, QInf.fin (35/6), QInf.fin (45/8), 1, 1) =
      (some false, (3, 5, QInf.fin (35/6), QInf.fin (55/8), 1, 1)) := by
    norm_num [wallDDAStep, qiAdd, qiSub, qiScale, qiLt, qiGeQ,
      QInf_fin_val, QInf_fin_inf, QInf_top_inf]
  have hloop : wallDDALoop 5 mapC8 6 (QInf.fin (5/3)) (QInf.fin (5/4)) 64
      (0, 0, QInf.fin (5/6), QInf.fin (5/8), 1, 1) = false := by
    rw [show (64 : ℕ) = 63 + 1 from rfl, wallDDALoop_go _ _ _ _ _ _ _ _ h1,
        show (63 : ℕ) = 62 + 1 from rfl, wallDDALoop_go _ _ _ _ _ _ _ _ h2,
        show (62 : ℕ) = 61 + 1 from rfl, wallDDALoop_go _ _ _ _ _ _ _ _ h3,
        show (61 : ℕ) = 60 + 1 from rfl, wallDDALoop_go _ _ _ _ _ _ _ _ h4,
        show (60 : ℕ) = 59 + 1 from rfl, wallDDALoop_go _ _ _ _ _ _ _ _ h5,
        show (59 : ℕ) = 58 + 1 from rfl, wallDDALoop_go _ _ _ _ _ _ _ _ h6,
        show (58 : ℕ) = 57 + 1 from rfl, wallDDALoop_go _ _ _ _ _ _ _ _ h7,
        show (57 : ℕ) = 56 + 1 from rfl, wallDDALoop_stop _ _ _ _ _ _ _ _ _ h8]
  have harg : ((7/2 : ℚ) - 1/2) * ((7/2 : ℚ) - 1/2) + ((9/2 : ℚ) - 1/2) * ((9/2 : ℚ) - 1/2)
      = 25 := by norm_num
  norm_num [hasWallBetween, ratOracle, harg, ratSqrt_c8, qiScale,
    QInf_fin_val, QInf_fin_inf, QInf_top_inf,
    show |(5/3 : ℚ)| = 5/3 from by norm_num,
    show |(5/4 : ℚ)| = 5/4 from by norm_num]
  exact hloop

/-- Claim C8, counterexample.  The enemy at (3.5, 4.5) seen from
(0.5, 0.5) with facing (0.6, 0.8) has Euclidean distance exactly 5 =
maxDistance, no wall in between, dot product 1 with the facing
direction, and perpendicular distance 0 to the aim ray: it passes every
filter of the claim with distance at most maxDistance, yet raycastShoot
reports no hit, because the closest-distance accumulator starts at
maxDistance and only strictly smaller distances are accepted. -/
theorem claim_C8_counterexample :
    rayDist ratOracle (1/2) (1/2) enemyC8 = 5 ∧
    Enemy.isAlive enemyC8 = true ∧
    hasWallBetween ratOracle (1/2) (1/2) enemyC8.x enemyC8.y mapC8 6 = false ∧
    (3/5 : ℚ) * ((enemyC8.x - 1/2) / 5) + (4/5 : ℚ) * ((enemyC8.y - 1/2) / 5) > 9/10 ∧
    |(enemyC8.x - 1/2) * (4/5 : ℚ) - (enemyC8.y - 1/2) * (3/5 : ℚ)| < 1/2 ∧
    (raycastShoot ratOracle (1/2) (1/2) (3/5) (4/5) [enemyC8] 5 (some mapC8) 6).hit
      = false := by
  have harg : ((7/2 : ℚ) - 1/2) * ((7/2 : ℚ) - 1/2) + ((9/2 : ℚ) - 1/2) * ((9/2 : ℚ) - 1/2)
      = 25 := by norm_num
  refine ⟨?_, rfl, ?_, by norm_num [enemyC8], by norm_num [enemyC8], ?_⟩
  · norm_num [rayDist, enemyC8, ratOracle, harg, ratSqrt_c8]
  · simpa [enemyC8] using hasWall_c8
  · norm_num [raycastShoot, rayScanStep, Enemy.isAlive, enemyC8, ratOracle, harg,
      ratSqrt_c8, show List.enum [enemyC8] = [(0, enemyC8)] from rfl, hasWall_c8]

/-- rayPasses_iff restates the raycast filters without let bindings. -/
theorem rayPasses_iff (M : MathOracle) (px py dirX dirY maxD : ℚ)
    (md : List ℕ) (mapSize : ℤ) (e : Enemy) :
    rayPasses M px py dirX dirY maxD md mapSize e ↔
      (Enemy.isAlive e = true ∧
       M.sqrtQ ((e.x - px) * (e.x - px) + (e.y - py) * (e.y - py)) < maxD ∧
       hasWallBetween M px py e.x e.y md mapSize = false ∧
       dirX * ((e.x - px) / M.sqrtQ ((e.x - px) * (e.x - px) + (e.y - py) * (e.y - py))) +
         dirY * ((e.y - py) / M.sqrtQ ((e.x - px) * (e.x - px) + (e.y - py) * (e.y - py)))
           > 9/10 ∧
       |(e.x - px) * dirY - (e.y - py) * dirX| < 1/2) := by
  simp only [rayPasses]

/-- rayScanStep_cases: one scan step either skips an enemy that fails
some filter of rayPasses (for an enemy at exactly maxDistance this uses
that the accumulator never exceeds maxDistance), or adopts a passing
enemy strictly closer than the accumulator, or skips a passing enemy at
least as far as the accumulator. -/
theorem rayScanStep_cases (M : MathOracle) (px py dirX dirY maxD : ℚ)
    (md : List ℕ) (mapSize : ℤ) (hsize : 0 < mapSize)
    (acc : Option ℕ × ℚ) (i : ℕ) (e : Enemy) (hacc : acc.2 ≤ maxD) :
    (¬ rayPasses M px py dirX dirY maxD md mapSize e ∧
      rayScanStep M px py dirX dirY maxD (some md) mapSize acc (i, e) = acc) ∨
    (rayPasses M px py dirX dirY maxD md mapSize e ∧
      ((rayDist M px py e < acc.2 ∧
        rayScanStep M px py dirX dirY maxD (some md) mapSize acc (i, e) =
          (some i, rayDist M px py e)) ∨
       (acc.2 ≤ rayDist M px py e ∧
        rayScanStep M px py dirX dirY maxD (some md) mapSize acc (i, e) = acc))) := by
  simp only [rayScanStep, rayDist, if_pos hsize]
  by_cases h1 : Enemy.isAlive e = true
  case neg =>
    refine Or.inl ⟨fun hp => absurd ((rayPasses_iff M px py dirX dirY maxD md mapSize e).1 hp).1 h1, ?_⟩
    rw [if_pos h1]
  case pos =>
    rw [if_neg (not_not_intro h1)]
    by_cases h2 : M.sqrtQ ((e.x - px) * (e.x - px) + (e.y - py) * (e.y - py)) > maxD
    case pos =>
      refine Or.inl ⟨fun hp => ?_, by rw [if_pos h2]⟩
      have := ((rayPasses_iff M px py dirX dirY maxD md mapSize e).1 hp).2.1
      linarith
    case neg =>
      rw [if_neg h2]
      by_cases h3 : hasWallBetween M px py e.x e.y md mapSize = true
      case pos =>
        refine Or.inl ⟨fun hp => ?_, by rw [if_pos h3]⟩
        have := ((rayPasses_iff M px py dirX dirY maxD md mapSize e).1 hp).2.2.1
        rw [this] at h3
        cases h3
      case neg =>
        rw [if_neg h3]
        have h3f : hasWallBetween M px py e.x e.y md mapSize = false := by
          cases hweq : hasWallBetween M px py e.x e.y md mapSize
          · rfl
          · exact absurd hweq h3
        by_cases h4 : dirX * ((e.x - px) / M.sqrtQ ((e.x - px) * (e.x - px) + (e.y - py) * (e.y - py))) +
            dirY * ((e.y - py) / M.sqrtQ ((e.x - px) * (e.x - px) + (e.y - py) * (e.y - py))) > 9/10
        case neg =>
          refine Or.inl ⟨fun hp => absurd ((rayPasses_iff M px py dirX dirY maxD md mapSize e).1 hp).2.2.2.1 h4, ?_⟩
          rw [if_neg h4]
        case pos =>
          rw [if_pos h4]
          by_cases h5 : |(e.x - px) * dirY - (e.y - py) * dirX| < 1/2 ∧
              M.sqrtQ ((e.x - px) * (e.x - px) + (e.y - py) * (e.y - py)) < acc.2
          case pos =>
            refine Or.inr ⟨(rayPasses_iff M px py dirX dirY maxD md mapSize e).2
              ⟨h1, lt_of_lt_of_le h5.2 hacc, h3f, h4, h5.1⟩, Or.inl ⟨h5.2, by rw [if_pos h5]⟩⟩
          case neg =>
            rw [if_neg h5]
            push_neg at h5
            by_cases hperp : |(e.x - px) * dirY - (e.y - py) * dirX| < 1/2
            case pos =>
              by_cases hd : M.sqrtQ ((e.x - px) * (e.x - px) + (e.y - py) * (e.y - py)) < maxD
              case pos =>
                exact Or.inr ⟨(rayPasses_iff M px py dirX dirY maxD md mapSize e).2
                  ⟨h1, hd, h3f, h4, hperp⟩, Or.inr ⟨h5 hperp, rfl⟩⟩
              case neg =>
                exact Or.inl ⟨fun hp =>
                  absurd ((rayPasses_iff M px py dirX dirY maxD md mapSize e).1 hp).2.1 hd, rfl⟩
            case neg =>
              exact Or.inl ⟨fun hp =>
                absurd ((rayPasses_iff M px py dirX dirY maxD md mapSize e).1 hp).2.2.2.2 hperp, rfl⟩

/-- rayGood_step: the scan invariant is preserved by one scan step,
with the processed pair appended to the prefix. -/
theorem rayGood_step (M : MathOracle) (px py dirX dirY maxD : ℚ)
    (md : List ℕ) (mapSize : ℤ) (hsize : 0 < mapSize)
    (S : List (ℕ × Enemy)) (acc : Option ℕ × ℚ) (i : ℕ) (e : Enemy)
    (h : rayGoodAcc M px py dirX dirY maxD md mapSize S acc) :
    rayGoodAcc M px py dirX dirY maxD md mapSize (S ++ [(i, e)])
      (rayScanStep M px py dirX dirY maxD (some md) mapSize acc (i, e)) := by
  obtain ⟨hle, hnone, hsome⟩ := h
  rcases rayScanStep_cases M px py dirX dirY maxD md mapSize hsize acc i e hle with
    ⟨hnp, heq⟩ | ⟨hp, ⟨hlt, heq⟩ | ⟨hge, heq⟩⟩
  · rw [heq]
    refine ⟨hle, fun hn => ⟨(hnone hn).1, fun p hmem => ?_⟩, fun i₀ hi₀ => ?_⟩
    · rcases List.mem_append.1 hmem with hm | hm
      · exact (hnone hn).2 p hm
      · rcases List.mem_singleton.1 hm with rfl
        exact hnp
    · obtain ⟨e₀, hm, hp₀, hd₀, hmin⟩ := hsome i₀ hi₀
      refine ⟨e₀, List.mem_append_left _ hm, hp₀, hd₀, fun p hmem hpp => ?_⟩
      rcases List.mem_append.1 hmem with hm₁ | hm₁
      · exact hmin p hm₁ hpp
      · rcases List.mem_singleton.1 hm₁ with rfl
        exact absurd hpp hnp
  · rw [heq]
    refine ⟨le_trans (le_of_lt hlt) hle, by simp, fun i₀ hi₀ => ?_⟩
    have : i₀ = i := by simpa [eq_comm] using hi₀
    subst this
    refine ⟨e, List.mem_append_right _ (List.mem_singleton.2 rfl), hp, rfl,
      fun p hmem hpp => ?_⟩
    rcases List.mem_append.1 hmem with hm | hm
    · rcases Option.eq_none_or_eq_some acc.1 with hacc1 | ⟨j, hacc1⟩
      · exact absurd hpp ((hnone hacc1).2 p hm)
      · obtain ⟨e₁, _, _, hd₁, hmin₁⟩ := hsome j hacc1
        exact le_trans (le_of_lt hlt) (hmin₁ p hm hpp)
    · rcases List.mem_singleton.1 hm with rfl
      exact le_refl _
  · rw [heq]
    refine ⟨hle, fun hn => ?_, fun i₀ hi₀ => ?_⟩
    · exfalso
      have hmd : acc.2 = maxD := (hnone hn).1
      have : rayDist M px py e < maxD := by
        have := (rayPasses_iff M px py dirX dirY maxD md mapSize e).1 hp
        exact this.2.1
      rw [hmd] at hge
      have : rayDist M px py e < rayDist M px py e := lt_of_lt_of_le this hge
      exact absurd this (lt_irrefl _)
    · obtain ⟨e₀, hm, hp₀, hd₀, hmin⟩ := hsome i₀ hi₀
      refine ⟨e₀, List.mem_append_left _ hm, hp₀, hd₀, fun p hmem hpp => ?_⟩
      rcases List.mem_append.1 hmem with hm₁ | hm₁
      · exact hmin p hm₁ hpp
      · rcases List.mem_singleton.1 hm₁ with rfl
        exact hge

/-- rayGood_fold: folding the scan step over any list of pairs extends
the invariant from the processed prefix to the whole list. -/
theorem rayGood_fold (M : MathOracle) (px py dirX dirY maxD : ℚ)
    (md : List ℕ) (mapSize : ℤ) (hsize : 0 < mapSize) :
    ∀ (ps S : List (ℕ × Enemy)) (acc : Option ℕ × ℚ),
      rayGoodAcc M px py dirX dirY maxD md mapSize S acc →
      rayGoodAcc M px py dirX dirY maxD md mapSize (S ++ ps)
        (ps.foldl (rayScanStep M px py dirX dirY maxD (some md) mapSize) acc) := by
  intro ps
  induction ps with
  | nil => intro S acc h; simpa using h
  | cons p ps ih =>
    intro S acc h
    rw [List.foldl_cons, List.append_cons]
    exact ih (S ++ [p]) _
      (rayGood_step M px py dirX dirY maxD md mapSize hsize S acc p.1 p.2 h)

/-- Claim C8, amended: with a strict distance bound (distance strictly
below maxDistance; an enemy at exactly maxDistance is never reported,
see the counterexample), raycastShoot reports a hit exactly when some
enemy passes every filter (live, strictly within range, no wall
between, dot product with the facing above 0.9, perpendicular ray
distance under half a tile), and the reported enemy is a closest
passing enemy, whose distance is reported. -/
theorem claim_C8_amended (M : MathOracle) (px py dirX dirY maxD : ℚ)
    (enemies : List Enemy) (md : List ℕ) (mapSize : ℤ) (hsize : 0 < mapSize) :
    ((raycastShoot M px py dirX dirY enemies maxD (some md) mapSize).hit = true ↔
      ∃ e ∈ enemies, rayPasses M px py dirX dirY maxD md mapSize e) ∧
    (∀ idx, (raycastShoot M px py dirX dirY enemies maxD (some md) mapSize).enemy
        = some idx →
      ∃ e, enemies.get? idx = some e ∧
        rayPasses M px py dirX dirY maxD md mapSize e ∧
        (raycastShoot M px py dirX dirY enemies maxD (some md) mapSize).distance =
          rayDist M px py e ∧
        ∀ e₂ ∈ enemies, rayPasses M px py dirX dirY maxD md mapSize e₂ →
          rayDist M px py e ≤ rayDist M px py e₂) := by
  have hbase : rayGoodAcc M px py dirX dirY maxD md mapSize []
      ((none : Option ℕ), maxD) := by
    refine ⟨le_refl _, fun _ => ⟨rfl, by simp⟩, fun i hi => by cases hi⟩
  have hfold := rayGood_fold M px py dirX dirY maxD md mapSize hsize
    enemies.enum [] ((none : Option ℕ), maxD) hbase
  simp only [List.nil_append] at hfold
  obtain ⟨hle, hnone, hsome⟩ := hfold
  simp only [raycastShoot]
  constructor
  · constructor
    · intro hhit
      rcases Option.eq_none_or_eq_some
        ((enemies.enum.foldl (rayScanStep M px py dirX dirY maxD (some md) mapSize)
          ((none : Option ℕ), maxD)).1) with hn | ⟨j, hj⟩
      · simp [hn] at hhit
      · obtain ⟨e, hm, hp, _, _⟩ := hsome j hj
        exact ⟨e, List.snd_mem_of_mem_enum hm, hp⟩
    · rintro ⟨e, hmem, hp⟩
      rcases Option.eq_none_or_eq_some
        ((enemies.enum.foldl (rayScanStep M px py dirX dirY maxD (some md) mapSize)
          ((none : Option ℕ), maxD)).1) with hn | ⟨j, hj⟩
      · exfalso
        obtain ⟨i, hi⟩ := List.mem_iff_getElem?.1 hmem
        have hpair : (i, e) ∈ enemies.enum := List.mk_mem_enum_iff_getElem?.2 hi
        exact (hnone hn).2 (i, e) hpair hp
      · simp [hj]
  · intro idx hidx
    obtain ⟨e, hm, hp, hd, hmin⟩ := hsome idx hidx
    refine ⟨e, ?_, hp, hd, fun e₂ hmem₂ hp₂ => ?_⟩
    · rw [List.get?_eq_getElem?]
      exact List.mk_mem_enum_iff_getElem?.1 hm
    · obtain ⟨i₂, hi₂⟩ := List.mem_iff_getElem?.1 hmem₂
      have hpair₂ : (i₂, e₂) ∈ enemies.enum := List.mk_mem_enum_iff_getElem?.2 hi₂
      have := hmin (i₂, e₂) hpair₂ hp₂
      rw [← hd]
      exact this

/-- Claim C8 witness: the amended characterization instantiated on an
in-bounds grid with no enemies. -/
theorem claim_C8_witness :
    (raycastShoot ratOracle (1/2) (1/2) 1 0 [] 5 (some mapC8) 6).hit = true ↔
      ∃ e ∈ ([] : List Enemy), rayPasses ratOracle (1/2) (1/2) 1 0 5 mapC8 6 e :=
  (claim_C8_amended ratOracle (1/2) (1/2) 1 0 5 [] mapC8 6 (by norm_num)).1

/-- frameStep_not_running: a tick on a stopped loop changes nothing
(the source never calls the frame callback again once it was not
rescheduled). -/
theorem frameStep_not_running (M : MathOracle) (s : FrameState)
    (now dateNow : ℚ) (keys : Keys) (h : s.running = false) :
    frameStep M s now dateNow keys = s := by
  simp [frameStep, h]

/-- frameMovePhase_frame: the input phase changes only the angle and
position. -/
theorem frameMovePhase_frame (M : MathOracle) (s : FrameState) (dt : ℚ)
    (keys : Keys) :
    (frameMovePhase M s dt keys).completionSignals = s.completionSignals ∧
    (frameMovePhase M s dt keys).levelComplete = s.levelComplete ∧
    (frameMovePhase M s dt keys).running = s.running ∧
    (frameMovePhase M s dt keys).paused = s.paused ∧
    (frameMovePhase M s dt keys).health = s.health ∧
    (frameMovePhase M s dt keys).combat = s.combat ∧
    (frameMovePhase M s dt keys).gold = s.gold ∧
    (frameMovePhase M s dt keys).itemsPurchased = s.itemsPurchased ∧
    (frameMovePhase M s dt keys).startTime = s.startTime := by
  simp [frameMovePhase]

/-- frameApplyDamage_quiet: the damage phase never emits a completion
signal and never changes levelComplete. -/
theorem frameApplyDamage_quiet (s : FrameState) (damage dateNow : ℚ) :
    (frameApplyDamage s damage dateNow).completionSignals = s.completionSignals ∧
    (frameApplyDamage s damage dateNow).levelComplete = s.levelComplete := by
  simp only [frameApplyDamage]
  split
  · split <;> simp
  · simp

/-- frameShake_quiet: the shake phase never emits a completion signal
and never changes levelComplete or the running flag. -/
theorem frameShake_quiet (M : MathOracle) (s : FrameState) :
    (frameShake M s).completionSignals = s.completionSignals ∧
    (frameShake M s).levelComplete = s.levelComplete ∧
    (frameShake M s).running = s.running := by
  simp only [frameShake]
  split
  · split <;> simp
  · simp

/-- frameStep_signals: one tick leaves the completion-signal list
unchanged unless the portal branch fires, in which case the tick
appends exactly one signal carrying the stats of the post-movement
state, raises levelComplete, pauses, and stops the loop; and the portal
branch can only fire when levelComplete was still false. -/
theorem frameStep_signals (M : MathOracle) (s : FrameState)
    (now dateNow : ℚ) (keys : Keys) :
    (frameStep M s now dateNow keys).completionSignals = s.completionSignals ∧
      (frameStep M s now dateNow keys).levelComplete = s.levelComplete ∨
    (s.running = true ∧ s.paused = false ∧ s.levelComplete = false ∧
      (frameStep M s now dateNow keys).completionSignals =
        s.completionSignals ++
          [statsOf (frameMovePhase M { s with lastTime := now } (frameDt s now) keys)
            dateNow] ∧
      (frameStep M s now dateNow keys).levelComplete = true ∧
      (frameStep M s now dateNow keys).paused = true ∧
      (frameStep M s now dateNow keys).running = false) := by
  by_cases hrun : s.running = true
  case neg =>
    left
    rw [frameStep_not_running M s now dateNow keys (by simpa using hrun)]
    exact ⟨rfl, rfl⟩
  case pos =>
    have hcond : ¬ ¬ s.running = true := by simp [hrun]
    simp only [frameStep, if_neg hcond]
    by_cases hpause : s.paused = true
    · left
      simp [hpause]
    · have hpf : ({ s with lastTime := now } : FrameState).paused = false := by
        simpa using hpause
      simp only [if_neg (show ¬ ({ s with lastTime := now } : FrameState).paused = true from by simp [hpause])]
      set s1 := frameMovePhase M { s with lastTime := now } (frameDt s now) keys with hs1
      by_cases hportal : onPortal s1 = true ∧ s1.levelComplete = false
      · right
        have hlc : s.levelComplete = false := by
          have := (frameMovePhase_frame M { s with lastTime := now } (frameDt s now) keys).2.1
          rw [← hs1] at this
          rw [← this]
          exact hportal.2
        refine ⟨hrun, by simpa using hpause, hlc, ?_⟩
        rw [if_pos hportal]
        have hsig := (frameMovePhase_frame M { s with lastTime := now } (frameDt s now) keys).1
        rw [← hs1] at hsig
        simp [framePortalFire, hsig]
      · left
        rw [if_neg hportal]
        have hsig := (frameMovePhase_frame M { s with lastTime := now } (frameDt s now) keys).1
        have hlc := (frameMovePhase_frame M { s with lastTime := now } (frameDt s now) keys).2.1
        rw [← hs1] at hsig hlc
        set s2 := { s1 with
          enemies := (managerUpdate M s1.enemies s1.x s1.y s1.mapData s1.mapSize
            (frameDt s now) now s1.rng).2.1,
          rng := (managerUpdate M s1.enemies s1.x s1.y s1.mapData s1.mapSize
            (frameDt s now) now s1.rng).2.2 } with hs2
        have hq := frameApplyDamage_quiet s2
          (managerUpdate M s1.enemies s1.x s1.y s1.mapData s1.mapSize
            (frameDt s now) now s1.rng).1 dateNow
        split
        · constructor
          · rw [hq.1, hs2]
            simpa using hsig
          · rw [hq.2, hs2]
            simpa using hlc
        · have hsh := frameShake_quiet M
            { frameApplyDamage s2 (managerUpdate M s1.enemies s1.x s1.y s1.mapData
              s1.mapSize (frameDt s now) now s1.rng).1 dateNow with
              rng := (frameApplyDamage s2 (managerUpdate M s1.enemies s1.x s1.y
                s1.mapData s1.mapSize (frameDt s now) now s1.rng).1 dateNow).rng + 1 }
          constructor
          · rw [hsh.1]
            simp only []
            rw [hq.1, hs2]
            simpa using hsig
          · rw [hsh.2.1]
            simp only []
            rw [hq.2, hs2]
            simpa using hlc

/-- frameStep_fire: on an active, unpaused tick whose post-movement
position stands on the portal tile while levelComplete is still false,
the tick takes the portal branch and returns framePortalFire of the
post-movement state (skipping enemy updates, damage and shake). -/
theorem frameStep_fire (M : MathOracle) (s : FrameState)
    (now dateNow : ℚ) (keys : Keys)
    (hrun : s.running = true) (hp : s.paused = false)
    (hlc : s.levelComplete = false)
    (hportal : onPortal (frameMovePhase M { s with lastTime := now }
      (frameDt s now) keys) = true) :
    frameStep M s now dateNow keys =
      framePortalFire (frameMovePhase M { s with lastTime := now }
        (frameDt s now) keys) dateNow := by
  have hcond : ¬ ¬ s.running = true := by simp [hrun]
  simp only [frameStep, if_neg hcond,
    if_neg (show ¬ ({ s with lastTime := now } : FrameState).paused = true from
      by simp [hp])]
  have hlc1 : (frameMovePhase M { s with lastTime := now }
      (frameDt s now) keys).levelComplete = false := by
    rw [(frameMovePhase_frame M { s with lastTime := now } (frameDt s now) keys).2.1]
    simpa using hlc
  rw [if_pos ⟨hportal, hlc1⟩]

/-- frameStep_inv: one tick preserves the signal invariant: at most one
completion signal ever emitted, and none before levelComplete is set. -/
theorem frameStep_inv (M : MathOracle) (s : FrameState)
    (now dateNow : ℚ) (keys : Keys)
    (h : (s.levelComplete = false → s.completionSignals = []) ∧
      s.completionSignals.length ≤ 1) :
    ((frameStep M s now dateNow keys).levelComplete = false →
      (frameStep M s now dateNow keys).completionSignals = []) ∧
    (frameStep M s now dateNow keys).completionSignals.length ≤ 1 := by
  rcases frameStep_signals M s now dateNow keys with
    ⟨hsig, hlc⟩ | ⟨_, _, hlc0, hsig, hlc, _, _⟩
  · rw [hsig, hlc]
    exact h
  · rw [hsig, hlc, h.1 hlc0]
    exact ⟨fun hf => absurd hf (by simp), by simp⟩

/-- runFrames_inv: the signal invariant is preserved along any sequence
of ticks. -/
theorem runFrames_inv (M : MathOracle) (ticks : List (ℚ × ℚ × Keys)) :
    ∀ s : FrameState,
      ((s.levelComplete = false → s.completionSignals = []) ∧
        s.completionSignals.length ≤ 1) →
      (((runFrames M s ticks).levelComplete = false →
          (runFrames M s ticks).completionSignals = []) ∧
        (runFrames M s ticks).completionSignals.length ≤ 1) := by
  induction ticks with
  | nil => intro s h; simpa [runFrames] using h
  | cons t ts ih =>
    intro s h
    have hstep := frameStep_inv M s t.1 t.2.1 t.2.2 h
    simpa [runFrames] using ih (frameStep M s t.1 t.2.1 t.2.2) hstep

/-- Claim C10: starting from a state that has emitted no completion
signal and has levelComplete unset, any sequence of animate ticks emits
at most one completion signal in total; a tick whose player position
lands on the portal tile while the level is not yet complete emits the
signal exactly once, carrying the stats accumulated at that moment
(kills, gold, timeElapsed from startTime, healthRemaining), raises
levelComplete, pauses, and stops the loop; and a tick on a stopped loop
performs no gameplay update at all (the state is returned unchanged, so
the signal is never re-fired while the player remains on the portal). -/
theorem claim_C10 (M : MathOracle) (s0 : FrameState)
    (ticks : List (ℚ × ℚ × Keys))
    (h0 : s0.completionSignals = []) (h1 : s0.levelComplete = false) :
    (runFrames M s0 ticks).completionSignals.length ≤ 1 ∧
    (∀ (s : FrameState) (now dateNow : ℚ) (keys : Keys),
      s.running = true → s.paused = false → s.levelComplete = false →
      onPortal (frameMovePhase M { s with lastTime := now }
        (frameDt s now) keys) = true →
      (frameStep M s now dateNow keys).completionSignals =
        s.completionSignals ++ [statsOf s dateNow] ∧
      (frameStep M s now dateNow keys).levelComplete = true ∧
      (frameStep M s now dateNow keys).paused = true ∧
      (frameStep M s now dateNow keys).running = false) ∧
    (∀ (s : FrameState) (now dateNow : ℚ) (keys : Keys),
      s.running = false → frameStep M s now dateNow keys = s) := by
  refine ⟨?_, ?_, ?_⟩
  · exact (runFrames_inv M ticks s0 ⟨fun _ => h0, by rw [h0]; simp⟩).2
  · intro s now dateNow keys hrun hp hlc hportal
    rw [frameStep_fire M s now dateNow keys hrun hp hlc hportal]
    rcases frameMovePhase_frame M { s with lastTime := now } (frameDt s now) keys with
      ⟨hsig, _, _, _, hh, hc, hg, hip, hst⟩
    have hstats : statsOf (frameMovePhase M { s with lastTime := now }
        (frameDt s now) keys) dateNow = statsOf s dateNow := by
      simp [statsOf, hh, hc, hg, hip, hst]
    refine ⟨?_, by simp [framePortalFire], by simp [framePortalFire],
      by simp [framePortalFire]⟩
    simp only [framePortalFire, hstats]
    rw [hsig]
  · intro s now dateNow keys h
    exact frameStep_not_running M s now dateNow keys h

/-- Claim C10 witness: the theorem instantiated at a fresh running state
with no ticks. -/
theorem claim_C10_witness :
    (runFrames ratOracle frameS0 []).completionSignals.length ≤ 1 :=
  (claim_C10 ratOracle frameS0 [] rfl rfl).1

/-- mergeBy_subset: every element of a merge comes from one of the two
input lists. -/
theorem mergeBy_subset (le : ANode → ANode → Bool) :
    ∀ (fuel : ℕ) (l r : List ANode) (a : ANode),
      a ∈ mergeBy le fuel l r → a ∈ l ∨ a ∈ r := by
  intro fuel
  induction fuel with
  | zero =>
    intro l r a h
    simpa [mergeBy] using h
  | succ n ih =>
    intro l r a h
    cases l with
    | nil => right; simpa [mergeBy] using h
    | cons b l =>
      cases r with
      | nil => left; simpa [mergeBy] using h
      | cons c r =>
        simp only [mergeBy] at h
        by_cases hle : le b c = true
        · rw [if_pos hle] at h
          rcases List.mem_cons.1 h with h1 | h2
          · exact Or.inl (h1 ▸ List.mem_cons_self b l)
          · rcases ih l (c :: r) a h2 with h3 | h4
            · exact Or.inl (List.mem_cons_of_mem b h3)
            · exact Or.inr h4
        · rw [if_neg hle] at h
          rcases List.mem_cons.1 h with h1 | h2
          · exact Or.inr (h1 ▸ List.mem_cons_self c r)
          · rcases ih (b :: l) r a h2 with h3 | h4
            · exact Or.inl h3
            · exact Or.inr (List.mem_cons_of_mem c h4)

/-- mergeBy_superset: a merge keeps every element of both inputs. -/
theorem mergeBy_superset (le : ANode → ANode → Bool) :
    ∀ (fuel : ℕ) (l r : List ANode) (a : ANode),
      a ∈ l ∨ a ∈ r → a ∈ mergeBy le fuel l r := by
  intro fuel
  induction fuel with
  | zero =>
    intro l r a h
    simpa [mergeBy] using h
  | succ n ih =>
    intro l r a h
    cases l with
    | nil =>
      rcases h with h | h
      · cases h
      · simpa [mergeBy] using h
    | cons b l =>
      cases r with
      | nil =>
        rcases h with h | h
        · simpa [mergeBy] using h
        · cases h
      | cons c r =>
        simp only [mergeBy]
        by_cases hle : le b c = true
        · rw [if_pos hle]
          rcases h with h | h
          · rcases List.mem_cons.1 h with h1 | h2
            · exact h1 ▸ List.mem_cons_self b _
            · exact List.mem_cons_of_mem b (ih l (c :: r) a (Or.inl h2))
          · exact List.mem_cons_of_mem b (ih l (c :: r) a (Or.inr h))
        · rw [if_neg hle]
          rcases h with h | h
          · exact List.mem_cons_of_mem c (ih (b :: l) r a (Or.inl h))
          · rcases List.mem_cons.1 h with h1 | h2
            · exact h1 ▸ List.mem_cons_self c _
            · exact List.mem_cons_of_mem c (ih (b :: l) r a (Or.inr h2))

/-- mergeBy_length: a merge has the summed length, at every fuel. -/
theorem mergeBy_length (le : ANode → ANode → Bool) :
    ∀ (fuel : ℕ) (l r : List ANode),
      (mergeBy le fuel l r).length = l.length + r.length := by
  intro fuel
  induction fuel with
  | zero => intro l r; simp [mergeBy]
  | succ n ih =>
    intro l r
    cases l with
    | nil => simp [mergeBy]
    | cons b l =>
      cases r with
      | nil => simp [mergeBy]
      | cons c r =>
        simp only [mergeBy]
        by_cases hle : le b c = true
        · rw [if_pos hle]
          simp only [List.length_cons, ih l (c :: r)]
          omega
        · rw [if_neg hle]
          simp only [List.length_cons, ih (b :: l) r]
          omega

/-- sortByFuel_mem: sorting neither adds nor removes elements. -/
theorem sortByFuel_mem (le : ANode → ANode → Bool) :
    ∀ (fuel : ℕ) (l : List ANode) (a : ANode),
      a ∈ sortByFuel le fuel l ↔ a ∈ l := by
  intro fuel
  induction fuel with
  | zero => intro l a; simp [sortByFuel]
  | succ n ih =>
    intro l a
    simp only [sortByFuel]
    by_cases hlen : l.length ≤ 1
    · rw [if_pos hlen]
    · rw [if_neg hlen]
      constructor
      · intro h
        rcases mergeBy_subset le l.length _ _ a h with h1 | h1
        · have := (ih _ a).1 h1
          exact (List.take_append_drop (l.length / 2) l) ▸ List.mem_append_left _ this
        · have := (ih _ a).1 h1
          exact (List.take_append_drop (l.length / 2) l) ▸ List.mem_append_right _ this
      · intro h
        have h2 : a ∈ l.take (l.length / 2) ++ l.drop (l.length / 2) := by
          rw [List.take_append_drop]; exact h
        rcases List.mem_append.1 h2 with h3 | h3
        · exact mergeBy_superset le l.length _ _ a (Or.inl ((ih _ a).2 h3))
        · exact mergeBy_superset le l.length _ _ a (Or.inr ((ih _ a).2 h3))

/-- sortByFuel_length: sorting preserves the length. -/
theorem sortByFuel_length (le : ANode → ANode → Bool) :
    ∀ (fuel : ℕ) (l : List ANode),
      (sortByFuel le fuel l).length = l.length := by
  intro fuel
  induction fuel with
  | zero => intro l; simp [sortByFuel]
  | succ n ih =>
    intro l
    simp only [sortByFuel]
    by_cases hlen : l.length ≤ 1
    · rw [if_pos hlen]
    · rw [if_neg hlen]
      rw [mergeBy_length, ih, ih]
      rw [List.length_take, List.length_drop]
      omega

/-- sortByF_mem: the sorted open list has exactly the members of the
input open list. -/
theorem sortByF_mem (l : List ANode) (a : ANode) : a ∈ sortByF l ↔ a ∈ l :=
  sortByFuel_mem _ l.length l a

/-- sortByF_eq_nil: only the empty open list sorts to the empty list. -/
theorem sortByF_eq_nil (l : List ANode) (h : sortByF l = []) : l = [] := by
  have := sortByFuel_length (fun a b => a.f ≤ b.f) l.length l
  rw [sortByF] at h
  rw [h] at this
  exact List.length_eq_zero.1 this.symm

/-- pushStep_append: one neighbor step only ever appends to the open
list. -/
theorem pushStep_append (current : ANode) (endX endY : ℤ)
    (closed : List (ℤ × ℤ)) (mapData : List ℕ) (mapSize : ℤ)
    (acc : List ANode) (nb : ℤ × ℤ) :
    ∃ ext, pushStep current endX endY closed mapData mapSize acc nb =
      acc ++ ext := by
  simp only [pushStep]
  split
  · exact ⟨[], by simp⟩
  split
  · exact ⟨[], by simp⟩
  split
  · exact ⟨[], by simp⟩
  split
  · split
    · exact ⟨[], by simp⟩
    · exact ⟨_, rfl⟩
  · exact ⟨_, rfl⟩

/-- foldl_pushStep_append: a neighbor fold only ever appends to the open
list. -/
theorem foldl_pushStep_append (current : ANode) (endX endY : ℤ)
    (closed : List (ℤ × ℤ)) (mapData : List ℕ) (mapSize : ℤ) :
    ∀ (l : List (ℤ × ℤ)) (acc : List ANode),
      ∃ ext, l.foldl (pushStep current endX endY closed mapData mapSize) acc =
        acc ++ ext := by
  intro l
  induction l with
  | nil => intro acc; exact ⟨[], by simp⟩
  | cons nb l ih =>
    intro acc
    rcases pushStep_append current endX endY closed mapData mapSize acc nb with
      ⟨e1, h1⟩
    rcases ih (pushStep current endX endY closed mapData mapSize acc nb) with
      ⟨e2, h2⟩
    exact ⟨e1 ++ e2, by rw [List.foldl_cons, h2, h1, List.append_assoc]⟩

/-- pushNeighbors_mem: pushing neighbors keeps every node already in the
open list. -/
theorem pushNeighbors_mem (current : ANode) (endX endY : ℤ)
    (closed : List (ℤ × ℤ)) (mapData : List ℕ) (mapSize : ℤ)
    (opn : List ANode) (a : ANode) (h : a ∈ opn) :
    a ∈ pushNeighbors current endX endY closed mapData mapSize opn := by
  simp only [pushNeighbors]
  rcases foldl_pushStep_append current endX endY closed mapData mapSize
    [(current.x + 1, current.y), (current.x - 1, current.y),
     (current.x, current.y + 1), (current.x, current.y - 1)] opn with ⟨ext, he⟩
  rw [he]
  exact List.mem_append_left _ h

/-- pushStep_cases: a node after one neighbor step was already in the
open list, or is the fresh node of that neighbor, which then passed the
bounds, closed-set and wall filters. -/
theorem pushStep_cases (current : ANode) (endX endY : ℤ)
    (closed : List (ℤ × ℤ)) (mapData : List ℕ) (mapSize : ℤ)
    (acc : List ANode) (nb : ℤ × ℤ) (a : ANode)
    (h : a ∈ pushStep current endX endY closed mapData mapSize acc nb) :
    a ∈ acc ∨
    (a = ANode.mk nb.1 nb.2 (current.g + 1)
        ((nb.1 - endX).natAbs + (nb.2 - endY).natAbs)
        (current.g + 1 + ((nb.1 - endX).natAbs + (nb.2 - endY).natAbs))
        (some current) ∧
      ¬(nb.1 < 0 ∨ nb.1 ≥ mapSize ∨ nb.2 < 0 ∨ nb.2 ≥ mapSize) ∧
      nb ∉ closed ∧ jsGet mapData (nb.2 * mapSize + nb.1) = some 0) := by
  simp only [pushStep] at h
  split at h
  case isTrue => exact Or.inl h
  case isFalse hb =>
    split at h
    case isTrue => exact Or.inl h
    case isFalse hc =>
      split at h
      case isTrue => exact Or.inl h
      case isFalse hw =>
        split at h
        case h_1 existing hfind =>
          split at h
          · exact Or.inl h
          · rcases List.mem_append.1 h with h1 | h2
            · exact Or.inl h1
            · exact Or.inr ⟨by simpa using h2, hb, hc, by simpa using hw⟩
        case h_2 hfind =>
          rcases List.mem_append.1 h with h1 | h2
          · exact Or.inl h1
          · exact Or.inr ⟨by simpa using h2, hb, hc, by simpa using hw⟩

/-- pushStep_covers: a neighbor that passes the bounds, closed-set and
wall filters has a node at its position after its step (either the
fresh node or an already-open node found by the better-g check). -/
theorem pushStep_covers (current : ANode) (endX endY : ℤ)
    (closed : List (ℤ × ℤ)) (mapData : List ℕ) (mapSize : ℤ)
    (acc : List ANode) (nb : ℤ × ℤ)
    (hb : ¬(nb.1 < 0 ∨ nb.1 ≥ mapSize ∨ nb.2 < 0 ∨ nb.2 ≥ mapSize))
    (hc : nb ∉ closed)
    (hw : jsGet mapData (nb.2 * mapSize + nb.1) = some 0) :
    ∃ n ∈ pushStep current endX endY closed mapData mapSize acc nb,
      nodePos n = nb := by
  simp only [pushStep]
  rw [if_neg hb, if_neg hc, if_neg (fun hne => hne hw)]
  rcases hfind : acc.find? (fun n => n.x == nb.1 && n.y == nb.2) with _ | existing
  · simp only [hfind]
    exact ⟨ANode.mk nb.1 nb.2 (current.g + 1)
        ((nb.1 - endX).natAbs + (nb.2 - endY).natAbs)
        (current.g + 1 + ((nb.1 - endX).natAbs + (nb.2 - endY).natAbs))
        (some current),
      List.mem_append_right _ (by simp), rfl⟩
  · simp only [hfind]
    split
    · have hmem := List.mem_of_find?_eq_some hfind
      have hp := List.find?_some hfind
      simp only [Bool.and_eq_true, beq_iff_eq] at hp
      exact ⟨existing, hmem, by simp [nodePos, hp.1, hp.2]⟩
    · exact ⟨ANode.mk nb.1 nb.2 (current.g + 1)
        ((nb.1 - endX).natAbs + (nb.2 - endY).natAbs)
        (current.g + 1 + ((nb.1 - endX).natAbs + (nb.2 - endY).natAbs))
        (some current),
        List.mem_append_right _ (by simp), rfl⟩

/-- foldl_pushStep_covers: a passing neighbor among the processed list
keeps a node at its position through the whole fold. -/
theorem foldl_pushStep_covers (current : ANode) (endX endY : ℤ)
    (closed : List (ℤ × ℤ)) (mapData : List ℕ) (mapSize : ℤ) (q : ℤ × ℤ)
    (hb : ¬(q.1 < 0 ∨ q.1 ≥ mapSize ∨ q.2 < 0 ∨ q.2 ≥ mapSize))
    (hc : q ∉ closed)
    (hw : jsGet mapData (q.2 * mapSize + q.1) = some 0) :
    ∀ (l : List (ℤ × ℤ)) (acc : List ANode), q ∈ l →
      ∃ n ∈ l.foldl (pushStep current endX endY closed mapData mapSize) acc,
        nodePos n = q := by
  intro l
  induction l with
  | nil => intro acc h; cases h
  | cons nb l ih =>
    intro acc hq
    rw [List.foldl_cons]
    rcases List.mem_cons.1 hq with h1 | h2
    · subst h1
      rcases pushStep_covers current endX endY closed mapData mapSize acc q
        hb hc hw with ⟨n, hn, hpos⟩
      rcases foldl_pushStep_append current endX endY closed mapData mapSize l
        (pushStep current endX endY closed mapData mapSize acc q) with ⟨ext, he⟩
      exact ⟨n, by rw [he]; exact List.mem_append_left _ hn, hpos⟩
    · exact ih _ h2

/-- adj_mem_neighbors: a tile 4-adjacent to the current node is one of
the four candidate neighbors generated by the source. -/
theorem adj_mem_neighbors (c : ANode) (q : ℤ × ℤ)
    (h : (q.1 - c.x).natAbs + (q.2 - c.y).natAbs = 1) :
    q ∈ [((c.x + 1 : ℤ), c.y), (c.x - 1, c.y), (c.x, c.y + 1),
      (c.x, c.y - 1)] := by
  have h1 : (q.1 = c.x + 1 ∧ q.2 = c.y) ∨ (q.1 = c.x - 1 ∧ q.2 = c.y) ∨
      (q.1 = c.x ∧ q.2 = c.y + 1) ∨ (q.1 = c.x ∧ q.2 = c.y - 1) := by omega
  rcases h1 with ⟨h1, h2⟩ | ⟨h1, h2⟩ | ⟨h1, h2⟩ | ⟨h1, h2⟩ <;>
    simp [List.mem_cons, Prod.ext_iff, h1, h2]

/-- pushNeighbors_covers: a floor, in-bounds, not-yet-closed tile
4-adjacent to the expanded node has a node at its position in the open
list after the expansion. -/
theorem pushNeighbors_covers (current : ANode) (endX endY : ℤ)
    (closed : List (ℤ × ℤ)) (mapData : List ℕ) (mapSize : ℤ)
    (opn : List ANode) (q : ℤ × ℤ)
    (hadj : (q.1 - current.x).natAbs + (q.2 - current.y).natAbs = 1)
    (hb : ¬(q.1 < 0 ∨ q.1 ≥ mapSize ∨ q.2 < 0 ∨ q.2 ≥ mapSize))
    (hc : q ∉ closed)
    (hw : jsGet mapData (q.2 * mapSize + q.1) = some 0) :
    ∃ n ∈ pushNeighbors current endX endY closed mapData mapSize opn,
      nodePos n = q := by
  simp only [pushNeighbors]
  exact foldl_pushStep_covers current endX endY closed mapData mapSize q
    hb hc hw _ opn (adj_mem_neighbors current q hadj)

/-- foldl_pushStep_cases: a node after a neighbor fold was already open,
or is the fresh node of one of the processed neighbors and passed the
filters. -/
theorem foldl_pushStep_cases (current : ANode) (endX endY : ℤ)
    (closed : List (ℤ × ℤ)) (mapData : List ℕ) (mapSize : ℤ) :
    ∀ (l : List (ℤ × ℤ)) (acc : List ANode) (a : ANode),
      a ∈ l.foldl (pushStep current endX endY closed mapData mapSize) acc →
      a ∈ acc ∨ ∃ nb ∈ l,
        a = ANode.mk nb.1 nb.2 (current.g + 1)
          ((nb.1 - endX).natAbs + (nb.2 - endY).natAbs)
          (current.g + 1 + ((nb.1 - endX).natAbs + (nb.2 - endY).natAbs))
          (some current) ∧
        ¬(nb.1 < 0 ∨ nb.1 ≥ mapSize ∨ nb.2 < 0 ∨ nb.2 ≥ mapSize) ∧
        nb ∉ closed ∧ jsGet mapData (nb.2 * mapSize + nb.1) = some 0 := by
  intro l
  induction l with
  | nil => intro acc a h; exact Or.inl h
  | cons nb l ih =>
    intro acc a h
    rw [List.foldl_cons] at h
    rcases ih _ a h with h1 | ⟨nb1, hnb1, hprops⟩
    · rcases pushStep_cases current endX endY closed mapData mapSize acc nb a
        h1 with h2 | h2
      · exact Or.inl h2
      · exact Or.inr ⟨nb, List.mem_cons_self nb l, h2⟩
    · exact Or.inr ⟨nb1, List.mem_cons_of_mem nb hnb1, hprops⟩

/-- pushNeighbors_cases: a node in the open list after an expansion was
already open, or has the expanded node as parent and sits on an
in-bounds, not-yet-closed floor tile 4-adjacent to it. -/
theorem pushNeighbors_cases (current : ANode) (endX endY : ℤ)
    (closed : List (ℤ × ℤ)) (mapData : List ℕ) (mapSize : ℤ)
    (opn : List ANode) (a : ANode)
    (h : a ∈ pushNeighbors current endX endY closed mapData mapSize opn) :
    a ∈ opn ∨
    (a.parent = some current ∧
      0 ≤ a.x ∧ a.x < mapSize ∧ 0 ≤ a.y ∧ a.y < mapSize ∧
      (a.x - current.x).natAbs + (a.y - current.y).natAbs = 1 ∧
      nodePos a ∉ closed ∧
      jsGet mapData (a.y * mapSize + a.x) = some 0) := by
  simp only [pushNeighbors] at h
  rcases foldl_pushStep_cases current endX endY closed mapData mapSize _ opn a
    h with h1 | ⟨nb, hnb, ha, hb, hc, hw⟩
  · exact Or.inl h1
  · right
    subst ha
    have hx : (ANode.mk nb.1 nb.2 (current.g + 1)
        ((nb.1 - endX).natAbs + (nb.2 - endY).natAbs)
        (current.g + 1 + ((nb.1 - endX).natAbs + (nb.2 - endY).natAbs))
        (some current)).x = nb.1 := rfl
    have hy : (ANode.mk nb.1 nb.2 (current.g + 1)
        ((nb.1 - endX).natAbs + (nb.2 - endY).natAbs)
        (current.g + 1 + ((nb.1 - endX).natAbs + (nb.2 - endY).natAbs))
        (some current)).y = nb.2 := rfl
    rw [hx, hy]
    have hadj : (nb.1 - current.x).natAbs + (nb.2 - current.y).natAbs = 1 := by
      simp only [List.mem_cons, List.not_mem_nil, or_false] at hnb
      rcases hnb with h2 | h2 | h2 | h2 <;> rw [h2] <;> simp <;> omega
    refine ⟨rfl, by omega, by omega, by omega, by omega, hadj, ?_, hw⟩
    show (nb.1, nb.2) ∉ closed
    simpa using hc

/-- insertClosed_superset: adding to the closed set keeps its members. -/
theorem insertClosed_superset (closed : List (ℤ × ℤ)) (p q : ℤ × ℤ)
    (h : q ∈ closed) : q ∈ insertClosed closed p := by
  unfold insertClosed
  split
  · exact h
  · exact List.mem_cons_of_mem p h

/-- insertClosed_self: the added position is in the closed set. -/
theorem insertClosed_self (closed : List (ℤ × ℤ)) (p : ℤ × ℤ) :
    p ∈ insertClosed closed p := by
  unfold insertClosed
  split
  case isTrue h => exact h
  case isFalse h => exact List.mem_cons_self p closed

/-- insertClosed_cases: the closed set after an addition holds only old
members and the added position. -/
theorem insertClosed_cases (closed : List (ℤ × ℤ)) (p q : ℤ × ℤ)
    (h : q ∈ insertClosed closed p) : q ∈ closed ∨ q = p := by
  unfold insertClosed at h
  split at h
  · exact Or.inl h
  · rcases List.mem_cons.1 h with h1 | h1
    · exact Or.inr h1
    · exact Or.inl h1

/-- buildPath_sound: a node with a well-formed parent chain
reconstructs to waypoints that are centers of in-bounds floor tiles,
consecutively 4-adjacent, ending at the node's own tile center when the
node is not the chain root. -/
theorem buildPath_sound (mapData : List ℕ) (mapSize : ℤ) :
    ∀ (d : ℕ) (n : ANode), n.depth ≤ d → goodChain mapData mapSize n →
      (∀ w ∈ n.buildPath, floorCenter mapData mapSize w) ∧
      List.Chain' wAdj n.buildPath ∧
      ∀ p, n.parent = some p →
        n.buildPath.getLast? = some ((n.x : ℚ) + 1/2, (n.y : ℚ) + 1/2) := by
  intro d
  induction d with
  | zero =>
    intro n hd _
    match n, hd with
    | .mk x y g h f none, _ =>
      refine ⟨by simp [ANode.buildPath], by simp [ANode.buildPath], ?_⟩
      intro p hp
      simp [ANode.parent] at hp
    | .mk x y g h f (some p), hd =>
      exact absurd hd (by simp [ANode.depth])
  | succ d ih =>
    intro n hd hg
    match n with
    | .mk x y g h f none =>
      refine ⟨by simp [ANode.buildPath], by simp [ANode.buildPath], ?_⟩
      intro p hp
      simp [ANode.parent] at hp
    | .mk x y g h f (some p) =>
      have hdp : p.depth ≤ d := by
        simp only [ANode.depth] at hd
        omega
      obtain ⟨hb1, hb2, hb3, hb4, hfl, hadj, hgp⟩ := hg
      obtain ⟨ihw, ihc, ihl⟩ := ih p hdp hgp
      have hbp : (ANode.mk x y g h f (some p)).buildPath =
          p.buildPath ++ [((x : ℚ) + 1/2, (y : ℚ) + 1/2)] := rfl
      refine ⟨?_, ?_, ?_⟩
      · intro w hw
        rw [hbp] at hw
        rcases List.mem_append.1 hw with h1 | h1
        · exact ihw w h1
        · have : w = ((x : ℚ) + 1/2, (y : ℚ) + 1/2) := by simpa using h1
          exact ⟨x, y, this, hb1, hb2, hb3, hb4, hfl⟩
      · rw [hbp]
        rw [List.chain'_append]
        refine ⟨ihc, by simp, ?_⟩
        intro a ha b hb
        have hb1 : b = ((x : ℚ) + 1/2, (y : ℚ) + 1/2) := by
          simpa [eq_comm] using hb
        subst hb1
        cases hpp : p with
        | mk px py pg ph pf ppar =>
          cases ppar with
          | none =>
            rw [hpp] at ha
            simp [ANode.buildPath] at ha
          | some q =>
            have := ihl q (by rw [hpp]; rfl)
            rw [this] at ha
            have ha1 : a = ((p.x : ℚ) + 1/2, (p.y : ℚ) + 1/2) := by
              simpa [eq_comm] using ha
            subst ha1
            show |((x : ℚ) + 1/2 - ((p.x : ℚ) + 1/2))| +
              |((y : ℚ) + 1/2 - ((p.y : ℚ) + 1/2))| = 1
            have e1 : ((x : ℚ) + 1/2 - ((p.x : ℚ) + 1/2)) =
                (((x - p.x : ℤ) : ℚ)) := by push_cast; ring
            have e2 : ((y : ℚ) + 1/2 - ((p.y : ℚ) + 1/2)) =
                (((y - p.y : ℤ) : ℚ)) := by push_cast; ring
            have hz : |x - p.x| + |y - p.y| = (1 : ℤ) := by
              rw [Int.abs_eq_natAbs, Int.abs_eq_natAbs]
              exact_mod_cast hadj
            rw [e1, e2, ← Int.cast_abs, ← Int.cast_abs]
            exact_mod_cast hz
      · intro p1 hp1
        rw [hbp]
        simp [ANode.x, ANode.y]

/-- chain_of_good: a well-formed parent chain witnesses a floor chain
from the chain root to the node's position. -/
theorem chain_of_good (mapData : List ℕ) (mapSize : ℤ) :
    ∀ (d : ℕ) (n : ANode), n.depth ≤ d → goodChain mapData mapSize n →
      FloorChain mapData mapSize (chainRoot n) (nodePos n) := by
  intro d
  induction d with
  | zero =>
    intro n hd _
    match n, hd with
    | .mk x y g h f none, _ => exact FloorChain.refl (x, y)
    | .mk x y g h f (some p), hd => exact absurd hd (by simp [ANode.depth])
  | succ d ih =>
    intro n hd hg
    match n with
    | .mk x y g h f none => exact FloorChain.refl (x, y)
    | .mk x y g h f (some p) =>
      have hdp : p.depth ≤ d := by
        simp only [ANode.depth] at hd
        omega
      obtain ⟨hb1, hb2, hb3, hb4, hfl, hadj, hgp⟩ := hg
      have hch := ih p hdp hgp
      exact FloorChain.step (chainRoot p) (nodePos p) (x, y) hch hadj
        hb1 hb2 hb3 hb4 hfl

/-- buildPath_ne_nil: a node with a parent reconstructs a non-empty
waypoint list. -/
theorem buildPath_ne_nil (n p : ANode) (hp : n.parent = some p) :
    n.buildPath ≠ [] := by
  cases n with
  | mk x y g h f par =>
    cases par with
    | none => simp [ANode.parent] at hp
    | some q => simp [ANode.buildPath]

/-- chainRoot_parent_none: a root node is its own chain root. -/
theorem chainRoot_parent_none (n : ANode) (h : n.parent = none) :
    chainRoot n = nodePos n := by
  cases n with
  | mk x y g h f par =>
    cases par with
    | none => rfl
    | some q => simp [ANode.parent] at h

/-- pushNeighbors_openInv: expanding a well-rooted node preserves the
open-list invariant. -/
theorem pushNeighbors_openInv (mapData : List ℕ) (mapSize : ℤ)
    (start : ℤ × ℤ) (endX endY : ℤ) (closed : List (ℤ × ℤ))
    (current : ANode) (rest : List ANode)
    (hcur : goodChain mapData mapSize current ∧ chainRoot current = start)
    (hrest : OpenInv mapData mapSize start rest) :
    OpenInv mapData mapSize start
      (pushNeighbors current endX endY closed mapData mapSize rest) := by
  intro a ha
  rcases pushNeighbors_cases current endX endY closed mapData mapSize rest a
    ha with h | ⟨hpar, hb1, hb2, hb3, hb4, hadj, hncl, hfl⟩
  · exact hrest a h
  · cases a with
    | mk ax ay ag ah af apar =>
      have hpar1 : apar = some current := hpar
      subst hpar1
      constructor
      · exact ⟨hb1, hb2, hb3, hb4, hfl, hadj, hcur.1⟩
      · show chainRoot current = start
        exact hcur.2

/-- findPathLoop_sound: under the open-list invariant, every waypoint
list the loop can return consists of centers of in-bounds floor tiles
with consecutive waypoints 4-adjacent. -/
theorem findPathLoop_sound (endX endY : ℤ) (mapData : List ℕ)
    (mapSize : ℤ) (start : ℤ × ℤ) :
    ∀ (fuel : ℕ) (opn : List ANode) (closed : List (ℤ × ℤ)),
      OpenInv mapData mapSize start opn →
      (∀ w ∈ (findPathLoop endX endY mapData mapSize fuel opn closed).1,
        floorCenter mapData mapSize w) ∧
      List.Chain' wAdj
        (findPathLoop endX endY mapData mapSize fuel opn closed).1 := by
  intro fuel
  induction fuel with
  | zero => intro opn closed _; simp [findPathLoop]
  | succ fuel ih =>
    intro opn closed hopen
    simp only [findPathLoop]
    cases hsort : sortByF opn with
    | nil => simp
    | cons current rest =>
      have hcur := hopen current
        ((sortByF_mem opn current).1 (hsort ▸ List.mem_cons_self current rest))
      simp only []
      by_cases hgoal : current.x = endX ∧ current.y = endY
      · rw [if_pos hgoal]
        obtain ⟨h1, h2, _⟩ :=
          buildPath_sound mapData mapSize current.depth current le_rfl hcur.1
        exact ⟨h1, h2⟩
      · rw [if_neg hgoal]
        by_cases hbud :
            200 < (insertClosed closed (current.x, current.y)).length
        · rw [if_pos hbud]
          simp
        · rw [if_neg hbud]
          apply ih
          apply pushNeighbors_openInv mapData mapSize start endX endY _ current
            rest hcur
          intro n hn
          exact hopen n ((sortByF_mem opn n).1 (hsort ▸ List.mem_cons_of_mem current hn))

/-- findPathLoop_disconnected: when no floor chain joins the start tile
to the goal tile, the loop returns the empty waypoint list. -/
theorem findPathLoop_disconnected (endX endY : ℤ) (mapData : List ℕ)
    (mapSize : ℤ) (start : ℤ × ℤ)
    (hnc : ¬ FloorChain mapData mapSize start (endX, endY)) :
    ∀ (fuel : ℕ) (opn : List ANode) (closed : List (ℤ × ℤ)),
      OpenInv mapData mapSize start opn →
      (findPathLoop endX endY mapData mapSize fuel opn closed).1 = [] := by
  intro fuel
  induction fuel with
  | zero => intro opn closed _; simp [findPathLoop]
  | succ fuel ih =>
    intro opn closed hopen
    simp only [findPathLoop]
    cases hsort : sortByF opn with
    | nil => simp
    | cons current rest =>
      have hcur := hopen current
        ((sortByF_mem opn current).1 (hsort ▸ List.mem_cons_self current rest))
      simp only []
      by_cases hgoal : current.x = endX ∧ current.y = endY
      · exfalso
        apply hnc
        have hch := chain_of_good mapData mapSize current.depth current
          le_rfl hcur.1
        rw [hcur.2] at hch
        have hpos : nodePos current = (endX, endY) := by
          show (current.x, current.y) = (endX, endY)
          rw [hgoal.1, hgoal.2]
        rw [hpos] at hch
        exact hch
      · rw [if_neg hgoal]
        by_cases hbud :
            200 < (insertClosed closed (current.x, current.y)).length
        · rw [if_pos hbud]
        · rw [if_neg hbud]
          apply ih
          apply pushNeighbors_openInv mapData mapSize start endX endY _ current
            rest hcur
          intro n hn
          exact hopen n ((sortByF_mem opn n).1 (hsort ▸ List.mem_cons_of_mem current hn))

/-- findPathLoop_abnormal: an abnormal exit (budget break or fuel
exhaustion) always carries the empty waypoint list: failure is an empty
path, never a partial one. -/
theorem findPathLoop_abnormal (endX endY : ℤ) (mapData : List ℕ)
    (mapSize : ℤ) :
    ∀ (fuel : ℕ) (opn : List ANode) (closed : List (ℤ × ℤ)),
      (findPathLoop endX endY mapData mapSize fuel opn closed).2 = true →
      (findPathLoop endX endY mapData mapSize fuel opn closed).1 = [] := by
  intro fuel
  induction fuel with
  | zero => intro opn closed _; simp [findPathLoop]
  | succ fuel ih =>
    intro opn closed hflag
    simp only [findPathLoop] at hflag ⊢
    cases hsort : sortByF opn with
    | nil => simp
    | cons current rest =>
      rw [hsort] at hflag
      simp only [] at hflag ⊢
      by_cases hgoal : current.x = endX ∧ current.y = endY
      · rw [if_pos hgoal] at hflag
        simp at hflag
      · rw [if_neg hgoal] at hflag ⊢
        by_cases hbud :
            200 < (insertClosed closed (current.x, current.y)).length
        · rw [if_pos hbud]
        · rw [if_neg hbud] at hflag ⊢
          exact ih _ _ hflag

/-- frontier_nonempty: while the goal of a floor chain from the start
is not yet closed, the closure invariant forces the open list to be
non-empty. -/
theorem frontier_nonempty (mapData : List ℕ) (mapSize : ℤ)
    (start : ℤ × ℤ) (opn : List ANode) (closed : List (ℤ × ℤ))
    (hB : ∀ p ∈ closed, ∀ q : ℤ × ℤ,
      (q.1 - p.1).natAbs + (q.2 - p.2).natAbs = 1 →
      ¬(q.1 < 0 ∨ q.1 ≥ mapSize ∨ q.2 < 0 ∨ q.2 ≥ mapSize) →
      jsGet mapData (q.2 * mapSize + q.1) = some 0 →
      q ∈ closed ∨ ∃ n ∈ opn, nodePos n = q)
    (hC : start ∈ closed ∨ ∃ n ∈ opn, nodePos n = start) :
    ∀ (t : ℤ × ℤ), FloorChain mapData mapSize start t → t ∉ closed →
      ∃ n : ANode, n ∈ opn := by
  intro t hchain
  induction hchain with
  | refl =>
    intro hp
    rcases hC with h | ⟨n, hn, _⟩
    · exact absurd h hp
    · exact ⟨n, hn⟩
  | step q r hc hadj hb1 hb2 hb3 hb4 hfl ih =>
    intro hr
    by_cases hq : q ∈ closed
    · rcases hB q hq r hadj (by omega) hfl with h | ⟨n, hn, _⟩
      · exact absurd h hr
      · exact ⟨n, hn⟩
    · exact ih hq

/-- findPathLoop_complete: under both invariants, a normally-exiting
search for a goal tile distinct from the start and joined to it by a
floor chain returns a non-empty waypoint list. -/
theorem findPathLoop_complete (endX endY : ℤ) (mapData : List ℕ)
    (mapSize : ℤ) (start : ℤ × ℤ)
    (hne : start ≠ (endX, endY))
    (hchain : FloorChain mapData mapSize start (endX, endY)) :
    ∀ (fuel : ℕ) (opn : List ANode) (closed : List (ℤ × ℤ)),
      OpenInv mapData mapSize start opn →
      ClosedInv mapData mapSize (endX, endY) start opn closed →
      (findPathLoop endX endY mapData mapSize fuel opn closed).2 = false →
      (findPathLoop endX endY mapData mapSize fuel opn closed).1 ≠ [] := by
  intro fuel
  induction fuel with
  | zero => intro opn closed _ _ hflag; simp [findPathLoop] at hflag
  | succ fuel ih =>
    intro opn closed hopen hclosed hflag
    obtain ⟨hA, hB, hC⟩ := hclosed
    simp only [findPathLoop] at hflag ⊢
    cases hsort : sortByF opn with
    | nil =>
      exfalso
      have hopn : opn = [] := sortByF_eq_nil opn hsort
      have hend : (endX, endY) ∉ closed := fun hmem => hA _ hmem rfl
      rcases frontier_nonempty mapData mapSize start opn closed hB hC
        (endX, endY) hchain hend with ⟨n, hn⟩
      rw [hopn] at hn
      cases hn
    | cons current rest =>
      have hcurmem := (sortByF_mem opn current).1
        (hsort ▸ List.mem_cons_self current rest)
      have hcur := hopen current hcurmem
      rw [hsort] at hflag
      simp only [] at hflag ⊢
      by_cases hgoal : current.x = endX ∧ current.y = endY
      · rw [if_pos hgoal]
        simp only []
        cases hpar : current.parent with
        | none =>
          exfalso
          apply hne
          have := chainRoot_parent_none current hpar
          rw [← hcur.2, this]
          show nodePos current = (endX, endY)
          show (current.x, current.y) = (endX, endY)
          rw [hgoal.1, hgoal.2]
        | some p =>
          exact buildPath_ne_nil current p hpar
      · rw [if_neg hgoal] at hflag ⊢
        by_cases hbud :
            200 < (insertClosed closed (current.x, current.y)).length
        · rw [if_pos hbud] at hflag
          simp at hflag
        · rw [if_neg hbud] at hflag ⊢
          have hrest : OpenInv mapData mapSize start rest := by
            intro n hn
            exact hopen n ((sortByF_mem opn n).1
              (hsort ▸ List.mem_cons_of_mem current hn))
          have hposne : (current.x, current.y) ≠ (endX, endY) := by
            intro he
            apply hgoal
            exact ⟨congrArg Prod.fst he, congrArg Prod.snd he⟩
          apply ih _ _
            (pushNeighbors_openInv mapData mapSize start endX endY _ current
              rest hcur hrest)
            ?_ hflag
          refine ⟨?_, ?_, ?_⟩
          · intro p hp
            rcases insertClosed_cases closed (current.x, current.y) p hp with
              h1 | h1
            · exact hA p h1
            · rw [h1]; exact hposne
          · intro p hp q hadj hqb hqf
            rcases insertClosed_cases closed (current.x, current.y) p hp with
              h1 | h1
            · rcases hB p h1 q hadj hqb hqf with h2 | ⟨n, hn, hq⟩
              · exact Or.inl (insertClosed_superset closed _ q h2)
              · have hn1 := (sortByF_mem opn n).1 ((sortByF_mem opn n).2 hn)
                rcases List.mem_cons.1 (hsort ▸ (sortByF_mem opn n).2 hn) with
                  h3 | h3
                · left
                  rw [← hq, h3]
                  exact insertClosed_self closed (current.x, current.y)
                · right
                  exact ⟨n, pushNeighbors_mem current endX endY _ mapData
                    mapSize rest n h3, hq⟩
            · subst h1
              by_cases hqc : q ∈ insertClosed closed (current.x, current.y)
              · exact Or.inl hqc
              · right
                exact pushNeighbors_covers current endX endY _ mapData mapSize
                  rest q hadj hqb hqc hqf
          · rcases hC with h1 | ⟨n, hn, hq⟩
            · exact Or.inl (insertClosed_superset closed _ start h1)
            · rcases List.mem_cons.1 (hsort ▸ (sortByF_mem opn n).2 hn) with
                h3 | h3
              · left
                rw [← hq, h3]
                exact insertClosed_self closed (current.x, current.y)
              · right
                exact ⟨n, pushNeighbors_mem current endX endY _ mapData mapSize
                  rest n h3, hq⟩

/-- Claim C6: Enemy.findPath always returns waypoint lists whose
entries are centers of in-bounds floor tiles with consecutive waypoints
4-adjacent; when the start and goal tiles are distinct and joined by a
floor-only 4-connected chain and the search exits normally (no
200-closed-node budget break), the list is non-empty; when no floor
chain joins them the list is empty; and a budget break also yields the
empty list rather than an error. -/
theorem claim_C6 (x y tx ty : ℚ) (mapData : List ℕ) (mapSize : ℤ)
    (sx sy ex ey : ℤ)
    (hsx : sx = ⌊x⌋) (hsy : sy = ⌊y⌋) (hex : ex = ⌊tx⌋) (hey : ey = ⌊ty⌋) :
    (∀ w ∈ Enemy.findPath x y tx ty mapData mapSize,
      floorCenter mapData mapSize w) ∧
    List.Chain' wAdj (Enemy.findPath x y tx ty mapData mapSize) ∧
    ((sx, sy) ≠ (ex, ey) →
      FloorChain mapData mapSize (sx, sy) (ex, ey) →
      (findPathRun x y tx ty mapData mapSize).2 = false →
      Enemy.findPath x y tx ty mapData mapSize ≠ []) ∧
    (¬ FloorChain mapData mapSize (sx, sy) (ex, ey) →
      Enemy.findPath x y tx ty mapData mapSize = []) ∧
    ((findPathRun x y tx ty mapData mapSize).2 = true →
      Enemy.findPath x y tx ty mapData mapSize = []) := by
  subst hsx hsy hex hey
  have hrun : findPathRun x y tx ty mapData mapSize =
      findPathLoop ⌊tx⌋ ⌊ty⌋ mapData mapSize astarFuel
        [ANode.mk ⌊x⌋ ⌊y⌋ 0 0 0 none] [] := rfl
  have hopen : OpenInv mapData mapSize (⌊x⌋, ⌊y⌋)
      [ANode.mk ⌊x⌋ ⌊y⌋ 0 0 0 none] := by
    intro n hn
    have hn1 : n = ANode.mk ⌊x⌋ ⌊y⌋ 0 0 0 none := by simpa using hn
    subst hn1
    exact ⟨trivial, rfl⟩
  have hclosed : ClosedInv mapData mapSize (⌊tx⌋, ⌊ty⌋) (⌊x⌋, ⌊y⌋)
      [ANode.mk ⌊x⌋ ⌊y⌋ 0 0 0 none] [] := by
    refine ⟨by simp, by simp, Or.inr ⟨ANode.mk ⌊x⌋ ⌊y⌋ 0 0 0 none, by simp, rfl⟩⟩
  have hsound := findPathLoop_sound ⌊tx⌋ ⌊ty⌋ mapData mapSize (⌊x⌋, ⌊y⌋)
    astarFuel [ANode.mk ⌊x⌋ ⌊y⌋ 0 0 0 none] [] hopen
  refine ⟨?_, ?_, ?_, ?_, ?_⟩
  · show ∀ w ∈ (findPathRun x y tx ty mapData mapSize).1, _
    rw [hrun]
    exact hsound.1
  · show List.Chain' wAdj (findPathRun x y tx ty mapData mapSize).1
    rw [hrun]
    exact hsound.2
  · intro hne hchain hflag
    show (findPathRun x y tx ty mapData mapSize).1 ≠ []
    rw [hrun] at hflag ⊢
    exact findPathLoop_complete ⌊tx⌋ ⌊ty⌋ mapData mapSize (⌊x⌋, ⌊y⌋) hne
      hchain astarFuel [ANode.mk ⌊x⌋ ⌊y⌋ 0 0 0 none] [] hopen hclosed hflag
  · intro hnc
    show (findPathRun x y tx ty mapData mapSize).1 = []
    rw [hrun]
    exact findPathLoop_disconnected ⌊tx⌋ ⌊ty⌋ mapData mapSize (⌊x⌋, ⌊y⌋) hnc
      astarFuel [ANode.mk ⌊x⌋ ⌊y⌋ 0 0 0 none] [] hopen
  · intro hflag
    show (findPathRun x y tx ty mapData mapSize).1 = []
    rw [hrun] at hflag ⊢
    exact findPathLoop_abnormal ⌊tx⌋ ⌊ty⌋ mapData mapSize astarFuel
      [ANode.mk ⌊x⌋ ⌊y⌋ 0 0 0 none] [] hflag

/-- findPathLoop_step: one non-goal, in-budget iteration of the A*
loop. -/
theorem findPathLoop_step (endX endY : ℤ) (mapData : List ℕ)
    (mapSize : ℤ) (fuel : ℕ) (opn : List ANode) (closed : List (ℤ × ℤ))
    (current : ANode) (rest : List ANode)
    (hsort : sortByF opn = current :: rest)
    (hgoal : ¬(current.x = endX ∧ current.y = endY))
    (hbud : ¬(200 < (insertClosed closed (current.x, current.y)).length)) :
    findPathLoop endX endY mapData mapSize (fuel + 1) opn closed =
      findPathLoop endX endY mapData mapSize fuel
        (pushNeighbors current endX endY
          (insertClosed closed (current.x, current.y)) mapData mapSize rest)
        (insertClosed closed (current.x, current.y)) := by
  simp only [findPathLoop, hsort]
  rw [if_neg hgoal, if_neg hbud]

/-- findPathLoop_goal: the goal-reached exit of the A* loop. -/
theorem findPathLoop_goal (endX endY : ℤ) (mapData : List ℕ)
    (mapSize : ℤ) (fuel : ℕ) (opn : List ANode) (closed : List (ℤ × ℤ))
    (current : ANode) (rest : List ANode)
    (hsort : sortByF opn = current :: rest)
    (hgoal : current.x = endX ∧ current.y = endY) :
    findPathLoop endX endY mapData mapSize (fuel + 1) opn closed =
      (current.buildPath, false) := by
  simp only [findPathLoop, hsort]
  rw [if_pos hgoal]

/-- findPathRun_c6: on the 2 by 2 fixture the search from tile (0,0) to
tile (1,0) exits normally in two iterations. -/
theorem findPathRun_c6 :
    (findPathRun (1/2) (1/2) (3/2) (1/2) mapC6 2).2 = false := by
  have h1 : findPathRun (1/2) (1/2) (3/2) (1/2) mapC6 2 =
      findPathLoop 1 0 mapC6 2 astarFuel [ANode.mk 0 0 0 0 0 none] [] := by
    unfold findPathRun
    norm_num
  rw [h1, show astarFuel = 99999 + 1 from rfl,
    findPathLoop_step 1 0 mapC6 2 99999 [ANode.mk 0 0 0 0 0 none] []
      (ANode.mk 0 0 0 0 0 none) [] rfl (by decide) (by decide),
    show (99999 : ℕ) = 99998 + 1 from rfl,
    findPathLoop_goal 1 0 mapC6 2 99998
      (pushNeighbors (ANode.mk 0 0 0 0 0 none) 1 0
        (insertClosed [] ((ANode.mk 0 0 0 0 0 none).x,
          (ANode.mk 0 0 0 0 0 none).y)) mapC6 2 [])
      (insertClosed [] ((ANode.mk 0 0 0 0 0 none).x,
        (ANode.mk 0 0 0 0 0 none).y))
      (ANode.mk 1 0 1 0 1 (some (ANode.mk 0 0 0 0 0 none))) [] rfl
      ⟨rfl, rfl⟩]

/-- Claim C6 witness: on the 2 by 2 fixture, the path from the tile
under (0.5, 0.5) to the adjacent floor tile under (1.5, 0.5) is
non-empty. -/
theorem claim_C6_witness :
    Enemy.findPath (1/2) (1/2) (3/2) (1/2) mapC6 2 ≠ [] :=
  (claim_C6 (1/2) (1/2) (3/2) (1/2) mapC6 2 0 0 1 0 (by norm_num)
      (by norm_num) (by norm_num) (by norm_num)).2.2.1
    (by decide)
    (FloorChain.step (0, 0) (0, 0) (1, 0) (FloorChain.refl (0, 0))
      (by decide) (by decide) (by decide) (by decide) (by decide) (by decide))
    findPathRun_c6

/-- Reach_src: reachability starts at a passable tile. -/
theorem Reach_src (m : ℤ → ℕ) (size : ℤ) (a b : ℤ × ℤ)
    (h : Reach m size a b) : passableAt m size a := by
  induction h with
  | refl ht => exact ht
  | step hab adj hc ih => exact ih

/-- Reach_dst: reachability ends at a passable tile. -/
theorem Reach_dst (m : ℤ → ℕ) (size : ℤ) (a b : ℤ × ℤ)
    (h : Reach m size a b) : passableAt m size b := by
  induction h with
  | refl ht => exact ht
  | step hab adj hc ih => exact hc

/-- Reach_trans: reachability is transitive. -/
theorem Reach_trans (m : ℤ → ℕ) (size : ℤ) (a b c : ℤ × ℤ)
    (hab : Reach m size a b) (hbc : Reach m size b c) : Reach m size a c := by
  induction hbc with
  | refl ht => exact hab
  | step hbd adj hc ih => exact Reach.step ih adj hc

/-- tileAdj_symm: 4-adjacency is symmetric. -/
theorem tileAdj_symm (a b : ℤ × ℤ) (h : tileAdj a b) : tileAdj b a := by
  rcases h with ⟨h1, h2⟩ | ⟨h1, h2⟩ | ⟨h1, h2⟩ | ⟨h1, h2⟩
  · exact Or.inr (Or.inl ⟨by omega, by omega⟩)
  · exact Or.inl ⟨by omega, by omega⟩
  · exact Or.inr (Or.inr (Or.inr ⟨by omega, by omega⟩))
  · exact Or.inr (Or.inr (Or.inl ⟨by omega, by omega⟩))

/-- Reach_symm: reachability is symmetric. -/
theorem Reach_symm (m : ℤ → ℕ) (size : ℤ) (a b : ℤ × ℤ)
    (h : Reach m size a b) : Reach m size b a := by
  induction h with
  | refl ht => exact Reach.refl _ ht
  | step hab adj hc ih =>
    rename_i b1 c1
    exact Reach_trans m size c1 b1 a
      (Reach.step (Reach.refl c1 hc) (tileAdj_symm b1 c1 adj)
        (Reach_dst m size a b1 hab)) ih

/-- passable_mono: writes of floor or portal codes preserve
passability. -/
theorem passable_mono (m m1 : ℤ → ℕ) (size : ℤ)
    (hp : ∀ i, m1 i = m i ∨ m1 i = 0 ∨ m1 i = 9) (t : ℤ × ℤ)
    (h : passableAt m size t) : passableAt m1 size t := by
  obtain ⟨h1, h2, h3, h4, h5⟩ := h
  refine ⟨h1, h2, h3, h4, ?_⟩
  rcases hp (t.2 * size + t.1) with he | he | he
  · rw [he]; exact h5
  · exact Or.inl he
  · exact Or.inr he

/-- Reach_mono: writes of floor or portal codes preserve
reachability. -/
theorem Reach_mono (m m1 : ℤ → ℕ) (size : ℤ)
    (hp : ∀ i, m1 i = m i ∨ m1 i = 0 ∨ m1 i = 9) (a b : ℤ × ℤ)
    (h : Reach m size a b) : Reach m1 size a b := by
  induction h with
  | refl ht => exact Reach.refl _ (passable_mono m m1 size hp _ ht)
  | step hab adj hc ih =>
    exact Reach.step ih adj (passable_mono m m1 size hp _ hc)

/-- setTile_cases: a guarded tile write changes at most the written
index, to the written value. -/
theorem setTile_cases (m : ℤ → ℕ) (size x y : ℤ) (v : ℕ) (i : ℤ) :
    setTile m size x y v i = m i ∨
    (setTile m size x y v i = v ∧ i = y * size + x ∧
      0 ≤ x ∧ x < size ∧ 0 ≤ y ∧ y < size) := by
  simp only [setTile]
  split
  case isTrue hb =>
    by_cases hi : i = y * size + x
    · right
      rw [if_pos hi]
      exact ⟨rfl, hi, hb.1, hb.2.1, hb.2.2.1, hb.2.2.2⟩
    · left
      rw [if_neg hi]
  case isFalse => exact Or.inl rfl

/-- setTile_read: an in-bounds guarded write is visible at the written
index. -/
theorem setTile_read (m : ℤ → ℕ) (size x y : ℤ) (v : ℕ)
    (hb : 0 ≤ x ∧ x < size ∧ 0 ≤ y ∧ y < size) :
    setTile m size x y v (y * size + x) = v := by
  simp only [setTile]
  rw [if_pos hb]
  simp

/-- setTile_other: a guarded write leaves other indices unchanged. -/
theorem setTile_other (m : ℤ → ℕ) (size x y : ℤ) (v : ℕ) (i : ℤ)
    (hi : i ≠ y * size + x) : setTile m size x y v i = m i := by
  simp [setTile, hi]

/-- idx_inj: the flattened index is injective on in-bounds tiles. -/
theorem idx_inj (size a b c d : ℤ)
    (ha : 0 ≤ a) (ha2 : a < size) (hc : 0 ≤ c) (hc2 : c < size)
    (he : b * size + a = d * size + c) : a = c ∧ b = d := by
  have hsize : 0 < size := by omega
  have hbd : b = d := by
    rcases lt_trichotomy b d with h | h | h
    · exfalso
      have h1 : b - d ≤ -1 := by omega
      have h2 : (b - d) * size ≤ (-1) * size :=
        mul_le_mul_of_nonneg_right h1 (by omega)
      have h3 : (b - d) * size = c - a := by ring_nf; omega
      omega
    · exact h
    · exfalso
      have h1 : 1 ≤ b - d := by omega
      have h2 : 1 * size ≤ (b - d) * size :=
        mul_le_mul_of_nonneg_right h1 (by omega)
      have h3 : (b - d) * size = c - a := by ring_nf; omega
      omega
  refine ⟨by rw [hbd] at he; omega, hbd⟩

/-- keep0: a map evolution by floor writes keeps floor tiles. -/
theorem keep0 (m m1 : ℤ → ℕ) (i : ℤ)
    (hp : m1 i = m i ∨ m1 i = 0) (h : m i = 0) : m1 i = 0 := by
  rcases hp with h1 | h1
  · rw [h1, h]
  · exact h1

/-- writeRow_succ: unrolling one write of a row carve. -/
theorem writeRow_succ (size y x0 : ℤ) (n : ℕ) (m : ℤ → ℕ) :
    writeRow size y x0 (n + 1) m =
      setTile (writeRow size y x0 n m) size (x0 + (n : ℤ)) y 0 := by
  simp [writeRow, List.range_succ]

/-- writeCol_succ: unrolling one write of a column carve. -/
theorem writeCol_succ (size x y0 : ℤ) (n : ℕ) (m : ℤ → ℕ) :
    writeCol size x y0 (n + 1) m =
      setTile (writeCol size x y0 n m) size x (y0 + (n : ℤ)) 0 := by
  simp [writeCol, List.range_succ]

/-- writeRow_cases: a row carve changes only in-bounds indices of the
written segment, to floor. -/
theorem writeRow_cases (size y x0 : ℤ) :
    ∀ (n : ℕ) (m : ℤ → ℕ) (i : ℤ),
      writeRow size y x0 n m i = m i ∨
      (writeRow size y x0 n m i = 0 ∧
        ∃ x : ℤ, x0 ≤ x ∧ x < x0 + (n : ℤ) ∧ i = y * size + x ∧
          0 ≤ x ∧ x < size ∧ 0 ≤ y ∧ y < size) := by
  intro n
  induction n with
  | zero => intro m i; left; simp [writeRow]
  | succ n ih =>
    intro m i
    rw [writeRow_succ]
    rcases setTile_cases (writeRow size y x0 n m) size (x0 + (n : ℤ)) y 0 i
      with h | ⟨h0, hi, hbx, hbx2, hby, hby2⟩
    · rw [h]
      rcases ih m i with h1 | ⟨h1, x, hx1, hx2, hx3⟩
      · exact Or.inl h1
      · exact Or.inr ⟨h1, x, hx1, by push_cast; omega, hx3⟩
    · exact Or.inr ⟨h0, x0 + (n : ℤ), by omega, by push_cast; omega, hi,
        hbx, hbx2, hby, hby2⟩

/-- writeCol_cases: a column carve changes only in-bounds indices of the
written segment, to floor. -/
theorem writeCol_cases (size x y0 : ℤ) :
    ∀ (n : ℕ) (m : ℤ → ℕ) (i : ℤ),
      writeCol size x y0 n m i = m i ∨
      (writeCol size x y0 n m i = 0 ∧
        ∃ y : ℤ, y0 ≤ y ∧ y < y0 + (n : ℤ) ∧ i = y * size + x ∧
          0 ≤ x ∧ x < size ∧ 0 ≤ y ∧ y < size) := by
  intro n
  induction n with
  | zero => intro m i; left; simp [writeCol]
  | succ n ih =>
    intro m i
    rw [writeCol_succ]
    rcases setTile_cases (writeCol size x y0 n m) size x (y0 + (n : ℤ)) 0 i
      with h | ⟨h0, hi, hbx, hbx2, hby, hby2⟩
    · rw [h]
      rcases ih m i with h1 | ⟨h1, y, hy1, hy2, hy3⟩
      · exact Or.inl h1
      · exact Or.inr ⟨h1, y, hy1, by push_cast; omega, hy3⟩
    · exact Or.inr ⟨h0, y0 + (n : ℤ), by omega, by push_cast; omega, hi,
        hbx, hbx2, hby, hby2⟩

/-- writeRow_read: a row carve writes floor at every in-bounds tile of
its segment. -/
theorem writeRow_read (size y x0 : ℤ) :
    ∀ (n : ℕ) (m : ℤ → ℕ) (x : ℤ), x0 ≤ x → x < x0 + (n : ℤ) →
      0 ≤ x → x < size → 0 ≤ y → y < size →
      writeRow size y x0 n m (y * size + x) = 0 := by
  intro n
  induction n with
  | zero => intro m x h1 h2 _ _ _ _; exfalso; omega
  | succ n ih =>
    intro m x h1 h2 h3 h4 h5 h6
    rw [writeRow_succ]
    by_cases hx : x = x0 + (n : ℤ)
    · subst hx
      exact setTile_read _ size _ y 0 ⟨h3, h4, h5, h6⟩
    · have h7 : x < x0 + (n : ℤ) := by push_cast at h2; omega
      have h8 := ih m x h1 h7 h3 h4 h5 h6
      rcases setTile_cases (writeRow size y x0 n m) size (x0 + (n : ℤ)) y 0
        (y * size + x) with h | ⟨h0, _⟩
      · rw [h]; exact h8
      · exact h0

/-- writeCol_read: a column carve writes floor at every in-bounds tile
of its segment. -/
theorem writeCol_read (size x y0 : ℤ) :
    ∀ (n : ℕ) (m : ℤ → ℕ) (y : ℤ), y0 ≤ y → y < y0 + (n : ℤ) →
      0 ≤ x → x < size → 0 ≤ y → y < size →
      writeCol size x y0 n m (y * size + x) = 0 := by
  intro n
  induction n with
  | zero => intro m y h1 h2 _ _ _ _; exfalso; omega
  | succ n ih =>
    intro m y h1 h2 h3 h4 h5 h6
    rw [writeCol_succ]
    by_cases hy : y = y0 + (n : ℤ)
    · subst hy
      exact setTile_read _ size x _ 0 ⟨h3, h4, h5, h6⟩
    · have h7 : y < y0 + (n : ℤ) := by push_cast at h2; omega
      have h8 := ih m y h1 h7 h3 h4 h5 h6
      rcases setTile_cases (writeCol size x y0 n m) size x (y0 + (n : ℤ)) 0
        (y * size + x) with h | ⟨h0, _⟩
      · rw [h]; exact h8
      · exact h0

/-- carveRoom_cases: carving a room changes only in-bounds indices of
tiles inside the room's rectangle, to floor. -/
theorem carveRoom_cases (size : ℤ) (rm : Room)
    (hw : 0 ≤ rm.width) (hh : 0 ≤ rm.height) (m : ℤ → ℕ) (i : ℤ) :
    carveRoom size m rm i = m i ∨
    (carveRoom size m rm i = 0 ∧
      ∃ t : ℤ × ℤ, roomContains rm t ∧ i = t.2 * size + t.1 ∧
        0 ≤ t.1 ∧ t.1 < size ∧ 0 ≤ t.2 ∧ t.2 < size) := by
  have main : ∀ (n : ℕ) (m0 : ℤ → ℕ),
      ((List.range n).foldl
        (fun (m1 : ℤ → ℕ) (j : ℕ) => writeCol size (rm.x + (j : ℤ)) rm.y rm.height.toNat m1)
        m0) i = m0 i ∨
      (((List.range n).foldl
        (fun (m1 : ℤ → ℕ) (j : ℕ) => writeCol size (rm.x + (j : ℤ)) rm.y rm.height.toNat m1)
        m0) i = 0 ∧
        ∃ t : ℤ × ℤ, rm.x ≤ t.1 ∧ t.1 < rm.x + (n : ℤ) ∧
          rm.y ≤ t.2 ∧ t.2 < rm.y + rm.height ∧ i = t.2 * size + t.1 ∧
          0 ≤ t.1 ∧ t.1 < size ∧ 0 ≤ t.2 ∧ t.2 < size) := by
    intro n
    induction n with
    | zero => intro m0; left; simp
    | succ n ih =>
      intro m0
      rw [List.range_succ, List.foldl_append, List.foldl_cons, List.foldl_nil]
      rcases writeCol_cases size (rm.x + (n : ℤ)) rm.y rm.height.toNat
        ((List.range n).foldl
          (fun (m1 : ℤ → ℕ) (j : ℕ) => writeCol size (rm.x + (j : ℤ)) rm.y rm.height.toNat m1)
          m0) i with h | ⟨h0, y, hy1, hy2, hyi, hb1, hb2, hb3, hb4⟩
      · rw [h]
        rcases ih m0 with h1 | ⟨h1, t, ht1, ht2, ht3, ht4, ht5, ht6⟩
        · exact Or.inl h1
        · exact Or.inr ⟨h1, t, ht1, by push_cast; omega, ht3, ht4, ht5, ht6⟩
      · refine Or.inr ⟨h0, (rm.x + (n : ℤ), y), by omega, by push_cast; omega,
          hy1, ?_, hyi, hb1, hb2, hb3, hb4⟩
        have : ((rm.height.toNat : ℤ)) = rm.height := Int.toNat_of_nonneg hh
        omega
  rcases main rm.width.toNat m with h | ⟨h0, t, ht1, ht2, ht3, ht4, ht5⟩
  · exact Or.inl h
  · refine Or.inr ⟨h0, t, ⟨ht1, ?_, ht3, ht4⟩, ht5⟩
    have : ((rm.width.toNat : ℤ)) = rm.width := Int.toNat_of_nonneg hw
    omega

/-- carveRoom_read: carving a room writes floor at every in-bounds tile
of its rectangle. -/
theorem carveRoom_read (size : ℤ) (rm : Room) (m : ℤ → ℕ) (t : ℤ × ℤ)
    (hc : roomContains rm t)
    (hb : 0 ≤ t.1 ∧ t.1 < size ∧ 0 ≤ t.2 ∧ t.2 < size) :
    carveRoom size m rm (t.2 * size + t.1) = 0 := by
  obtain ⟨hc1, hc2, hc3, hc4⟩ := hc
  have main : ∀ (n : ℕ) (m0 : ℤ → ℕ), t.1 < rm.x + (n : ℤ) →
      ((List.range n).foldl
        (fun (m1 : ℤ → ℕ) (j : ℕ) => writeCol size (rm.x + (j : ℤ)) rm.y rm.height.toNat m1)
        m0) (t.2 * size + t.1) = 0 := by
    intro n
    induction n with
    | zero => intro m0 h; exfalso; omega
    | succ n ih =>
      intro m0 h
      rw [List.range_succ, List.foldl_append, List.foldl_cons, List.foldl_nil]
      by_cases hx : t.1 = rm.x + (n : ℤ)
      · rw [← hx]
        apply writeCol_read
        · exact hc3
        · rw [Int.toNat_of_nonneg (by omega : (0:ℤ) ≤ rm.height)]
          omega
        · exact hb.1
        · exact hb.2.1
        · exact hb.2.2.1
        · exact hb.2.2.2
      · have h7 : t.1 < rm.x + (n : ℤ) := by push_cast at h; omega
        have h8 := ih m0 h7
        rcases writeCol_cases size (rm.x + (n : ℤ)) rm.y rm.height.toNat _
          (t.2 * size + t.1) with hcase | ⟨h0, _⟩
        · rw [hcase]; exact h8
        · exact h0
  apply main rm.width.toNat m
  rw [Int.toNat_of_nonneg (by omega : (0:ℤ) ≤ rm.width)]
  omega

/-- reach_row_steps: a passable horizontal run is walkable left to
right. -/
theorem reach_row_steps (m : ℤ → ℕ) (size y x0 : ℤ) :
    ∀ (n : ℕ),
      (∀ x : ℤ, x0 ≤ x → x ≤ x0 + (n : ℤ) → passableAt m size (x, y)) →
      Reach m size (x0, y) (x0 + (n : ℤ), y) := by
  intro n
  induction n with
  | zero =>
    intro h
    have h0 : x0 + ((0 : ℕ) : ℤ) = x0 := by simp
    rw [h0]
    exact Reach.refl (x0, y) (h x0 le_rfl (by omega))
  | succ n ih =>
    intro h
    have h1 : Reach m size (x0, y) (x0 + (n : ℤ), y) :=
      ih fun x hx1 hx2 => h x hx1 (by push_cast; omega)
    have h2 : x0 + ((n + 1 : ℕ) : ℤ) = (x0 + (n : ℤ)) + 1 := by push_cast; ring
    rw [h2]
    exact Reach.step h1 (Or.inl ⟨rfl, rfl⟩)
      (h ((x0 + (n : ℤ)) + 1) (by omega) (by push_cast; omega))

/-- reach_col_steps: a passable vertical run is walkable top to
bottom. -/
theorem reach_col_steps (m : ℤ → ℕ) (size x y0 : ℤ) :
    ∀ (n : ℕ),
      (∀ y : ℤ, y0 ≤ y → y ≤ y0 + (n : ℤ) → passableAt m size (x, y)) →
      Reach m size (x, y0) (x, y0 + (n : ℤ)) := by
  intro n
  induction n with
  | zero =>
    intro h
    have h0 : y0 + ((0 : ℕ) : ℤ) = y0 := by simp
    rw [h0]
    exact Reach.refl (x, y0) (h y0 le_rfl (by omega))
  | succ n ih =>
    intro h
    have h1 : Reach m size (x, y0) (x, y0 + (n : ℤ)) :=
      ih fun y hy1 hy2 => h y hy1 (by push_cast; omega)
    have h2 : y0 + ((n + 1 : ℕ) : ℤ) = (y0 + (n : ℤ)) + 1 := by push_cast; ring
    rw [h2]
    exact Reach.step h1 (Or.inr (Or.inr (Or.inl ⟨rfl, rfl⟩)))
      (h ((y0 + (n : ℤ)) + 1) (by omega) (by push_cast; omega))

/-- reach_row_between: two tiles of a passable horizontal segment are
mutually reachable. -/
theorem reach_row_between (m : ℤ → ℕ) (size y x1 x2 : ℤ)
    (h : ∀ x : ℤ, min x1 x2 ≤ x → x ≤ max x1 x2 → passableAt m size (x, y)) :
    Reach m size (x1, y) (x2, y) := by
  rcases le_total x1 x2 with hle | hle
  · have := reach_row_steps m size y x1 (x2 - x1).toNat
      (fun x hx1 hx2 => h x (by omega)
        (by rw [Int.toNat_of_nonneg (by omega : (0:ℤ) ≤ x2 - x1)] at hx2; omega))
    rwa [Int.toNat_of_nonneg (by omega : (0:ℤ) ≤ x2 - x1),
      show x1 + (x2 - x1) = x2 by ring] at this
  · have := reach_row_steps m size y x2 (x1 - x2).toNat
      (fun x hx1 hx2 => h x (by omega)
        (by rw [Int.toNat_of_nonneg (by omega : (0:ℤ) ≤ x1 - x2)] at hx2; omega))
    rw [Int.toNat_of_nonneg (by omega : (0:ℤ) ≤ x1 - x2),
      show x2 + (x1 - x2) = x1 by ring] at this
    exact Reach_symm m size _ _ this

/-- reach_col_between: two tiles of a passable vertical segment are
mutually reachable. -/
theorem reach_col_between (m : ℤ → ℕ) (size x y1 y2 : ℤ)
    (h : ∀ y : ℤ, min y1 y2 ≤ y → y ≤ max y1 y2 → passableAt m size (x, y)) :
    Reach m size (x, y1) (x, y2) := by
  rcases le_total y1 y2 with hle | hle
  · have := reach_col_steps m size x y1 (y2 - y1).toNat
      (fun y hy1 hy2 => h y (by omega)
        (by rw [Int.toNat_of_nonneg (by omega : (0:ℤ) ≤ y2 - y1)] at hy2; omega))
    rwa [Int.toNat_of_nonneg (by omega : (0:ℤ) ≤ y2 - y1),
      show y1 + (y2 - y1) = y2 by ring] at this
  · have := reach_col_steps m size x y2 (y1 - y2).toNat
      (fun y hy1 hy2 => h y (by omega)
        (by rw [Int.toNat_of_nonneg (by omega : (0:ℤ) ≤ y1 - y2)] at hy2; omega))
    rw [Int.toNat_of_nonneg (by omega : (0:ℤ) ≤ y1 - y2),
      show y2 + (y1 - y2) = y1 by ring] at this
    exact Reach_symm m size _ _ this

/-- center_in_room: the computed center of a non-degenerate room lies
inside its rectangle. -/
theorem center_in_room (size : ℤ) (rm : Room) (hok : RoomOK size rm) :
    roomContains rm (rm.centerX, rm.centerY) := by
  obtain ⟨h1, h2, h3, h4, h5, h6, h7, h8⟩ := hok
  have hwe : rm.width.fdiv 2 = rm.width / 2 :=
    Int.fdiv_eq_ediv rm.width (by omega)
  have hhe : rm.height.fdiv 2 = rm.height / 2 :=
    Int.fdiv_eq_ediv rm.height (by omega)
  refine ⟨?_, ?_, ?_, ?_⟩ <;> simp only [h7, h8, hwe, hhe] <;> omega

/-- room_connect: inside a fully passable room every tile is reachable
from the room center. -/
theorem room_connect (m : ℤ → ℕ) (size : ℤ) (rm : Room)
    (hok : RoomOK size rm) (hfl : roomFloor m size rm) (t : ℤ × ℤ)
    (hc : roomContains rm t) :
    Reach m size (rm.centerX, rm.centerY) t := by
  have hcen := center_in_room size rm hok
  obtain ⟨hcx1, hcx2, hcy1, hcy2⟩ := hcen
  obtain ⟨ht1, ht2, ht3, ht4⟩ := hc
  have hv : Reach m size (rm.centerX, rm.centerY) (rm.centerX, t.2) := by
    apply reach_col_between
    intro y hy1 hy2
    exact hfl (rm.centerX, y) ⟨hcx1, hcx2, by simp at hy1 hy2 ⊢; omega,
      by simp at hy1 hy2 ⊢; omega⟩
  have hh : Reach m size (rm.centerX, t.2) (t.1, t.2) := by
    apply reach_row_between
    intro x hx1 hx2
    exact hfl (x, t.2) ⟨by simp at hx1 hx2 ⊢; omega,
      by simp at hx1 hx2 ⊢; omega, ht3, ht4⟩
  exact Reach_trans m size _ _ _ hv (by simpa using hh)

/-- rand_floor_bounds: Math.floor(random * c) lies in [0, c-1] for a
random draw in [0,1) and positive integer scale c. -/
theorem rand_floor_bounds (r : ℚ) (c : ℤ) (hr0 : 0 ≤ r) (hr1 : r < 1)
    (hc : 0 < c) : 0 ≤ ⌊r * (c : ℚ)⌋ ∧ ⌊r * (c : ℚ)⌋ ≤ c - 1 := by
  constructor
  · apply Int.le_floor.2
    push_cast
    exact mul_nonneg hr0 (by exact_mod_cast le_of_lt hc)
  · have h1 : r * (c : ℚ) < (c : ℚ) := by
      have h2 := mul_lt_mul_of_pos_right hr1
        (by exact_mod_cast hc : (0 : ℚ) < (c : ℚ))
      simpa using h2
    have h3 : ⌊r * (c : ℚ)⌋ < c := Int.floor_lt.2 (by exact_mod_cast h1)
    omega

/-- foldl_inv: a fold preserves any invariant its step preserves. -/
theorem foldl_inv {α β : Type} (f : α → β → α) (Q : α → Prop)
    (hf : ∀ a b, Q a → Q (f a b)) :
    ∀ (l : List β) (a : α), Q a → Q (l.foldl f a) := by
  intro l
  induction l with
  | nil => intro a h; exact h
  | cons b l ih => intro a h; exact ih (f a b) (hf a b h)

/-- nodeAt_leavesOK: a subtree of a tree with good leaves has good
leaves. -/
theorem nodeAt_leavesOK (P : Rect → Prop) :
    ∀ (t : BSP) (p : List Bool) (s : BSP),
      LeavesOK P t → nodeAt t p = some s → LeavesOK P s := by
  intro t
  induction t with
  | lf rect room =>
    intro p s hl hn
    cases p with
    | nil => cases hn; exact hl
    | cons b p => simp [nodeAt] at hn
  | nd rect l r ihl ihr =>
    intro p s hl hn
    cases p with
    | nil => cases hn; exact hl
    | cons b p =>
      cases b with
      | false => exact ihl p s hl.1 (by simpa [nodeAt] using hn)
      | true => exact ihr p s hl.2 (by simpa [nodeAt] using hn)

/-- replaceAt_leavesOK: replacing a subtree with a good-leaved tree
keeps all leaves good. -/
theorem replaceAt_leavesOK (P : Rect → Prop) :
    ∀ (t : BSP) (p : List Bool) (t1 : BSP),
      LeavesOK P t → LeavesOK P t1 → LeavesOK P (replaceAt t p t1) := by
  intro t
  induction t with
  | lf rect room =>
    intro p t1 hl h1
    cases p with
    | nil => exact h1
    | cons b p => exact hl
  | nd rect l r ihl ihr =>
    intro p t1 hl h1
    cases p with
    | nil => exact h1
    | cons b p =>
      cases b with
      | false => exact ⟨ihl p t1 hl.1 h1, hl.2⟩
      | true => exact ⟨hl.1, ihr p t1 hl.2 h1⟩

/-- trySplit_leaves: a split attempt preserves the leaf-rectangle
invariant: both child rectangles stay within the grid with dimensions
at least minRoomSize. -/
theorem trySplit_leaves (M : MathOracle) (size minRoomSize : ℤ)
    (hrand : validRand M) (h0 : 0 ≤ minRoomSize)
    (t : BSP) (p : List Bool) (k : ℕ)
    (hl : LeavesOK (RectOK size minRoomSize) t) :
    LeavesOK (RectOK size minRoomSize) (trySplit M minRoomSize t p k).1 := by
  cases hn : nodeAt t p with
  | none => simp only [trySplit, hn]; exact hl
  | some s =>
    cases s with
    | nd rect l r => simp only [trySplit, hn]; exact hl
    | lf rect room =>
      have hrect : RectOK size minRoomSize rect :=
        nodeAt_leavesOK _ t p _ hl hn
      obtain ⟨hrx, hry, hrw, hrh, hrw2, hrh2⟩ := hrect
      simp only [trySplit, hn]
      by_cases hcoin : M.rand k > (1 : ℚ)/2
      · rw [if_pos hcoin]
        by_cases hmx : rect.h - minRoomSize ≤ minRoomSize
        · rw [if_pos hmx]; exact hl
        · rw [if_neg hmx]
          apply replaceAt_leavesOK _ t p _ hl
          have hfb := rand_floor_bounds (M.rand (k+1))
            (rect.h - minRoomSize - minRoomSize) (hrand (k+1)).1
            (hrand (k+1)).2 (by omega)
          have hcast : ((rect.h - minRoomSize : ℤ) : ℚ) - (minRoomSize : ℚ) =
              (((rect.h - minRoomSize - minRoomSize : ℤ)) : ℚ) := by push_cast; ring
          rw [hcast] at *
          rw [if_pos hcoin]
          refine ⟨⟨hrx, hry, hrw, ?_, hrw2, ?_⟩, ⟨hrx, ?_, hrw, ?_, hrw2, ?_⟩⟩ <;>
            dsimp only <;> omega
      · rw [if_neg hcoin]
        by_cases hmx : rect.w - minRoomSize ≤ minRoomSize
        · rw [if_pos hmx]; exact hl
        · rw [if_neg hmx]
          apply replaceAt_leavesOK _ t p _ hl
          have hfb := rand_floor_bounds (M.rand (k+1))
            (rect.w - minRoomSize - minRoomSize) (hrand (k+1)).1
            (hrand (k+1)).2 (by omega)
          have hcast : ((rect.w - minRoomSize : ℤ) : ℚ) - (minRoomSize : ℚ) =
              (((rect.w - minRoomSize - minRoomSize : ℤ)) : ℚ) := by push_cast; ring
          rw [hcast] at *
          rw [if_neg hcoin]
          refine ⟨⟨hrx, hry, ?_, hrh, ?_, hrh2⟩, ⟨?_, hry, ?_, hrh, ?_, hrh2⟩⟩ <;>
            dsimp only <;> omega

/-- splitRound_leaves: one splitting round preserves the leaf-rectangle
invariant. -/
theorem splitRound_leaves (M : MathOracle) (size minRoomSize : ℤ)
    (hrand : validRand M) (h0 : 0 ≤ minRoomSize)
    (snapshot : List (List Bool)) (st : BSP × List (List Bool) × ℕ)
    (hl : LeavesOK (RectOK size minRoomSize) st.1) :
    LeavesOK (RectOK size minRoomSize)
      (splitRound M minRoomSize snapshot st).1 := by
  unfold splitRound
  apply foldl_inv _ (fun acc => LeavesOK (RectOK size minRoomSize) acc.1) _
    snapshot st hl
  intro acc p hQ
  dsimp only
  split
  · exact trySplit_leaves M size minRoomSize hrand h0 acc.1 p acc.2.2 hQ
  · exact trySplit_leaves M size minRoomSize hrand h0 acc.1 p acc.2.2 hQ

/-- splitRounds_leaves: all splitting rounds preserve the
leaf-rectangle invariant. -/
theorem splitRounds_leaves (M : MathOracle) (size minRoomSize : ℤ)
    (hrand : validRand M) (h0 : 0 ≤ minRoomSize) :
    ∀ (d : ℕ) (st : BSP × List (List Bool) × ℕ),
      LeavesOK (RectOK size minRoomSize) st.1 →
      LeavesOK (RectOK size minRoomSize)
        (splitRounds M minRoomSize d st).1 := by
  intro d
  induction d with
  | zero => intro st hl; exact hl
  | succ d ih =>
    intro st hl
    exact ih _ (splitRound_leaves M size minRoomSize hrand h0 st.2.1 st hl)

/-- createRooms_rooms: room creation on a tree with good leaf
rectangles assigns every leaf a non-degenerate room strictly inside its
rectangle, hence inside the grid. -/
theorem createRooms_rooms (M : MathOracle) (size minRoomSize maxRoomSize : ℤ)
    (hrand : validRand M) (h3 : 3 ≤ minRoomSize) (hmm : minRoomSize ≤ maxRoomSize) :
    ∀ (t : BSP) (k : ℕ), LeavesOK (RectOK size minRoomSize) t →
      TreeRoomsOK size (createRooms M minRoomSize maxRoomSize t k).1 := by
  intro t
  induction t with
  | nd rect l r ihl ihr =>
    intro k hl
    exact ⟨ihl _ hl.1, ihr _ hl.2⟩
  | lf rect room =>
    intro k hl
    obtain ⟨hrx, hry, hrw, hrh, hrw2, hrh2⟩ := hl
    have hwcast : ((maxRoomSize : ℚ) - (minRoomSize : ℚ)) =
        (((maxRoomSize - minRoomSize : ℤ)) : ℚ) := by push_cast; ring
    have hW0 : 0 ≤ ⌊M.rand k * (((maxRoomSize - minRoomSize : ℤ)) : ℚ)⌋ := by
      apply Int.le_floor.2
      push_cast
      exact mul_nonneg (hrand k).1 (by exact_mod_cast (by omega : (0:ℤ) ≤ maxRoomSize - minRoomSize))
    have hH0 : 0 ≤ ⌊M.rand (k+1) * (((maxRoomSize - minRoomSize : ℤ)) : ℚ)⌋ := by
      apply Int.le_floor.2
      push_cast
      exact mul_nonneg (hrand (k+1)).1 (by exact_mod_cast (by omega : (0:ℤ) ≤ maxRoomSize - minRoomSize))
    refine ⟨_, rfl, ?_⟩
    set rw0 := min (⌊M.rand k * ((maxRoomSize : ℚ) - (minRoomSize : ℚ))⌋ + minRoomSize)
      (rect.w - 2) with hrw0
    set rh0 := min (⌊M.rand (k+1) * ((maxRoomSize : ℚ) - (minRoomSize : ℚ))⌋ + minRoomSize)
      (rect.h - 2) with hrh0
    have hw1 : 1 ≤ rw0 := by
      rw [hrw0, hwcast]
      rcases le_total (⌊M.rand k * (((maxRoomSize - minRoomSize : ℤ)) : ℚ)⌋ + minRoomSize) (rect.w - 2) with h | h
      · rw [min_eq_left h]; omega
      · rw [min_eq_right h]; omega
    have hw2 : rw0 ≤ rect.w - 2 := min_le_right _ _
    have hh1 : 1 ≤ rh0 := by
      rw [hrh0, hwcast]
      rcases le_total (⌊M.rand (k+1) * (((maxRoomSize - minRoomSize : ℤ)) : ℚ)⌋ + minRoomSize) (rect.h - 2) with h | h
      · rw [min_eq_left h]; omega
      · rw [min_eq_right h]; omega
    have hh2 : rh0 ≤ rect.h - 2 := min_le_right _ _
    have hxcast : ((rect.w : ℚ) - (rw0 : ℚ) - 1) = (((rect.w - rw0 - 1 : ℤ)) : ℚ) := by
      push_cast; ring
    have hycast : ((rect.h : ℚ) - (rh0 : ℚ) - 1) = (((rect.h - rh0 - 1 : ℤ)) : ℚ) := by
      push_cast; ring
    have hxfb := rand_floor_bounds (M.rand (k+2)) (rect.w - rw0 - 1)
      (hrand (k+2)).1 (hrand (k+2)).2 (by omega)
    have hyfb := rand_floor_bounds (M.rand (k+3)) (rect.h - rh0 - 1)
      (hrand (k+3)).1 (hrand (k+3)).2 (by omega)
    rw [mkRoom]
    rw [hxcast, hycast]
    refine ⟨?_, ?_, ?_, ?_, ?_, ?_, ?_, ?_⟩ <;> dsimp only <;> omega

/-- getAllRooms_ok: a tree whose leaves all hold well-formed rooms
yields a non-empty list of well-formed rooms. -/
theorem getAllRooms_ok (size : ℤ) :
    ∀ t : BSP, TreeRoomsOK size t →
      getAllRooms t ≠ [] ∧ ∀ rm ∈ getAllRooms t, RoomOK size rm := by
  intro t
  induction t with
  | lf rect room =>
    intro h
    obtain ⟨rm, hrm, hok⟩ := h
    subst hrm
    refine ⟨by simp [getAllRooms], ?_⟩
    intro rm1 h1
    simp [getAllRooms] at h1
    exact h1 ▸ hok
  | nd rect l r ihl ihr =>
    intro h
    obtain ⟨h1, h2⟩ := h
    refine ⟨?_, ?_⟩
    · simp only [getAllRooms]
      intro hc
      exact (ihl h1).1 (List.append_eq_nil.1 hc).1
    · simp only [getAllRooms]
      intro rm hm
      rcases List.mem_append.1 hm with hm1 | hm1
      · exact (ihl h1).2 rm hm1
      · exact (ihr h2).2 rm hm1

/-- getRoomR_mem: on a tree whose leaves all hold rooms, getRoom
returns one of the tree's rooms. -/
theorem getRoomR_mem (M : MathOracle) (size : ℤ) :
    ∀ (t : BSP) (k : ℕ), TreeRoomsOK size t →
      ∃ rm, (getRoomR M t k).1 = some rm ∧ rm ∈ getAllRooms t := by
  intro t
  induction t with
  | lf rect room =>
    intro k h
    obtain ⟨rm, hrm, _⟩ := h
    subst hrm
    exact ⟨rm, rfl, by simp [getAllRooms]⟩
  | nd rect l r ihl ihr =>
    intro k h
    obtain ⟨ha, hma⟩ := ihl k h.1
    obtain ⟨a, ha1, ha2⟩ := ihl k h.1
    obtain ⟨b, hb1, hb2⟩ := ihr (getRoomR M l k).2 h.2
    simp only [getRoomR, ha1, hb1]
    by_cases hcoin : M.rand (getRoomR M r (getRoomR M l k).2).2 > (1:ℚ)/2
    · rw [if_pos hcoin]
      exact ⟨a, rfl, by simp [getAllRooms]; exact Or.inl ha2⟩
    · rw [if_neg hcoin]
      exact ⟨b, rfl, by simp [getAllRooms]; exact Or.inr hb2⟩

/-- headD_mem: the head of a non-empty list is a member. -/
theorem headD_mem {α : Type} (d : α) (l : List α) (h : l ≠ []) :
    l.headD d ∈ l := by
  cases l with
  | nil => exact absurd rfl h
  | cons a l => simp

/-- getLastD_mem: the last element of a non-empty list is a member. -/
theorem getLastD_mem {α : Type} :
    ∀ (l : List α) (d : α), l ≠ [] → l.getLastD d ∈ l := by
  intro l
  induction l with
  | nil => intro d h; exact absurd rfl h
  | cons a l ih =>
    intro d _
    cases hl : l with
    | nil => simp [List.getLastD]
    | cons b l1 =>
      have h2 := ih a (by rw [hl]; simp)
      rw [← hl]
      right
      rw [List.getLastD_cons]
      exact h2

/-- hTunnel_cases: a horizontal tunnel only writes floor. -/
theorem hTunnel_cases (size x1 x2 y : ℤ) (m : ℤ → ℕ) (i : ℤ) :
    createHorizontalTunnel size x1 x2 y m i = m i ∨
    createHorizontalTunnel size x1 x2 y m i = 0 := by
  unfold createHorizontalTunnel
  rcases writeRow_cases size y (min x1 x2) _ m i with h | ⟨h0, _⟩
  · exact Or.inl h
  · exact Or.inr h0

/-- vTunnel_cases: a vertical tunnel only writes floor. -/
theorem vTunnel_cases (size y1 y2 x : ℤ) (m : ℤ → ℕ) (i : ℤ) :
    createVerticalTunnel size y1 y2 x m i = m i ∨
    createVerticalTunnel size y1 y2 x m i = 0 := by
  unfold createVerticalTunnel
  rcases writeCol_cases size x (min y1 y2) _ m i with h | ⟨h0, _⟩
  · exact Or.inl h
  · exact Or.inr h0

/-- corridorHV: a horizontal-then-vertical L corridor between two
in-bounds tiles joins them, and every tile the corridor turned to floor
is joined to the first endpoint. -/
theorem corridorHV (size : ℤ) (m : ℤ → ℕ) (x1 y1 x2 y2 : ℤ)
    (h1 : 0 ≤ x1) (h2 : x1 < size) (h3 : 0 ≤ y1) (h4 : y1 < size)
    (h5 : 0 ≤ x2) (h6 : x2 < size) (h7 : 0 ≤ y2) (h8 : y2 < size) :
    Reach (createVerticalTunnel size y1 y2 x2
        (createHorizontalTunnel size x1 x2 y1 m)) size (x1, y1) (x2, y2) ∧
    ∀ t : ℤ × ℤ, 0 ≤ t.1 → t.1 < size → 0 ≤ t.2 → t.2 < size →
      m (t.2 * size + t.1) ≠ 0 →
      (createVerticalTunnel size y1 y2 x2
        (createHorizontalTunnel size x1 x2 y1 m)) (t.2 * size + t.1) = 0 →
      Reach (createVerticalTunnel size y1 y2 x2
        (createHorizontalTunnel size x1 x2 y1 m)) size (x1, y1) t := by
  set mH := createHorizontalTunnel size x1 x2 y1 m with hmH
  set mV := createVerticalTunnel size y1 y2 x2 mH with hmV
  have hrow : ∀ x : ℤ, min x1 x2 ≤ x → x ≤ max x1 x2 →
      mV (y1 * size + x) = 0 := by
    intro x hxa hxb
    have hH : mH (y1 * size + x) = 0 := by
      rw [hmH]
      unfold createHorizontalTunnel
      apply writeRow_read
      · exact hxa
      · rw [Int.toNat_of_nonneg (by omega)]; omega
      · omega
      · omega
      · exact h3
      · exact h4
    rw [hmV]
    unfold createVerticalTunnel
    rcases writeCol_cases size x2 (min y1 y2) _ mH (y1 * size + x) with
      h | ⟨h0, _⟩
    · rw [h]; exact hH
    · exact h0
  have hcol : ∀ y : ℤ, min y1 y2 ≤ y → y ≤ max y1 y2 →
      mV (y * size + x2) = 0 := by
    intro y hya hyb
    rw [hmV]
    unfold createVerticalTunnel
    apply writeCol_read
    · exact hya
    · rw [Int.toNat_of_nonneg (by omega)]; omega
    · exact h5
    · exact h6
    · omega
    · omega
  have hrowpass : ∀ x : ℤ, min x1 x2 ≤ x → x ≤ max x1 x2 →
      passableAt mV size (x, y1) := fun x hxa hxb =>
    ⟨show 0 ≤ x by omega, show x < size by omega, h3, h4,
      Or.inl (hrow x hxa hxb)⟩
  have hcolpass : ∀ y : ℤ, min y1 y2 ≤ y → y ≤ max y1 y2 →
      passableAt mV size (x2, y) := fun y hya hyb =>
    ⟨h5, h6, show 0 ≤ y by omega, show y < size by omega,
      Or.inl (hcol y hya hyb)⟩
  have hreach1 : Reach mV size (x1, y1) (x2, y1) :=
    reach_row_between mV size y1 x1 x2 hrowpass
  have hreach2 : Reach mV size (x2, y1) (x2, y2) :=
    reach_col_between mV size x2 y1 y2 hcolpass
  refine ⟨Reach_trans _ _ _ _ _ hreach1 hreach2, ?_⟩
  intro t ht1 ht2 ht3 ht4 hm0 hv0
  by_cases hHc : mH (t.2 * size + t.1) = 0
  · rcases writeRow_cases size y1 (min x1 x2)
      ((max x1 x2 - min x1 x2 + 1).toNat) m (t.2 * size + t.1) with
      h | ⟨_, x, hxa, hxb, hxi, hxb1, hxb2, hyb1, hyb2⟩
    · have h9 : mH (t.2 * size + t.1) = m (t.2 * size + t.1) := h
      exact absurd (by rw [← h9]; exact hHc : m (t.2 * size + t.1) = 0) hm0
    · obtain ⟨hte1, hte2⟩ := idx_inj size t.1 t.2 x y1 ht1 ht2 hxb1 hxb2 hxi
      have hteq : t = (x, y1) := Prod.ext hte1 hte2
      rw [hteq]
      apply reach_row_between
      intro x0 hx0a hx0b
      apply hrowpass x0
      · have hnn : ((max x1 x2 - min x1 x2 + 1).toNat : ℤ) =
          max x1 x2 - min x1 x2 + 1 := Int.toNat_of_nonneg (by omega)
        omega
      · have hnn : ((max x1 x2 - min x1 x2 + 1).toNat : ℤ) =
          max x1 x2 - min x1 x2 + 1 := Int.toNat_of_nonneg (by omega)
        omega
  · rcases writeCol_cases size x2 (min y1 y2)
      ((max y1 y2 - min y1 y2 + 1).toNat) mH (t.2 * size + t.1) with
      h | ⟨_, y, hya, hyb, hyi, hxb1, hxb2, hyb1, hyb2⟩
    · have h9 : mV (t.2 * size + t.1) = mH (t.2 * size + t.1) := h
      exact absurd (by rw [← h9]; exact hv0 : mH (t.2 * size + t.1) = 0) hHc
    · obtain ⟨hte1, hte2⟩ := idx_inj size t.1 t.2 x2 y ht1 ht2 hxb1 hxb2 hyi
      have hteq : t = (x2, y) := Prod.ext hte1 hte2
      rw [hteq]
      refine Reach_trans _ _ _ _ _ hreach1 ?_
      apply reach_col_between
      intro y0 hy0a hy0b
      apply hcolpass y0
      · have hnn : ((max y1 y2 - min y1 y2 + 1).toNat : ℤ) =
          max y1 y2 - min y1 y2 + 1 := Int.toNat_of_nonneg (by omega)
        omega
      · have hnn : ((max y1 y2 - min y1 y2 + 1).toNat : ℤ) =
          max y1 y2 - min y1 y2 + 1 := Int.toNat_of_nonneg (by omega)
        omega

/-- corridorVH: a vertical-then-horizontal L corridor between two
in-bounds tiles joins them, and every tile the corridor turned to floor
is joined to the first endpoint. -/
theorem corridorVH (size : ℤ) (m : ℤ → ℕ) (x1 y1 x2 y2 : ℤ)
    (h1 : 0 ≤ x1) (h2 : x1 < size) (h3 : 0 ≤ y1) (h4 : y1 < size)
    (h5 : 0 ≤ x2) (h6 : x2 < size) (h7 : 0 ≤ y2) (h8 : y2 < size) :
    Reach (createHorizontalTunnel size x1 x2 y2
        (createVerticalTunnel size y1 y2 x1 m)) size (x1, y1) (x2, y2) ∧
    ∀ t : ℤ × ℤ, 0 ≤ t.1 → t.1 < size → 0 ≤ t.2 → t.2 < size →
      m (t.2 * size + t.1) ≠ 0 →
      (createHorizontalTunnel size x1 x2 y2
        (createVerticalTunnel size y1 y2 x1 m)) (t.2 * size + t.1) = 0 →
      Reach (createHorizontalTunnel size x1 x2 y2
        (createVerticalTunnel size y1 y2 x1 m)) size (x1, y1) t := by
  set mV := createVerticalTunnel size y1 y2 x1 m with hmV
  set mH := createHorizontalTunnel size x1 x2 y2 mV with hmH
  have hcol : ∀ y : ℤ, min y1 y2 ≤ y → y ≤ max y1 y2 →
      mH (y * size + x1) = 0 := by
    intro y hya hyb
    have hV : mV (y * size + x1) = 0 := by
      rw [hmV]
      unfold createVerticalTunnel
      apply writeCol_read
      · exact hya
      · rw [Int.toNat_of_nonneg (by omega)]; omega
      · exact h1
      · exact h2
      · omega
      · omega
    rw [hmH]
    unfold createHorizontalTunnel
    rcases writeRow_cases size y2 (min x1 x2) _ mV (y * size + x1) with
      h | ⟨h0, _⟩
    · rw [h]; exact hV
    · exact h0
  have hrow : ∀ x : ℤ, min x1 x2 ≤ x → x ≤ max x1 x2 →
      mH (y2 * size + x) = 0 := by
    intro x hxa hxb
    rw [hmH]
    unfold createHorizontalTunnel
    apply writeRow_read
    · exact hxa
    · rw [Int.toNat_of_nonneg (by omega)]; omega
    · omega
    · omega
    · exact h7
    · exact h8
  have hcolpass : ∀ y : ℤ, min y1 y2 ≤ y → y ≤ max y1 y2 →
      passableAt mH size (x1, y) := fun y hya hyb =>
    ⟨h1, h2, show 0 ≤ y by omega, show y < size by omega,
      Or.inl (hcol y hya hyb)⟩
  have hrowpass : ∀ x : ℤ, min x1 x2 ≤ x → x ≤ max x1 x2 →
      passableAt mH size (x, y2) := fun x hxa hxb =>
    ⟨show 0 ≤ x by omega, show x < size by omega, h7, h8,
      Or.inl (hrow x hxa hxb)⟩
  have hreach1 : Reach mH size (x1, y1) (x1, y2) :=
    reach_col_between mH size x1 y1 y2 hcolpass
  have hreach2 : Reach mH size (x1, y2) (x2, y2) :=
    reach_row_between mH size y2 x1 x2 hrowpass
  refine ⟨Reach_trans _ _ _ _ _ hreach1 hreach2, ?_⟩
  intro t ht1 ht2 ht3 ht4 hm0 hv0
  by_cases hVc : mV (t.2 * size + t.1) = 0
  · rcases writeCol_cases size x1 (min y1 y2)
      ((max y1 y2 - min y1 y2 + 1).toNat) m (t.2 * size + t.1) with
      h | ⟨_, y, hya, hyb, hyi, hxb1, hxb2, hyb1, hyb2⟩
    · have h9 : mV (t.2 * size + t.1) = m (t.2 * size + t.1) := h
      exact absurd (by rw [← h9]; exact hVc : m (t.2 * size + t.1) = 0) hm0
    · obtain ⟨hte1, hte2⟩ := idx_inj size t.1 t.2 x1 y ht1 ht2 hxb1 hxb2 hyi
      have hteq : t = (x1, y) := Prod.ext hte1 hte2
      rw [hteq]
      apply reach_col_between
      intro y0 hy0a hy0b
      apply hcolpass y0
      · have hnn : ((max y1 y2 - min y1 y2 + 1).toNat : ℤ) =
          max y1 y2 - min y1 y2 + 1 := Int.toNat_of_nonneg (by omega)
        omega
      · have hnn : ((max y1 y2 - min y1 y2 + 1).toNat : ℤ) =
          max y1 y2 - min y1 y2 + 1 := Int.toNat_of_nonneg (by omega)
        omega
  · rcases writeRow_cases size y2 (min x1 x2)
      ((max x1 x2 - min x1 x2 + 1).toNat) mV (t.2 * size + t.1) with
      h | ⟨_, x, hxa, hxb, hxi, hxb1, hxb2, hyb1, hyb2⟩
    · have h9 : mH (t.2 * size + t.1) = mV (t.2 * size + t.1) := h
      exact absurd (by rw [← h9]; exact hv0 : mV (t.2 * size + t.1) = 0) hVc
    · obtain ⟨hte1, hte2⟩ := idx_inj size t.1 t.2 x y2 ht1 ht2 hxb1 hxb2 hxi
      have hteq : t = (x, y2) := Prod.ext hte1 hte2
      rw [hteq]
      refine Reach_trans _ _ _ _ _ hreach1 ?_
      apply reach_row_between
      intro x0 hx0a hx0b
      apply hrowpass x0
      · have hnn : ((max x1 x2 - min x1 x2 + 1).toNat : ℤ) =
          max x1 x2 - min x1 x2 + 1 := Int.toNat_of_nonneg (by omega)
        omega
      · have hnn : ((max x1 x2 - min x1 x2 + 1).toNat : ℤ) =
          max x1 x2 - min x1 x2 + 1 := Int.toNat_of_nonneg (by omega)
        omega

/-- createCorridor_main: a corridor only writes floor, joins the two
room centers, and joins every tile it turned to floor to the first
room's center. -/
theorem createCorridor_main (M : MathOracle) (a b : Room) (size : ℤ)
    (m : ℤ → ℕ) (k : ℕ)
    (ha : 0 ≤ a.centerX ∧ a.centerX < size ∧ 0 ≤ a.centerY ∧ a.centerY < size)
    (hb : 0 ≤ b.centerX ∧ b.centerX < size ∧ 0 ≤ b.centerY ∧ b.centerY < size) :
    (∀ i, (createCorridor M a b size m k).1 i = m i ∨
      (createCorridor M a b size m k).1 i = 0) ∧
    Reach (createCorridor M a b size m k).1 size
      (a.centerX, a.centerY) (b.centerX, b.centerY) ∧
    (∀ t : ℤ × ℤ, 0 ≤ t.1 → t.1 < size → 0 ≤ t.2 → t.2 < size →
      m (t.2 * size + t.1) ≠ 0 →
      (createCorridor M a b size m k).1 (t.2 * size + t.1) = 0 →
      Reach (createCorridor M a b size m k).1 size
        (a.centerX, a.centerY) t) := by
  obtain ⟨ha1, ha2, ha3, ha4⟩ := ha
  obtain ⟨hb1, hb2, hb3, hb4⟩ := hb
  unfold createCorridor
  by_cases hcoin : M.rand k > (1:ℚ)/2
  · rw [if_pos hcoin]
    obtain ⟨hre, hpart⟩ := corridorHV size m a.centerX a.centerY
      b.centerX b.centerY ha1 ha2 ha3 ha4 hb1 hb2 hb3 hb4
    refine ⟨?_, hre, hpart⟩
    intro i
    rcases vTunnel_cases size a.centerY b.centerY b.centerX
      (createHorizontalTunnel size a.centerX b.centerX a.centerY m) i with
      h | h
    · rcases hTunnel_cases size a.centerX b.centerX a.centerY m i with h2 | h2
      · exact Or.inl (h.trans h2)
      · exact Or.inr (h.trans h2)
    · exact Or.inr h
  · rw [if_neg hcoin]
    obtain ⟨hre, hpart⟩ := corridorVH size m a.centerX a.centerY
      b.centerX b.centerY ha1 ha2 ha3 ha4 hb1 hb2 hb3 hb4
    refine ⟨?_, hre, hpart⟩
    intro i
    rcases hTunnel_cases size a.centerX b.centerX b.centerY
      (createVerticalTunnel size a.centerY b.centerY a.centerX m) i with
      h | h
    · rcases vTunnel_cases size a.centerY b.centerY a.centerX m i with h2 | h2
      · exact Or.inl (h.trans h2)
      · exact Or.inr (h.trans h2)
    · exact Or.inr h

/-- center_bounds: the center of a well-formed room is in bounds. -/
theorem center_bounds (size : ℤ) (rm : Room) (hok : RoomOK size rm) :
    0 ≤ rm.centerX ∧ rm.centerX < size ∧ 0 ≤ rm.centerY ∧ rm.centerY < size := by
  have h := center_in_room size rm hok
  obtain ⟨h1, h2, h3, h4⟩ := h
  obtain ⟨hx, hy, hw, hh, _⟩ := hok
  dsimp only at h1 h2 h3 h4
  exact ⟨by omega, by omega, by omega, by omega⟩

/-- roomFloor_mono: floor-only writes preserve a fully passable room. -/
theorem roomFloor_mono (m m1 : ℤ → ℕ) (size : ℤ) (rm : Room)
    (hp : ∀ i, m1 i = m i ∨ m1 i = 0) (h : roomFloor m size rm) :
    roomFloor m1 size rm :=
  fun t ht =>
    passable_mono m m1 size (fun i => (hp i).imp id Or.inl) t (h t ht)

/-- connectRoomsT_main: corridor connection only writes floor, makes
all room centers of the subtree mutually reachable, and joins every
tile it turned to floor to the center of one of the subtree's rooms. -/
theorem connectRoomsT_main (M : MathOracle) (size : ℤ) :
    ∀ (t : BSP) (m : ℤ → ℕ) (k : ℕ),
      TreeRoomsOK size t →
      (∀ rm ∈ getAllRooms t, roomFloor m size rm) →
      (∀ i, (connectRoomsT M size t m k).1 i = m i ∨
        (connectRoomsT M size t m k).1 i = 0) ∧
      (∀ a ∈ getAllRooms t, ∀ b ∈ getAllRooms t,
        Reach (connectRoomsT M size t m k).1 size
          (a.centerX, a.centerY) (b.centerX, b.centerY)) ∧
      (∀ t1 : ℤ × ℤ, 0 ≤ t1.1 → t1.1 < size → 0 ≤ t1.2 → t1.2 < size →
        m (t1.2 * size + t1.1) ≠ 0 →
        (connectRoomsT M size t m k).1 (t1.2 * size + t1.1) = 0 →
        ∃ rm ∈ getAllRooms t,
          Reach (connectRoomsT M size t m k).1 size
            (rm.centerX, rm.centerY) t1) := by
  intro t
  induction t with
  | lf rect room =>
    intro m k htr hfl
    obtain ⟨rm, hrm, hok⟩ := htr
    subst hrm
    refine ⟨fun i => Or.inl rfl, ?_, ?_⟩
    · intro a hma b hmb
      have hma1 : a = rm := by simpa [getAllRooms] using hma
      have hmb1 : b = rm := by simpa [getAllRooms] using hmb
      rw [hma1, hmb1]
      exact Reach.refl _ (hfl rm (by simp [getAllRooms]) _
        (center_in_room size rm hok))
    · intro t1 _ _ _ _ hne h0
      exact absurd h0 hne
  | nd rect l r ihl ihr =>
    intro m k htr hfl
    obtain ⟨htl, htr2⟩ := htr
    have hrooms : getAllRooms (BSP.nd rect l r) =
        getAllRooms l ++ getAllRooms r := rfl
    have hfll : ∀ rm ∈ getAllRooms l, roomFloor m size rm := fun rm h =>
      hfl rm (by rw [hrooms]; exact List.mem_append_left _ h)
    obtain ⟨hm1, hr1, he1⟩ := ihl m k htl hfll
    set m1 := (connectRoomsT M size l m k).1 with hm1d
    set k1 := (connectRoomsT M size l m k).2 with hk1d
    have hflr : ∀ rm ∈ getAllRooms r, roomFloor m1 size rm := fun rm h =>
      roomFloor_mono m m1 size rm hm1
        (hfl rm (by rw [hrooms]; exact List.mem_append_right _ h))
    obtain ⟨hm2, hr2, he2⟩ := ihr m1 k1 htr2 hflr
    set m2 := (connectRoomsT M size r m1 k1).1 with hm2d
    set k2 := (connectRoomsT M size r m1 k1).2 with hk2d
    obtain ⟨a, ha1, ha2⟩ := getRoomR_mem M size l k2 htl
    obtain ⟨b, hb1, hb2⟩ := getRoomR_mem M size r (getRoomR M l k2).2 htr2
    have haok := (getAllRooms_ok size l htl).2 a ha2
    have hbok := (getAllRooms_ok size r htr2).2 b hb2
    obtain ⟨hcm, hcr, hce⟩ := createCorridor_main M a b size m2
      (getRoomR M r (getRoomR M l k2).2).2
      (center_bounds size a haok) (center_bounds size b hbok)
    have hres : connectRoomsT M size (.nd rect l r) m k =
        createCorridor M a b size m2 (getRoomR M r (getRoomR M l k2).2).2 := by
      simp only [connectRoomsT]
      rw [← hm1d, ← hk1d, ← hm2d, ← hk2d, ha1, hb1]
    rw [hres]
    set m3 := (createCorridor M a b size m2
      (getRoomR M r (getRoomR M l k2).2).2).1 with hm3d
    have hmono13 : ∀ i, m3 i = m i ∨ m3 i = 0 := by
      intro i
      rcases hcm i with h | h
      · rcases hm2 i with h2 | h2
        · rcases hm1 i with h3 | h3
          · exact Or.inl (h.trans (h2.trans h3))
          · exact Or.inr (h.trans (h2.trans h3))
        · exact Or.inr (h.trans h2)
      · exact Or.inr h
    have hlift1 : ∀ p q : ℤ × ℤ, Reach m1 size p q → Reach m3 size p q := by
      intro p q h
      apply Reach_mono m2 m3 size (fun i => (hcm i).imp id Or.inl)
      exact Reach_mono m1 m2 size (fun i => (hm2 i).imp id Or.inl) p q h
    have hlift2 : ∀ p q : ℤ × ℤ, Reach m2 size p q → Reach m3 size p q :=
      fun p q h => Reach_mono m2 m3 size (fun i => (hcm i).imp id Or.inl) p q h
    refine ⟨hmono13, ?_, ?_⟩
    · have hcross : ∀ p ∈ getAllRooms l, ∀ q ∈ getAllRooms r,
          Reach m3 size (p.centerX, p.centerY) (q.centerX, q.centerY) := by
        intro p hp q hq
        refine Reach_trans _ _ _ _ _ (hlift1 _ _ (hr1 p hp a ha2)) ?_
        exact Reach_trans _ _ _ _ _ hcr (hlift2 _ _ (hr2 b hb2 q hq))
      intro a0 ha0 b0 hb0
      rw [hrooms] at ha0 hb0
      rcases List.mem_append.1 ha0 with h1 | h1 <;>
        rcases List.mem_append.1 hb0 with h2 | h2
      · exact hlift1 _ _ (hr1 a0 h1 b0 h2)
      · exact hcross a0 h1 b0 h2
      · exact Reach_symm _ _ _ _ (hcross b0 h2 a0 h1)
      · exact hlift2 _ _ (hr2 a0 h1 b0 h2)
    · intro t1 hb1t hb2t hb3t hb4t hne h0
      by_cases hc1 : m1 (t1.2 * size + t1.1) = 0
      · obtain ⟨rm, hrmm, hrmr⟩ := he1 t1 hb1t hb2t hb3t hb4t hne hc1
        exact ⟨rm, by rw [hrooms]; exact List.mem_append_left _ hrmm,
          hlift1 _ _ hrmr⟩
      · by_cases hc2 : m2 (t1.2 * size + t1.1) = 0
        · obtain ⟨rm, hrmm, hrmr⟩ := he2 t1 hb1t hb2t hb3t hb4t hc1 hc2
          exact ⟨rm, by rw [hrooms]; exact List.mem_append_right _ hrmm,
            hlift2 _ _ hrmr⟩
        · have hra := hce t1 hb1t hb2t hb3t hb4t hc2 h0
          exact ⟨a, by rw [hrooms]; exact List.mem_append_left _ ha2, hra⟩

/-- carve_fold_main: carving a list of well-formed rooms only writes
floor, makes every tile of every room floor, and every tile it turned
to floor lies in one of the rooms. -/
theorem carve_fold_main (size : ℤ) :
    ∀ (l : List Room) (m : ℤ → ℕ),
      (∀ rm ∈ l, RoomOK size rm) →
      (∀ i, (l.foldl (carveRoom size) m) i = m i ∨
        (l.foldl (carveRoom size) m) i = 0) ∧
      (∀ rm ∈ l, ∀ t : ℤ × ℤ, roomContains rm t →
        (l.foldl (carveRoom size) m) (t.2 * size + t.1) = 0) ∧
      (∀ t : ℤ × ℤ, 0 ≤ t.1 → t.1 < size → 0 ≤ t.2 → t.2 < size →
        m (t.2 * size + t.1) ≠ 0 →
        (l.foldl (carveRoom size) m) (t.2 * size + t.1) = 0 →
        ∃ rm ∈ l, roomContains rm t) := by
  intro l
  induction l with
  | nil =>
    intro m _
    refine ⟨fun i => Or.inl rfl, fun rm h => absurd h (List.not_mem_nil rm), ?_⟩
    intro t _ _ _ _ hne h0
    exact absurd h0 hne
  | cons rm l ih =>
    intro m hok
    have hokr := hok rm (List.mem_cons_self rm l)
    have hokl : ∀ rm0 ∈ l, RoomOK size rm0 :=
      fun rm0 h => hok rm0 (List.mem_cons_of_mem rm h)
    obtain ⟨ho1, ho2, ho3, ho4, ho5, ho6, _, _⟩ := hokr
    obtain ⟨ih1, ih2, ih3⟩ := ih (carveRoom size m rm) hokl
    rw [List.foldl_cons]
    refine ⟨?_, ?_, ?_⟩
    · intro i
      rcases ih1 i with h | h
      · rcases carveRoom_cases size rm (by omega) (by omega) m i with h2 | ⟨h2, _⟩
        · exact Or.inl (h.trans h2)
        · exact Or.inr (h.trans h2)
      · exact Or.inr h
    · intro rm0 hm0 t ht
      rcases List.mem_cons.1 hm0 with h | h
      · subst h
        obtain ⟨hc1, hc2, hc3, hc4⟩ := ht
        have hread := carveRoom_read size rm0 m t ⟨hc1, hc2, hc3, hc4⟩
          ⟨by omega, by omega, by omega, by omega⟩
        exact keep0 _ _ _ (ih1 _) hread
      · exact ih2 rm0 h t ht
    · intro t h1 h2 h3 h4 hne h0
      by_cases hcv : carveRoom size m rm (t.2 * size + t.1) = 0
      · rcases carveRoom_cases size rm (by omega) (by omega) m
          (t.2 * size + t.1) with hcc | ⟨_, t0, hct, hci, hcb1, hcb2, hcb3, hcb4⟩
        · exact absurd (by rw [← hcc]; exact hcv) hne
        · obtain ⟨hte1, hte2⟩ := idx_inj size t.1 t.2 t0.1 t0.2 h1 h2 hcb1 hcb2
            (by rw [hci])
          have hteq : t = t0 := Prod.ext hte1 hte2
          exact ⟨rm, List.mem_cons_self rm l, hteq ▸ hct⟩
      · obtain ⟨rm0, hm0, hc0⟩ := ih3 t h1 h2 h3 h4 hcv h0
        exact ⟨rm0, List.mem_cons_of_mem rm hm0, hc0⟩

/-- Claim C3: under the Math.random contract and sane parameters
(minRoomSize at least 3, at most maxRoomSize and at most the grid
size), every generated dungeon has a non-empty room list, every floor
tile is reachable from the player start by 4-connected moves over
floor/portal tiles, and the exit is reachable from the player start. -/
theorem claim_C3 (M : MathOracle) (size minRoomSize maxRoomSize : ℤ)
    (recursionDepth : ℕ) (hrand : validRand M) (h3 : 3 ≤ minRoomSize)
    (hmm : minRoomSize ≤ maxRoomSize) (hsz : minRoomSize ≤ size) :
    (generateDungeon M size minRoomSize maxRoomSize recursionDepth).rooms ≠ [] ∧
    (∀ t : ℤ × ℤ, 0 ≤ t.1 → t.1 < size → 0 ≤ t.2 → t.2 < size →
      (generateDungeon M size minRoomSize maxRoomSize recursionDepth).mapData
        (t.2 * size + t.1) = 0 →
      Reach (generateDungeon M size minRoomSize maxRoomSize recursionDepth).mapData
        size
        (generateDungeon M size minRoomSize maxRoomSize recursionDepth).playerStart
        t) ∧
    Reach (generateDungeon M size minRoomSize maxRoomSize recursionDepth).mapData
      size
      (generateDungeon M size minRoomSize maxRoomSize recursionDepth).playerStart
      (generateDungeon M size minRoomSize maxRoomSize recursionDepth).exit := by
  set sp := splitRounds M minRoomSize recursionDepth
    (BSP.lf ⟨0, 0, size, size⟩ none, [[]], 0) with hsp
  set cr := createRooms M minRoomSize maxRoomSize sp.1 sp.2.2 with hcr
  set rooms := getAllRooms cr.1 with hroomsd
  set m1 := rooms.foldl (carveRoom size) (fun _ => 1) with hm1d
  set cn := connectRoomsT M size cr.1 m1 cr.2 with hcnd
  set startRoom := rooms.headD defaultRoom with hstartd
  set exitRoom := rooms.getLastD defaultRoom with hexitd
  set m3 := setTile cn.1 size exitRoom.centerX exitRoom.centerY 9 with hm3d
  have hleaves0 : LeavesOK (RectOK size minRoomSize)
      (BSP.lf ⟨0, 0, size, size⟩ none) := by
    refine ⟨?_, ?_, ?_, ?_, ?_, ?_⟩ <;> dsimp only <;> omega
  have hleaves : LeavesOK (RectOK size minRoomSize) sp.1 := by
    rw [hsp]
    exact splitRounds_leaves M size minRoomSize hrand (by omega)
      recursionDepth _ hleaves0
  have htrooms : TreeRoomsOK size cr.1 := by
    rw [hcr]
    exact createRooms_rooms M size minRoomSize maxRoomSize hrand h3 hmm
      sp.1 sp.2.2 hleaves
  have hrne : rooms ≠ [] ∧ ∀ rm ∈ rooms, RoomOK size rm := by
    rw [hroomsd]
    exact getAllRooms_ok size cr.1 htrooms
  obtain ⟨hcarve1, hcarve2, hcarve3⟩ :=
    carve_fold_main size rooms (fun _ => 1) hrne.2
  have hfloor1 : ∀ rm ∈ rooms, roomFloor m1 size rm := by
    intro rm h t ht
    have hok := hrne.2 rm h
    obtain ⟨ho1, ho2, ho3, ho4, ho5, ho6, _, _⟩ := hok
    obtain ⟨hc1, hc2, hc3, hc4⟩ := ht
    exact ⟨by omega, by omega, by omega, by omega,
      Or.inl (hcarve2 rm h t ⟨hc1, hc2, hc3, hc4⟩)⟩
  obtain ⟨hcn1, hcn2, hcn3⟩ := connectRoomsT_main M size cr.1 m1 cr.2 htrooms
    (by rw [← hroomsd]; exact hfloor1)
  have hm3p : ∀ i, m3 i = cn.1 i ∨ m3 i = 9 := by
    intro i
    rcases setTile_cases cn.1 size exitRoom.centerX exitRoom.centerY 9 i with
      h | ⟨h, _⟩
    · exact Or.inl h
    · exact Or.inr h
  have hpres3 : ∀ i, m3 i = cn.1 i ∨ m3 i = 0 ∨ m3 i = 9 :=
    fun i => (hm3p i).imp id Or.inr
  have hlift3 : ∀ p q : ℤ × ℤ, Reach cn.1 size p q → Reach m3 size p q :=
    fun p q h => Reach_mono cn.1 m3 size hpres3 p q h
  have hsmem : startRoom ∈ rooms := by
    rw [hstartd]
    exact headD_mem _ _ hrne.1
  have hemem : exitRoom ∈ rooms := by
    rw [hexitd]
    exact getLastD_mem _ _ hrne.1
  have hfloor3 : ∀ rm ∈ rooms, roomFloor m3 size rm := fun rm h t ht =>
    passable_mono cn.1 m3 size hpres3 t
      (roomFloor_mono m1 cn.1 size rm hcn1 (hfloor1 rm h) t ht)
  refine ⟨hrne.1, ?_, ?_⟩
  · intro t h1 h2 h3t h4t h5
    show Reach m3 size (startRoom.centerX, startRoom.centerY) t
    have h5m : m3 (t.2 * size + t.1) = 0 := h5
    have hcn0 : cn.1 (t.2 * size + t.1) = 0 := by
      rcases hm3p (t.2 * size + t.1) with h | h
      · rw [← h]; exact h5m
      · rw [h] at h5m; exact absurd h5m (by norm_num)
    by_cases hm10 : m1 (t.2 * size + t.1) = 0
    · obtain ⟨rm, hmem, hcont⟩ := hcarve3 t h1 h2 h3t h4t (by simp) hm10
      refine Reach_trans _ _ _ _ _
        (hlift3 _ _ (hcn2 startRoom hsmem rm hmem)) ?_
      exact room_connect m3 size rm (hrne.2 rm hmem) (hfloor3 rm hmem) t hcont
    · obtain ⟨rm, hmem, hrch⟩ := hcn3 t h1 h2 h3t h4t hm10 hcn0
      exact Reach_trans _ _ _ _ _
        (hlift3 _ _ (hcn2 startRoom hsmem rm hmem)) (hlift3 _ _ hrch)
  · show Reach m3 size (startRoom.centerX, startRoom.centerY)
      (exitRoom.centerX, exitRoom.centerY)
    exact hlift3 _ _ (hcn2 startRoom hsmem exitRoom hemem)

/-- Claim C4: under the same parameter hypotheses, exactly one tile of
the generated grid holds the portal code 9, namely the exit tile, which
lies inside the bounding rectangle of the last room of the rooms list;
and room and corridor carving only ever write the floor code 0. -/
theorem claim_C4 (M : MathOracle) (size minRoomSize maxRoomSize : ℤ)
    (recursionDepth : ℕ) (hrand : validRand M) (h3 : 3 ≤ minRoomSize)
    (hmm : minRoomSize ≤ maxRoomSize) (hsz : minRoomSize ≤ size) :
    (∀ t : ℤ × ℤ, 0 ≤ t.1 → t.1 < size → 0 ≤ t.2 → t.2 < size →
      ((generateDungeon M size minRoomSize maxRoomSize recursionDepth).mapData
          (t.2 * size + t.1) = 9 ↔
        t = (generateDungeon M size minRoomSize maxRoomSize recursionDepth).exit)) ∧
    roomContains
      ((generateDungeon M size minRoomSize maxRoomSize recursionDepth).rooms.getLastD
        defaultRoom)
      (generateDungeon M size minRoomSize maxRoomSize recursionDepth).exit ∧
    (generateDungeon M size minRoomSize maxRoomSize recursionDepth).rooms.getLastD
        defaultRoom ∈
      (generateDungeon M size minRoomSize maxRoomSize recursionDepth).rooms ∧
    (∀ (m : ℤ → ℕ) (rm : Room) (i : ℤ), 0 ≤ rm.width → 0 ≤ rm.height →
      carveRoom size m rm i = m i ∨ carveRoom size m rm i = 0) ∧
    (∀ (m : ℤ → ℕ) (x1 x2 y i : ℤ),
      createHorizontalTunnel size x1 x2 y m i = m i ∨
      createHorizontalTunnel size x1 x2 y m i = 0) ∧
    (∀ (m : ℤ → ℕ) (y1 y2 x i : ℤ),
      createVerticalTunnel size y1 y2 x m i = m i ∨
      createVerticalTunnel size y1 y2 x m i = 0) := by
  set sp := splitRounds M minRoomSize recursionDepth
    (BSP.lf ⟨0, 0, size, size⟩ none, [[]], 0) with hsp
  set cr := createRooms M minRoomSize maxRoomSize sp.1 sp.2.2 with hcr
  set rooms := getAllRooms cr.1 with hroomsd
  set m1 := rooms.foldl (carveRoom size) (fun _ => 1) with hm1d
  set cn := connectRoomsT M size cr.1 m1 cr.2 with hcnd
  set exitRoom := rooms.getLastD defaultRoom with hexitd
  set m3 := setTile cn.1 size exitRoom.centerX exitRoom.centerY 9 with hm3d
  have hleaves0 : LeavesOK (RectOK size minRoomSize)
      (BSP.lf ⟨0, 0, size, size⟩ none) := by
    refine ⟨?_, ?_, ?_, ?_, ?_, ?_⟩ <;> dsimp only <;> omega
  have hleaves : LeavesOK (RectOK size minRoomSize) sp.1 := by
    rw [hsp]
    exact splitRounds_leaves M size minRoomSize hrand (by omega)
      recursionDepth _ hleaves0
  have htrooms : TreeRoomsOK size cr.1 := by
    rw [hcr]
    exact createRooms_rooms M size minRoomSize maxRoomSize hrand h3 hmm
      sp.1 sp.2.2 hleaves
  have hrne : rooms ≠ [] ∧ ∀ rm ∈ rooms, RoomOK size rm := by
    rw [hroomsd]
    exact getAllRooms_ok size cr.1 htrooms
  obtain ⟨hcarve1, hcarve2, hcarve3⟩ :=
    carve_fold_main size rooms (fun _ => 1) hrne.2
  have hfloor1 : ∀ rm ∈ rooms, roomFloor m1 size rm := by
    intro rm h t ht
    have hok := hrne.2 rm h
    obtain ⟨ho1, ho2, ho3, ho4, ho5, ho6, _, _⟩ := hok
    obtain ⟨hc1, hc2, hc3, hc4⟩ := ht
    exact ⟨by omega, by omega, by omega, by omega,
      Or.inl (hcarve2 rm h t ⟨hc1, hc2, hc3, hc4⟩)⟩
  obtain ⟨hcn1, hcn2, hcn3⟩ := connectRoomsT_main M size cr.1 m1 cr.2 htrooms
    (by rw [← hroomsd]; exact hfloor1)
  have hemem : exitRoom ∈ rooms := by
    rw [hexitd]
    exact getLastD_mem _ _ hrne.1
  have heok : RoomOK size exitRoom := hrne.2 exitRoom hemem
  have hebnd := center_bounds size exitRoom heok
  have hno9 : ∀ i, cn.1 i = 1 ∨ cn.1 i = 0 := by
    intro i
    rcases hcn1 i with h | h
    · rcases hcarve1 i with h2 | h2
      · exact Or.inl (h.trans h2)
      · exact Or.inr (h.trans h2)
    · exact Or.inr h
  refine ⟨?_, ?_, ?_, ?_, ?_, ?_⟩
  · intro t h1 h2 h3t h4t
    show m3 (t.2 * size + t.1) = 9 ↔ t = (exitRoom.centerX, exitRoom.centerY)
    constructor
    · intro h9
      rw [hm3d] at h9
      rcases setTile_cases cn.1 size exitRoom.centerX exitRoom.centerY 9
        (t.2 * size + t.1) with h | ⟨_, hi, _⟩
      · rw [h] at h9
        rcases hno9 (t.2 * size + t.1) with hv | hv <;> rw [hv] at h9 <;>
          exact absurd h9 (by norm_num)
      · obtain ⟨hte1, hte2⟩ := idx_inj size t.1 t.2 exitRoom.centerX
          exitRoom.centerY h1 h2 hebnd.1 hebnd.2.1 hi
        exact Prod.ext hte1 hte2
    · intro hteq
      rw [hteq]
      show m3 (exitRoom.centerY * size + exitRoom.centerX) = 9
      rw [hm3d]
      exact setTile_read cn.1 size exitRoom.centerX exitRoom.centerY 9
        ⟨hebnd.1, hebnd.2.1, hebnd.2.2.1, hebnd.2.2.2⟩
  · show roomContains exitRoom (exitRoom.centerX, exitRoom.centerY)
    exact center_in_room size exitRoom heok
  · exact hemem
  · intro m rm i hw hh
    rcases carveRoom_cases size rm hw hh m i with h | ⟨h, _⟩
    · exact Or.inl h
    · exact Or.inr h
  · intro m x1 x2 y i
    exact hTunnel_cases size x1 x2 y m i
  · intro m y1 y2 x i
    exact vTunnel_cases size y1 y2 x m i

/-- Claim C3 witness: the end-to-end scenario parameters (size 24,
minRoomSize 4, maxRoomSize 8, depth 4) with the fixed zero random
stream yield a non-empty room list. -/
theorem claim_C3_witness :
    (generateDungeon ratOracle 24 4 8 4).rooms ≠ [] :=
  (claim_C3 ratOracle 24 4 8 4
    (fun k => ⟨le_refl 0, by norm_num [ratOracle]⟩)
    (by norm_num) (by norm_num) (by norm_num)).1

/-- Claim C4 witness: on the same scenario the exit room is one of the
generated rooms. -/
theorem claim_C4_witness :
    (generateDungeon ratOracle 24 4 8 4).rooms.getLastD defaultRoom ∈
      (generateDungeon ratOracle 24 4 8 4).rooms :=
  (claim_C4 ratOracle 24 4 8 4
    (fun k => ⟨le_refl 0, by norm_num [ratOracle]⟩)
    (by norm_num) (by norm_num) (by norm_num)).2.2.1
